import Mathlib

/-!
Verification of the clearity-backend message-processing pipeline.

This file gives a shallow embedding, in Lean 4, of the parts of the
repository that its specification makes claims about:

* `app/services/layer4_actions.py` — the Reasoning & Task Engine
  (task sorting after decoding; persistence of issues, root causes,
  plans and tasks with an issue-id lookup map);
* `app/services/layer1_orchestrator.py` — the Pipeline Orchestrator
  (context-extraction fallback; response assembly / read-path caps);
* `app/services/layer2_mindmap.py` — the Graph Synthesizer and the
  Identity Reconciler (mind-map persistence, the ephemeral→persisted
  id map, connection-endpoint resolution);
* `app/repositories/*.py` — the repository layer, modelled as pure
  state passing over an explicit database record with a fresh-id
  counter (the storage engine is assumed to offer transactional
  single-statement CRUD with generated identifiers, as the spec says);
* `app/services/ai_client.py` — the Resilient Decoder
  (`json_completion`), together with an executable model of Python's
  `json.loads` at the token level (a full-grammar recursive-descent
  parser over `List Char`, faithful to the `json` module's documented
  grammar: optional leading/trailing whitespace, objects, arrays,
  strings with escape validation, numbers without leading zeros, the
  literals `null`/`true`/`false` and the non-standard constants
  `NaN`/`Infinity`/`-Infinity` that `json.loads` accepts by default).

Python strings are modelled as `List Char`, Python `float` scores as
`Rat` (only order comparisons on them occur in the modelled code),
database UUIDs as `Nat` drawn from a counter starting at 1 (a UUID is
always truthy in Python, so `if not x` on a looked-up id is `Option`
absence in the model), and Python dict absence/`None` as `Option`.
Scalar JSON payloads (numbers, string bodies) are kept as their raw
lexemes: the claims about the decoder compare decode results of texts
that contain the payload verbatim, so lexeme-level equality is enough
and is strictly finer than Python value equality.
-/

namespace Clearity

/-! ## Python strings and truthiness -/

/-- A Python `str`, modelled as its character list. -/
abbrev PyStr := List Char

/-- Python truthiness of a string: `bool(s)` is `False` exactly on `""`. -/
def pyTruthy (s : PyStr) : Bool := !s.isEmpty

/-! ## Layer 4 — Reasoning & Task Engine (`app/services/layer4_actions.py`)

`analyze_and_generate_tasks` decodes one generator response and then runs

    tasks.sort(key=lambda t: t.get("priority_score", 0), reverse=True)

`list.sort` in Python is a stable sort; with `reverse=True` the
comparisons are reversed but equal-key elements still keep their
original relative order.  The embedding uses a stable insertion sort
into descending key order: each element is inserted after the elements
with a strictly greater key and before the first element whose key is
less than or equal to its own, which is extensionally the unique
permutation that is non-increasing on keys and stable, hence equal to
what CPython's Timsort produces for this call. -/

/-- One decoded generator task.  `priority_score` is optional because the
generator's JSON is schema-fuzzy and the source reads it with
`t.get("priority_score", 0)`; `payload` stands for the rest of the task
dict (name, kpi, subtasks, ...), which the sorting never inspects. -/
structure GenTask where
  priority_score : Option Rat
  payload : Nat
deriving DecidableEq, Repr

/-- The sort key used by the source: `t.get("priority_score", 0)`. -/
def taskKey (t : GenTask) : Rat := t.priority_score.getD 0

/-- Insert a task into a (descending) list: walk past entries with a
strictly greater key, stop in front of the first entry whose key is
`≤` its own.  Earlier-inserted equal keys therefore stay in front. -/
def insertByKeyDesc (t : GenTask) : List GenTask → List GenTask
  | [] => [t]
  | u :: us =>
      if taskKey t < taskKey u then u :: insertByKeyDesc t us
      else t :: u :: us

/-- Stable descending sort by `taskKey`; the model of
`tasks.sort(key=lambda t: t.get("priority_score", 0), reverse=True)`. -/
def pySortTasksDesc : List GenTask → List GenTask
  | [] => []
  | t :: ts => insertByKeyDesc t (pySortTasksDesc ts)

/-- The decoded shape of the Layer-4 generator response that
`analyze_and_generate_tasks` returns.  Fields other than `tasks` are
threaded through untouched by the sorting step. -/
structure GenAnalysis where
  issues_payload : Nat
  root_causes_payload : Nat
  plans_payload : Nat
  tasks : List GenTask
  suggested_issue_payload : Nat
deriving DecidableEq, Repr

/-- `Layer4Actions.analyze_and_generate_tasks`, after the completion
call has been decoded into `response`: the source sorts
`response["tasks"]` in place by priority score descending and stores it
back, leaving every other key of the response unchanged. -/
def analyze_and_generate_tasks (response : GenAnalysis) : GenAnalysis :=
  { response with tasks := pySortTasksDesc response.tasks }

/-! ## Layer 1 — context extraction fallback (`_build_context`)

`Layer1Orchestrator._build_context` wraps the completion call in
`try/except`; on any raised exception it returns a fixed default dict
whose `summary` is `message[:200]`. -/

/-- The context record produced by `_build_context` (the five keys the
source's JSON prompt and its fallback dict both carry). -/
structure Context where
  emotion : PyStr
  emotion_intensity : PyStr
  user_intent : PyStr
  summary : PyStr
  session_stage : PyStr
deriving DecidableEq, Repr

/-- Outcome of the context-extraction completion call: either a decoded
context, or any raised exception (carried as an opaque payload). -/
inductive CompletionOutcome where
  | ok (ctx : Context)
  | exn (e : Nat)
deriving DecidableEq, Repr

/-- `Layer1Orchestrator._build_context`, abstracted over the outcome of
`ai_client.json_completion`: the `try` branch returns the decoded
context, the `except` branch returns the default context with
`summary = message[:200]`. -/
def build_context (outcome : CompletionOutcome) (message : PyStr) : Context :=
  match outcome with
  | .ok ctx => ctx
  | .exn _ =>
      { emotion := "unknown".toList
        emotion_intensity := "medium".toList
        user_intent := "understanding".toList
        summary := message.take 200
        session_stage := "early".toList }

/-! ## The persistence layer (`app/repositories/*.py`)

The storage engine is modelled as an explicit record of tables plus a
fresh-id counter.  Each repository call is one state transition; ids
are issued by the counter, starting at 1 (so a persisted id, like a
Postgres-generated UUID, is never Python-falsy).  The `project_fields`,
`issue_projects`, `task_projects` and `root_cause_issues` link tables
keyed by generated ids are kept as explicit row lists where a claim
reads them; a project's field list is kept inline on its row (the
source writes one `project_fields` row per field id and aggregates them
back on read, which is the same data keyed differently). -/

/-- A row of `mind_maps`. -/
structure MindMapRow where
  id : Nat
  session_id : Nat
  map_name : PyStr
  central_theme : PyStr
deriving DecidableEq, Repr

/-- A row of `projects` (both top-level projects and child nodes, as in
the source: a node is a project row with a non-null `parent_id`). -/
structure ProjectRow where
  id : Nat
  mind_map_id : Nat
  parent_id : Option Nat
  label : PyStr
  fields : List PyStr
  emotion : PyStr
  clarity : Option PyStr
  issue_severity : PyStr
  importance_score : Rat
  is_core_issue : Bool
  is_visible : Bool
  status : PyStr
deriving DecidableEq, Repr

/-- A row of `connections`. -/
structure ConnectionRow where
  id : Nat
  mind_map_id : Nat
  connection_type : PyStr
  from_id : Nat
  to_id : Nat
  strength : PyStr
  root_cause_id : Option Nat
deriving DecidableEq, Repr

/-- A row of `issues`. -/
structure IssueRow where
  id : Nat
  mind_map_id : Nat
  issue_type : PyStr
  description : PyStr
  severity : PyStr
deriving DecidableEq, Repr

/-- A row of `root_causes`. -/
structure RootCauseRow where
  id : Nat
  mind_map_id : Nat
  cause_id : PyStr
  short_explanation : PyStr
deriving DecidableEq, Repr

/-- A row of `plans`. -/
structure PlanRow where
  id : Nat
  issue_id : Nat
  steps : List PyStr
deriving DecidableEq, Repr

/-- A row of `tasks`.  `status` carries the table's server-side default
(the source never writes it at creation and reads it back verbatim). -/
structure TaskRow where
  id : Nat
  mind_map_id : Nat
  name : PyStr
  related_issue_id : Option Nat
  priority_score : Rat
  kpi : PyStr
  subtasks : List PyStr
  estimated_time_min : Option Int
  context_hint : Option PyStr
  status : PyStr
deriving DecidableEq, Repr

/-- A row of `snapshots` (`created_at` modelled as a monotone `Nat`
timestamp, which is all the `ORDER BY created_at DESC` read paths
inspect). -/
structure SnapshotRow where
  id : Nat
  session_id : Nat
  mind_map_id : Option Nat
  snapshot_payload : Nat
  progress_notes : Option PyStr
  unresolved_issues : List PyStr
  created_at : Nat
deriving DecidableEq, Repr

/-- A row of `sessions` (only the owner link matters to the claims). -/
structure SessionRow where
  id : Nat
  user_id : Nat
deriving DecidableEq, Repr

/-- The whole database, plus the generated-id counter. -/
structure Db where
  next_id : Nat
  mind_maps : List MindMapRow
  projects : List ProjectRow
  connections : List ConnectionRow
  issues : List IssueRow
  issue_projects : List (Nat × Nat)
  root_causes : List RootCauseRow
  root_cause_issues : List (Nat × Nat)
  plans : List PlanRow
  tasks : List TaskRow
  task_projects : List (Nat × Nat)
  snapshots : List SnapshotRow
  sessions : List SessionRow
deriving DecidableEq, Repr

/-- Issue one generated id. -/
def Db.fresh (db : Db) : Nat × Db :=
  (db.next_id, { db with next_id := db.next_id + 1 })

/-- `MindMapRepository.create_mind_map`. -/
def create_mind_map (session_id : Nat) (map_name central_theme : PyStr)
    (db : Db) : Nat × Db :=
  let (i, db') := db.fresh
  (i, { db' with mind_maps :=
          db'.mind_maps ++ [⟨i, session_id, map_name, central_theme⟩] })

/-- `MindMapRepository.update_mind_map`: builds the SQL `SET` list from
the Python-truthy arguments only, so an empty (falsy) `map_name` or
`central_theme` leaves that column untouched. -/
def update_mind_map (mind_map_id : Nat)
    (map_name central_theme : Option PyStr) (db : Db) : Db :=
  let setName : MindMapRow → MindMapRow := fun r =>
    match map_name with
    | some n => if pyTruthy n then { r with map_name := n } else r
    | none => r
  let setTheme : MindMapRow → MindMapRow := fun r =>
    match central_theme with
    | some t => if pyTruthy t then { r with central_theme := t } else r
    | none => r
  { db with mind_maps :=
      db.mind_maps.map (fun r =>
        if r.id = mind_map_id then setTheme (setName r) else r) }

/-- `ProjectRepository.create_project`.  The `status` column is not in
the INSERT's column list; its server-side default (`'active'`, the only
status the system's prompt vocabulary uses) fills it. -/
def create_project (mind_map_id : Nat) (label : PyStr)
    (fields : List PyStr) (emotion : PyStr) (parent_id : Option Nat)
    (clarity : Option PyStr) (issue_severity : PyStr)
    (importance_score : Rat) (is_core_issue : Bool) (is_visible : Bool)
    (db : Db) : Nat × Db :=
  let (i, db') := db.fresh
  (i, { db' with projects :=
          db'.projects ++ [⟨i, mind_map_id, parent_id, label, fields,
            emotion, clarity, issue_severity, importance_score,
            is_core_issue, is_visible, "active".toList⟩] })

/-- `ProjectRepository.create_connection`. -/
def create_connection (mind_map_id : Nat) (connection_type : PyStr)
    (from_id to_id : Nat) (strength : PyStr)
    (root_cause_id : Option Nat) (db : Db) : Nat × Db :=
  let (i, db') := db.fresh
  (i, { db' with connections :=
          db'.connections ++ [⟨i, mind_map_id, connection_type, from_id,
            to_id, strength, root_cause_id⟩] })

/-! ## Layer 2 — Graph Synthesizer and Identity Reconciler
(`app/services/layer2_mindmap.py`)

The generator's decoded candidate graph carries ephemeral string ids.
Optional dict keys are `Option`; `get(k, default)` is `Option.getD`.
`build_mind_map` sends the prompt and returns the decoded response
unchanged (the only post-processing in the source is a log line), so
its data content is the decoded candidate graph itself. -/

/-- A candidate child node from the generator. -/
structure CandNode where
  id : Option PyStr
  label : PyStr
  fields : Option (List PyStr)
  emotion : Option PyStr
  importance_score : Option Rat
  is_core_issue : Option Bool
deriving DecidableEq, Repr

/-- A candidate top-level project from the generator. -/
structure CandProject where
  id : Option PyStr
  label : PyStr
  fields : Option (List PyStr)
  emotion : Option PyStr
  clarity : Option PyStr
  issue_severity : Option PyStr
  importance_score : Option Rat
  is_core_issue : Option Bool
  nodes : Option (List CandNode)
deriving DecidableEq, Repr

/-- A candidate connection from the generator.  `from_id`/`to_id` are
accessed with `conn["from_id"]`/`conn["to_id"]` (mandatory keys), the
root-cause reference with `conn.get("root_cause_id")` (optional). -/
structure CandConn where
  conn_type : PyStr
  from_id : PyStr
  to_id : PyStr
  strength : Option PyStr
  root_cause_id : Option PyStr
deriving DecidableEq, Repr

/-- The decoded candidate graph (`mind_map_data`). -/
structure CandGraph where
  map_name : PyStr
  central_theme : PyStr
  fields_payload : Nat
  projects : Option (List CandProject)
  connections : Option (List CandConn)
deriving DecidableEq, Repr

/-- `Layer2MindMap.build_mind_map`, after the completion call has been
decoded: the source logs `response.get('map_name', ...)` and returns
`response` as-is — there is no truncation or other shaping between the
decode and the caller. -/
def build_mind_map (response : CandGraph) : CandGraph :=
  response

/-- The per-turn ephemeral→persisted id map (`id_mapping`).  A Python
dict write overwrites, so insertion conses and lookup takes the most
recent binding. -/
abbrev IdMap := List (PyStr × Nat)

/-- `id_mapping[ai_id] = db_uuid`. -/
def idmap_insert (k : PyStr) (v : Nat) (m : IdMap) : IdMap := (k, v) :: m

/-- `id_mapping.get(ai_id)`. -/
def idmap_lookup (k : PyStr) (m : IdMap) : Option Nat :=
  (m.find? (fun p => p.1 == k)).map (·.2)

/-- The guarded map write `if "id" in data and data["id"]: id_mapping[str(data["id"])] = db_id`:
the key must be present and Python-truthy. -/
def idmap_record (ephemeral : Option PyStr) (db_id : Nat) (m : IdMap) : IdMap :=
  match ephemeral with
  | some s => if pyTruthy s then idmap_insert s db_id m else m
  | none => m

/-- The node-creation step inside `_persist_project`: create the child
row parented to the fresh project id (falling back to the project's
field list when the node has none) and record its ephemeral id. -/
def persist_node (mind_map_id : Nat) (proj_fields : Option (List PyStr))
    (project_id : Nat) (acc : Db × IdMap) (nd : CandNode) : Db × IdMap :=
  let (node_id, dbn) := create_project mind_map_id nd.label
    (nd.fields.getD (proj_fields.getD [])) (nd.emotion.getD "grey".toList)
    (some project_id) none "none".toList
    (nd.importance_score.getD (1/2)) (nd.is_core_issue.getD false)
    true acc.1
  (dbn, idmap_record nd.id node_id acc.2)

/-- `Layer2MindMap._persist_project`: create the project row, record its
ephemeral id, then create each child node row (parented to the fresh
project id) and record its ephemeral id. -/
def persist_project (mind_map_id : Nat) (pd : CandProject)
    (db : Db) (m : IdMap) : Nat × Db × IdMap :=
  let (project_id, db1) := create_project mind_map_id pd.label
    (pd.fields.getD []) (pd.emotion.getD "grey".toList) none pd.clarity
    (pd.issue_severity.getD "none".toList)
    (pd.importance_score.getD (1/2)) (pd.is_core_issue.getD false) true db
  let m1 := idmap_record pd.id project_id m
  let (db2, m2) := (pd.nodes.getD []).foldl
    (persist_node mind_map_id pd.fields project_id) (db1, m1)
  (project_id, db2, m2)

/-- The root-cause resolution step of `_persist_connection`:
`conn.get("root_cause_id")` must be present and truthy, and is then
looked up in the id map, defaulting to `None` when unresolved. -/
def resolve_root_cause (m : IdMap) (rc : Option PyStr) : Option Nat :=
  match rc with
  | some s => if pyTruthy s then idmap_lookup s m else none
  | none => none

/-- `Layer2MindMap._persist_connection`: look up both endpoints; if
either is missing from the id map, skip the connection (log and
return, no error); otherwise resolve the optional root cause the same
way and create the row. -/
def persist_connection (mind_map_id : Nat) (c : CandConn) (m : IdMap)
    (db : Db) : Db :=
  match idmap_lookup c.from_id m, idmap_lookup c.to_id m with
  | some f, some t =>
      (create_connection mind_map_id c.conn_type f t
        (c.strength.getD "medium".toList)
        (resolve_root_cause m c.root_cause_id) db).2
  | some _, none => db
  | none, _ => db

/-- The projects phase of `persist_mind_map`: fold `_persist_project`
over the candidate projects, threading the database and the id map
(which starts empty each turn). -/
def persist_projects_phase (mind_map_id : Nat)
    (ps : List CandProject) (db : Db) : Db × IdMap :=
  ps.foldl (fun acc pd =>
      let r := persist_project mind_map_id pd acc.1 acc.2
      (r.2.1, r.2.2))
    (db, ([] : IdMap))

/-- The header phase of `persist_mind_map`: update the existing
mind-map row (passing this turn's generator-produced `map_name` and
`central_theme`) or create a fresh one. -/
def persist_header (session_id : Nat) (mind_map_data : CandGraph)
    (existing_mind_map_id : Option Nat) (db : Db) : Nat × Db :=
  match existing_mind_map_id with
  | some mid =>
      (mid, update_mind_map mid (some mind_map_data.map_name)
        (some mind_map_data.central_theme) db)
  | none =>
      create_mind_map session_id mind_map_data.map_name
        mind_map_data.central_theme db

/-- The connections phase of `persist_mind_map`: walk the candidate
connection list through `_persist_connection` with the completed id
map. -/
def persist_connections_phase (mind_map_id : Nat) (cs : List CandConn)
    (m : IdMap) (db : Db) : Db :=
  cs.foldl (fun dbc c => persist_connection mind_map_id c m dbc) db

/-- `Layer2MindMap.persist_mind_map`: header row, then all projects and
nodes (building `id_mapping` afresh for this turn), then the candidate
connections. -/
def persist_mind_map (session_id : Nat) (mind_map_data : CandGraph)
    (existing_mind_map_id : Option Nat) (db : Db) : Nat × Db :=
  let h := persist_header session_id mind_map_data existing_mind_map_id db
  let pp := persist_projects_phase h.1 (mind_map_data.projects.getD []) h.2
  (h.1, persist_connections_phase h.1 (mind_map_data.connections.getD [])
    pp.2 pp.1)

/-- Specification of the rows the connections phase appends: one row
per candidate whose two endpoints both resolve, carrying the resolved
endpoints, the resolved-or-null root cause, and consecutive generated
ids.  (`persist_connections_spec` is proved equal to the fold below.) -/
def persist_connections_spec (mind_map_id : Nat) (m : IdMap)
    (next : Nat) : List CandConn → List ConnectionRow
  | [] => []
  | c :: cs =>
      match idmap_lookup c.from_id m, idmap_lookup c.to_id m with
      | some f, some t =>
          ⟨next, mind_map_id, c.conn_type, f, t,
            c.strength.getD "medium".toList,
            resolve_root_cause m c.root_cause_id⟩ ::
            persist_connections_spec mind_map_id m (next + 1) cs
      | some _, none => persist_connections_spec mind_map_id m next cs
      | none, _ => persist_connections_spec mind_map_id m next cs

/-- Both endpoints of a candidate connection resolve through the id
map (the persist-or-drop test of `_persist_connection`). -/
def conn_resolvable (m : IdMap) (c : CandConn) : Bool :=
  (idmap_lookup c.from_id m).isSome && (idmap_lookup c.to_id m).isSome

/-- Rows are only ever appended to the `projects` table. -/
def projects_extended (db db' : Db) : Prop :=
  ∃ tail, db'.projects = db.projects ++ tail

/-- Every id the ephemeral→persisted map holds is the generated id of a
project row persisted for this turn's mind map. -/
def idmap_sound (mind_map_id : Nat) (db : Db) (m : IdMap) : Prop :=
  ∀ kv ∈ m, ∃ p ∈ db.projects, p.id = kv.2 ∧ p.mind_map_id = mind_map_id

/-! ## SQL `ORDER BY ... DESC` read paths

The repositories' read queries sort rows by a key, descending.  SQL
leaves tied rows unordered; the model determinizes ties by keeping the
scanned order (a stable descending insertion sort, as for the task
sort).  A two-key `ORDER BY a DESC, b DESC` is the stable sort by `b`
descending followed by the stable sort by `a` descending. -/

/-- Generic stable descending insert by a key into a linear order. -/
def insert_desc_key {α κ : Type} [LinearOrder κ] (key : α → κ)
    (x : α) : List α → List α
  | [] => [x]
  | y :: ys =>
      if key x < key y then y :: insert_desc_key key x ys
      else x :: y :: ys

/-- Generic stable descending sort by a key. -/
def sort_desc_key {α κ : Type} [LinearOrder κ] (key : α → κ) :
    List α → List α
  | [] => []
  | x :: xs => insert_desc_key key x (sort_desc_key key xs)

/-- `MindMapRepository.get_mind_map`: `WHERE id = $1`, one row. -/
def get_mind_map (mind_map_id : Nat) (db : Db) : Option MindMapRow :=
  db.mind_maps.find? (fun r => r.id == mind_map_id)

/-- `ProjectRepository.get_mind_map_projects`: top-level (`parent_id IS
NULL`), optionally visible-only, `ORDER BY importance_score DESC`. -/
def get_mind_map_projects (mind_map_id : Nat) (visible_only : Bool)
    (db : Db) : List ProjectRow :=
  sort_desc_key (fun p => p.importance_score)
    (db.projects.filter (fun p =>
      p.mind_map_id == mind_map_id && p.parent_id.isNone &&
        (!visible_only || p.is_visible)))

/-- `ProjectRepository.get_project_nodes`: visible children of a
parent, `ORDER BY importance_score DESC, is_core_issue DESC LIMIT $2`. -/
def get_project_nodes (parent_id : Nat) (limit : Nat) (db : Db) :
    List ProjectRow :=
  (sort_desc_key (fun p => p.importance_score)
    (sort_desc_key (fun p => p.is_core_issue)
      (db.projects.filter (fun p =>
        p.parent_id == some parent_id && p.is_visible)))).take limit

/-- `ProjectRepository.get_mind_map_connections`: `ORDER BY created_at
DESC LIMIT $2`; creation time order is insertion order, so most recent
first is the reverse of the table's suffix for this map. -/
def get_mind_map_connections (mind_map_id : Nat) (limit : Nat)
    (db : Db) : List ConnectionRow :=
  ((db.connections.filter (fun c => c.mind_map_id == mind_map_id)
    ).reverse).take limit

/-- `fid.replace("_", " ")`. -/
def replace_underscores (s : PyStr) : PyStr :=
  s.map (fun c => if c = '_' then ' ' else c)

/-- `str.title()`: uppercase every letter that follows a non-letter
(or starts the string), lowercase the other letters. -/
def title_case : PyStr → PyStr :=
  let rec go (prevAlpha : Bool) : PyStr → PyStr
    | [] => []
    | c :: cs =>
        if c.isAlpha then
          (if prevAlpha then c.toLower else c.toUpper) :: go true cs
        else c :: go false cs
  go false

/-- A node dict of the assembled `mind_map` response. -/
structure NodeResp where
  id : Nat
  label : PyStr
  emotion : PyStr
  importance_score : Rat
  is_core_issue : Bool
  parent_id : Option Nat
  fields : List PyStr
deriving DecidableEq, Repr

/-- A project dict of the assembled `mind_map` response. -/
structure ProjectResp where
  id : Nat
  label : PyStr
  fields : List PyStr
  emotion : PyStr
  clarity : Option PyStr
  issue_severity : PyStr
  status : PyStr
  nodes : List NodeResp
deriving DecidableEq, Repr

/-- A connection dict of the assembled `mind_map` response. -/
structure ConnResp where
  conn_type : PyStr
  from_id : Nat
  to_id : Nat
  strength : PyStr
  root_cause_id : Option Nat
deriving DecidableEq, Repr

/-- The assembled `mind_map` object of the reply payload. -/
structure MindMapResp where
  map_name : PyStr
  central_theme : PyStr
  fields : List (PyStr × PyStr)
  projects : List ProjectResp
  connections : List ConnResp
deriving DecidableEq, Repr

/-- The `fields_set` accumulation of `_format_mind_map_response` (a
Python `set`; the model keeps first-seen order as the determinization
of set iteration order). -/
def collect_fields (ps : List ProjectResp) : List PyStr :=
  (ps.foldl (fun acc p => acc ++ p.fields) []).dedup

/-- `Layer1Orchestrator._format_mind_map_response`: read the mind-map
row; read visible top-level projects and keep the first 5; for each,
read its visible nodes with `limit=3`; read connections; build the
field list from the projects' field ids. -/
def format_mind_map_response (mind_map_id : Nat) (db : Db) :
    Option MindMapResp :=
  match get_mind_map mind_map_id db with
  | none => none
  | some mm =>
      let projects_data := get_mind_map_projects mind_map_id true db
      let connections_data := get_mind_map_connections mind_map_id 7 db
      let projects : List ProjectResp := (projects_data.take 5).map (fun proj =>
        { id := proj.id
          label := proj.label
          fields := proj.fields
          emotion := proj.emotion
          clarity := proj.clarity
          issue_severity := proj.issue_severity
          status := proj.status
          nodes := (get_project_nodes proj.id 3 db).map (fun node =>
            { id := node.id
              label := node.label
              emotion := node.emotion
              importance_score := node.importance_score
              is_core_issue := node.is_core_issue
              parent_id := node.parent_id
              fields := node.fields }) })
      some
        { map_name := mm.map_name
          central_theme := mm.central_theme
          fields := (collect_fields projects).map (fun fid =>
            (fid, title_case (replace_underscores fid)))
          projects := projects
          connections := connections_data.map (fun c =>
            { conn_type := c.connection_type
              from_id := c.from_id
              to_id := c.to_id
              strength := c.strength
              root_cause_id := c.root_cause_id }) }

/-! ## The Resilient Decoder (`AIClient.json_completion`) and a model
of Python's `json.loads`

`json.loads` is standard-library code consumed at the decoder's
boundary; it is modelled as an executable recursive-descent parser
over `List Char`, faithful to the `json` module's grammar and scanner:

* whitespace between tokens is exactly space, tab, newline, carriage
  return;
* strings validate escapes (`\" \\ \/ \b \f \n \r \t` and `\u` + four
  hex digits) and reject raw control characters below `0x20`
  (`strict=True`, the default);
* numbers follow `-?(0|[1-9][0-9]*)(\.[0-9]+)?([eE][+-]?[0-9]+)?`,
  each optional group taken only when complete (regex munching), so
  `01` scans as `0` with `1` left over, exactly as CPython's scanner;
* the literals `null`/`true`/`false` and the non-standard constants
  `NaN`/`Infinity`/`-Infinity` (accepted by default) are recognized at
  value positions, `-Infinity` only after the number scan at `-`
  fails;
* arrays and objects allow whitespace around every token, forbid
  trailing commas, require string keys and `:`;
* the top level skips leading whitespace, parses one value, and
  requires only whitespace to follow.

Scalar payloads are kept as raw lexemes (see the file header).  The
recursion is fuelled; `2·|input| + 2` units are enough (proved below),
making the fuel invisible at the `py_json_loads` boundary. -/

/-- JSON whitespace (the `json` module's `' \t\n\r'`). -/
def json_ws (c : Char) : Bool :=
  c == ' ' || c == '\t' || c == '\n' || c == '\r'

/-- Python `str.strip()` whitespace (ASCII fragment): JSON whitespace
plus vertical tab and form feed. -/
def py_space (c : Char) : Bool :=
  json_ws c || c == Char.ofNat 11 || c == Char.ofNat 12

/-- Skip JSON whitespace. -/
def skip_ws : List Char → List Char
  | [] => []
  | c :: cs => if json_ws c then skip_ws cs else c :: cs

def is_digit (c : Char) : Bool := '0' ≤ c && c ≤ '9'

def is_hex (c : Char) : Bool :=
  is_digit c || ('a' ≤ c && c ≤ 'f') || ('A' ≤ c && c ≤ 'F')

/-- The one-character string escapes of strict `json` decoding. -/
def simple_escape (e : Char) : Bool :=
  e == '"' || e == '\\' || e == '/' || e == 'b' || e == 'f' ||
    e == 'n' || e == 'r' || e == 't'

/-- A decoded JSON value at the token level. -/
inductive JValue where
  | jnull
  | jtrue
  | jfalse
  | jnan
  | jinf
  | jneginf
  | jnum (lexeme : List Char)
  | jstr (lexeme : List Char)
  | jarr (elems : List JValue)
  | jobj (members : List (List Char × JValue))

mutual

/-- Scan a string body after the opening quote: returns the raw lexeme
(escapes kept) and the input after the closing quote; `none` on an
unterminated string, an invalid escape, a bad `\u` sequence, or a raw
control character (strict mode). -/
def scan_string : List Char → Option (List Char × List Char)
  | [] => none
  | c :: cs =>
      if c = '"' then some ([], cs)
      else if c = '\\' then scan_escape cs
      else if c.toNat < 32 then none
      else (scan_string cs).map (fun r => (c :: r.1, r.2))
termination_by structural s => s

/-- The input just after a backslash inside a string body. -/
def scan_escape : List Char → Option (List Char × List Char)
  | [] => none
  | e :: cs' =>
      if e = 'u' then scan_unicode cs'
      else if simple_escape e then
        (scan_string cs').map (fun r => ('\\' :: e :: r.1, r.2))
      else none
termination_by structural s => s

/-- The input just after `\u` inside a string body: four hex digits. -/
def scan_unicode : List Char → Option (List Char × List Char)
  | a :: b :: c2 :: d :: cs'' =>
      if is_hex a && is_hex b && is_hex c2 && is_hex d then
        (scan_string cs'').map
          (fun r => ('\\' :: 'u' :: a :: b :: c2 :: d :: r.1, r.2))
      else none
  | _ => none
termination_by structural s => s

end

/-- Longest digit run. -/
def take_digits : List Char → List Char × List Char
  | [] => ([], [])
  | c :: cs =>
      if is_digit c then
        let r := take_digits cs
        (c :: r.1, r.2)
      else ([], c :: cs)

/-- The input just after a decimal point: the fraction group is taken
only when at least one digit follows. -/
def scan_frac_dot : List Char → List Char × List Char
  | [] => ([], ['.'])
  | d :: r2 =>
      if is_digit d then
        let t := take_digits r2
        ('.' :: d :: t.1, t.2)
      else ([], '.' :: d :: r2)

/-- The optional fraction group `(\.[0-9]+)?`. -/
def scan_frac : List Char → List Char × List Char
  | [] => ([], [])
  | c :: r => if c = '.' then scan_frac_dot r else ([], c :: r)

/-- The input just after `e`/`E`: an optional sign then one-or-more
digits, or nothing of the group is taken. -/
def scan_exp_tail (e : Char) : List Char → List Char × List Char
  | [] => ([], [e])
  | c :: r =>
      if c == '+' || c == '-' then
        match take_digits r with
        | ([], _) => ([], e :: c :: r)
        | (ds, r2) => (e :: c :: ds, r2)
      else
        match take_digits (c :: r) with
        | ([], _) => ([], e :: c :: r)
        | (ds, r2) => (e :: ds, r2)

/-- The optional exponent group `([eE][+-]?[0-9]+)?`: taken only when
complete. -/
def scan_exp : List Char → List Char × List Char
  | [] => ([], [])
  | e :: rest =>
      if e == 'e' || e == 'E' then scan_exp_tail e rest
      else ([], e :: rest)

/-- The integer part and the optional groups after the optional minus
sign (`neg` is `['-']` or `[]`): `(0|[1-9][0-9]*)` with no leading
zeros, then fraction, then exponent. -/
def scan_number_body (neg : List Char) : List Char →
    Option (List Char × List Char)
  | [] => none
  | c :: r =>
      if c = '0' then
        let f := scan_frac r
        let x := scan_exp f.2
        some (neg ++ ('0' :: f.1 ++ x.1), x.2)
      else if is_digit c then
        let d := take_digits r
        let f := scan_frac d.2
        let x := scan_exp f.2
        some (neg ++ (c :: d.1 ++ f.1 ++ x.1), x.2)
      else none

/-- Scan one number token at a position starting with `-` or a digit:
`-?(0|[1-9][0-9]*)` then the optional fraction and exponent groups.
Fails only when `-` is not followed by a digit. -/
def scan_number : List Char → Option (List Char × List Char)
  | [] => none
  | c :: r =>
      if c = '-' then scan_number_body ['-'] r
      else scan_number_body [] (c :: r)

/-- Match a literal (`null`, `true`, ..., `-Infinity`): the rest of
the input on success. -/
def strip_lit : List Char → List Char → Option (List Char)
  | [], s => some s
  | _ :: _, [] => none
  | p :: ps, c :: cs => if c = p then strip_lit ps cs else none

mutual

/-- Parse one JSON value at a value position (no leading whitespace:
callers skip it), in the `json` scanner's dispatch order. -/
def parse_value (fuel : Nat) (s : List Char) :
    Option (JValue × List Char) :=
  match fuel with
  | 0 => none
  | fuel + 1 =>
      match s with
      | [] => none
      | c :: r =>
          if c = '"' then
            (scan_string r).map (fun t => (JValue.jstr t.1, t.2))
          else if c = '{' then
            match skip_ws r with
            | '}' :: r' => some (.jobj [], r')
            | r' => (parse_members fuel r').map
                (fun t => (JValue.jobj t.1, t.2))
          else if c = '[' then
            match skip_ws r with
            | ']' :: r' => some (.jarr [], r')
            | r' => (parse_elems fuel r').map
                (fun t => (JValue.jarr t.1, t.2))
          else
            match strip_lit "null".toList s with
            | some r' => some (.jnull, r')
            | none =>
            match strip_lit "true".toList s with
            | some r' => some (.jtrue, r')
            | none =>
            match strip_lit "false".toList s with
            | some r' => some (.jfalse, r')
            | none =>
                if c = '-' || is_digit c then
                  match scan_number s with
                  | some t => some (.jnum t.1, t.2)
                  | none =>
                      match strip_lit "-Infinity".toList s with
                      | some r' => some (.jneginf, r')
                      | none => none
                else
                  match strip_lit "NaN".toList s with
                  | some r' => some (.jnan, r')
                  | none =>
                  match strip_lit "Infinity".toList s with
                  | some r' => some (.jinf, r')
                  | none => none
termination_by structural fuel

/-- Parse one-or-more comma-separated array elements (the empty array
is handled at the `[`); expects a value at the head. -/
def parse_elems (fuel : Nat) (s : List Char) :
    Option (List JValue × List Char) :=
  match fuel with
  | 0 => none
  | fuel + 1 =>
      match parse_value fuel s with
      | none => none
      | some (v, rest) =>
          match skip_ws rest with
          | ',' :: r => (parse_elems fuel (skip_ws r)).map
              (fun t => (v :: t.1, t.2))
          | ']' :: r => some ([v], r)
          | _ => none
termination_by structural fuel

/-- Parse one-or-more object members (the empty object is handled at
the `{`); expects the key's opening quote at the head. -/
def parse_members (fuel : Nat) (s : List Char) :
    Option (List (List Char × JValue) × List Char) :=
  match fuel with
  | 0 => none
  | fuel + 1 =>
      match s with
      | '"' :: r =>
          match scan_string r with
          | none => none
          | some (key, r1) =>
              match skip_ws r1 with
              | ':' :: r2 =>
                  match parse_value fuel (skip_ws r2) with
                  | none => none
                  | some (v, r3) =>
                      match skip_ws r3 with
                      | ',' :: r4 => (parse_members fuel (skip_ws r4)).map
                          (fun t => ((key, v) :: t.1, t.2))
                      | '}' :: r4 => some ([(key, v)], r4)
                      | _ => none
              | _ => none
      | _ => none
termination_by structural fuel

end

/-- `json.loads`: skip leading whitespace, parse one value, allow only
trailing whitespace.  `2·|s| + 2` fuel units always suffice (proved
below), so the fuel argument is invisible here. -/
def py_json_loads (s : List Char) : Option JValue :=
  match parse_value (2 * s.length + 2) (skip_ws s) with
  | some (v, rest) => if (skip_ws rest).isEmpty then some v else none
  | none => none

/-! ### The decode pipeline of `AIClient.json_completion` -/

/-- Python `str.strip()` from the left. -/
def strip_left (s : List Char) : List Char := s.dropWhile py_space

/-- Python `str.strip()` from the right. -/
def strip_right (s : List Char) : List Char :=
  (s.reverse.dropWhile py_space).reverse

/-- Python `str.strip()`. -/
def py_strip (s : List Char) : List Char := strip_right (strip_left s)

/-- `"```json"`, the fence prefix the decoder strips (7 characters). -/
def fence_open : List Char :=
  Char.ofNat 96 :: Char.ofNat 96 :: Char.ofNat 96 :: 'j' :: 's' ::
    'o' :: 'n' :: []

/-- `"```"`, the fence suffix the decoder strips (3 characters). -/
def fence_close : List Char :=
  Char.ofNat 96 :: Char.ofNat 96 :: Char.ofNat 96 :: []

/-- `s.endswith(pat)`. -/
def ends_with (pat s : List Char) : Bool :=
  (strip_lit pat.reverse s.reverse).isSome

/-- The fence-stripping repair step of `json_completion`:

    response_clean = response.strip()
    if response_clean.startswith("```json"):
        response_clean = response_clean[7:]
    if response_clean.endswith("```"):
        response_clean = response_clean[:-3]
    response_clean = response_clean.strip()

`startswith("```json")` with the `[7:]` slice removes exactly those 7
characters, which is `strip_lit fence_open`. -/
def fence_strip (s : List Char) : List Char :=
  let s1 := py_strip s
  let s2 := match strip_lit fence_open s1 with
            | some r => r
            | none => s1
  let s3 := if ends_with fence_close s2 then s2.take (s2.length - 3)
            else s2
  py_strip s3

/-- The classified decode failure (`ValueError`) together with the
truncation diagnostic the except-branch computes from the response
length and the requested token budget. -/
structure DecodeError where
  truncated_hint : Bool
  max_tokens : Nat
deriving DecidableEq, Repr

/-- The decode pipeline of `AIClient.json_completion`, given the raw
completion text: direct `json.loads`; on failure, note the truncation
diagnostic (`len(response) > max_tokens * 3`), strip fences and retry;
on a second failure raise the classified error. -/
def json_completion_decode (response : List Char) (max_tokens : Nat) :
    Except DecodeError JValue :=
  match py_json_loads response with
  | some v => .ok v
  | none =>
      let hint := decide (max_tokens * 3 < response.length)
      match py_json_loads (fence_strip response) with
      | some v => .ok v
      | none => .error ⟨hint, max_tokens⟩

/-- The raw response consisting of a text wrapped in triple-backtick
code fences with a leading `json` language tag. -/
def fence_wrap (j : List Char) : List Char :=
  fence_open ++ '\n' :: j ++ '\n' :: fence_close

/-! ## Layer 4 persistence (`persist_analysis_and_tasks`) and the
analysis/tasks read paths

The decoded Layer-4 response: keys the source indexes directly
(`issue_data["id"]`, `task_data["name"]`, ...) are plain fields; keys
it reads with `.get` are `Option`. -/

/-- A decoded issue (`response["issues"][k]`).  `projects` is in the
generator schema but never read by persistence. -/
structure GIssue where
  issue_id : PyStr
  description : PyStr
  severity : Option PyStr
  projects : Option (List PyStr)
deriving DecidableEq, Repr

/-- A decoded root cause. -/
structure GCause where
  cause_id : PyStr
  short_explanation : PyStr
  linked_issues : Option (List PyStr)
deriving DecidableEq, Repr

/-- A decoded remediation plan. -/
structure GPlan where
  plan_issue_id : PyStr
  goal : Option PyStr
  steps : Option (List PyStr)
deriving DecidableEq, Repr

/-- A decoded task as the persistence step reads it (`name`, `kpi`,
`subtasks`, `priority_score` are indexed directly; the rest with
`.get`). -/
structure GTask where
  name : PyStr
  kpi : PyStr
  subtasks : List PyStr
  priority_score : Rat
  related_issue : Option PyStr
  related_projects : Option (List PyStr)
  estimated_time_min : Option Int
  context_hint : Option PyStr
deriving DecidableEq, Repr

/-- The decoded Layer-4 response as persistence consumes it. -/
structure AnalysisResp where
  issues : List GIssue
  root_causes : List GCause
  plans : List GPlan
  tasks : List GTask
deriving DecidableEq, Repr

/-- `TaskRepository.create_issue`: insert the row; then insert one
`issue_projects` link per given project id — but only when the list is
Python-truthy (non-empty). -/
def create_issue (mind_map_id : Nat) (issue_type description
    severity : PyStr) (project_ids : List Nat) (db : Db) : Nat × Db :=
  let (i, db') := db.fresh
  let db2 := { db' with issues :=
    db'.issues ++ [⟨i, mind_map_id, issue_type, description, severity⟩] }
  (i, if project_ids.isEmpty then db2
      else { db2 with issue_projects :=
        db2.issue_projects ++ project_ids.map (fun pid => (i, pid)) })

/-- `TaskRepository.create_root_cause`. -/
def create_root_cause (mind_map_id : Nat) (cause_id explanation : PyStr)
    (linked_issues : List Nat) (db : Db) : Nat × Db :=
  let (i, db') := db.fresh
  let db2 := { db' with root_causes :=
    db'.root_causes ++ [⟨i, mind_map_id, cause_id, explanation⟩] }
  (i, if linked_issues.isEmpty then db2
      else { db2 with root_cause_issues :=
        db2.root_cause_issues ++ linked_issues.map (fun iid => (i, iid)) })

/-- `TaskRepository.create_plan`. -/
def create_plan (issue_id : Nat) (steps : List PyStr) (db : Db) :
    Nat × Db :=
  let (i, db') := db.fresh
  (i, { db' with plans := db'.plans ++ [⟨i, issue_id, steps⟩] })

/-- `TaskRepository.create_task`: insert the row (`status` filled by
the table default); then one `task_projects` link per related project —
only when that list is Python-truthy (non-empty). -/
def create_task (mind_map_id : Nat) (name kpi : PyStr)
    (subtasks : List PyStr) (priority_score : Rat)
    (related_issue_id : Option Nat) (related_projects : List Nat)
    (estimated_time_min : Option Int) (context_hint : Option PyStr)
    (db : Db) : Nat × Db :=
  let (i, db') := db.fresh
  let db2 := { db' with tasks :=
    db'.tasks ++ [⟨i, mind_map_id, name, related_issue_id,
      priority_score, kpi, subtasks, estimated_time_min, context_hint,
      "pending".toList⟩] }
  (i, if related_projects.isEmpty then db2
      else { db2 with task_projects :=
        db2.task_projects ++ related_projects.map (fun pid => (i, pid)) })

/-- The issues loop of `persist_analysis_and_tasks`: create each issue
row with `project_ids=[]` and record `issue_id_map[issue["id"]] =
db_id`. -/
def persist_issues_phase (mind_map_id : Nat) (issues : List GIssue)
    (db : Db) : Db × IdMap :=
  issues.foldl (fun acc issue_data =>
      let r := create_issue mind_map_id issue_data.issue_id
        issue_data.description (issue_data.severity.getD "medium".toList)
        [] acc.1
      (r.2, idmap_insert issue_data.issue_id r.1 acc.2))
    (db, ([] : IdMap))

/-- The root-causes loop: linked issue ids are the map lookups of the
`linked_issues` entries that are present in the map. -/
def persist_causes_phase (mind_map_id : Nat) (causes : List GCause)
    (m : IdMap) (db : Db) : Db :=
  causes.foldl (fun dbc cause_data =>
      (create_root_cause mind_map_id cause_data.cause_id
        cause_data.short_explanation
        ((cause_data.linked_issues.getD []).filterMap
          (fun iid => idmap_lookup iid m)) dbc).2)
    db

/-- The plans loop: a plan is persisted only when its `issue_id` is a
key of the issue-id map, referencing the mapped (freshly created)
issue row; otherwise it is skipped. -/
def persist_plans_phase (plans : List GPlan) (m : IdMap) (db : Db) :
    Db :=
  plans.foldl (fun dbc plan_data =>
      match idmap_lookup plan_data.plan_issue_id m with
      | some iid => (create_plan iid (plan_data.steps.getD []) dbc).2
      | none => dbc)
    db

/-- The tasks loop: at most the first 5 decoded tasks; the related
issue resolves through the map (absent or unmapped → NULL);
`related_projects` is always passed as `[]`. -/
def persist_tasks_phase (mind_map_id : Nat) (tasks : List GTask)
    (m : IdMap) (db : Db) : Db × List Nat :=
  (tasks.take 5).foldl (fun acc task_data =>
      let related_issue_id :=
        match task_data.related_issue with
        | some s => idmap_lookup s m
        | none => none
      let r := create_task mind_map_id task_data.name task_data.kpi
        task_data.subtasks task_data.priority_score related_issue_id
        [] task_data.estimated_time_min task_data.context_hint acc.1
      (r.2, acc.2 ++ [r.1]))
    (db, ([] : List Nat))

/-- `Layer4Actions.persist_analysis_and_tasks`: issues (building the
issue-id map), then root causes, then plans, then tasks.  Returns the
issue-id map, the created task ids, and the final state. -/
def persist_analysis_and_tasks (mind_map_id : Nat)
    (response : AnalysisResp) (db : Db) : IdMap × List Nat × Db :=
  let p1 := persist_issues_phase mind_map_id response.issues db
  let db2 := persist_causes_phase mind_map_id response.root_causes p1.2 p1.1
  let db3 := persist_plans_phase response.plans p1.2 db2
  let p4 := persist_tasks_phase mind_map_id response.tasks p1.2 db3
  (p1.2, p4.2, p4.1)

/-- Specification of the issue rows the issues loop appends: one row
per decoded issue, consecutive generated ids, empty project links. -/
def persist_issues_spec (mind_map_id : Nat) (next : Nat) :
    List GIssue → List IssueRow
  | [] => []
  | issue_data :: rest =>
      ⟨next, mind_map_id, issue_data.issue_id, issue_data.description,
        issue_data.severity.getD "medium".toList⟩ ::
        persist_issues_spec mind_map_id (next + 1) rest

/-- Specification of the plan rows the plans loop appends: one row per
decoded plan whose `issue_id` resolves through the issue-id map. -/
def persist_plans_spec (m : IdMap) (next : Nat) :
    List GPlan → List PlanRow
  | [] => []
  | plan_data :: rest =>
      match idmap_lookup plan_data.plan_issue_id m with
      | some iid =>
          ⟨next, iid, plan_data.steps.getD []⟩ ::
            persist_plans_spec m (next + 1) rest
      | none => persist_plans_spec m next rest

/-- A decoded plan's issue reference resolves through the issue map. -/
def plan_resolvable (m : IdMap) (p : GPlan) : Bool :=
  (idmap_lookup p.plan_issue_id m).isSome

/-- Every id the issue map holds is the generated id of an issue row
persisted for this mind map. -/
def issue_map_sound (mind_map_id : Nat) (db : Db) (m : IdMap) : Prop :=
  ∀ kv ∈ m, ∃ i ∈ db.issues, i.id = kv.2 ∧ i.mind_map_id = mind_map_id

/-! ## The tasks / analysis read paths (`_format_tasks_response`,
`_format_analysis_response`) -/

/-- The task dict of the reply payload.  `related_issue` is the literal
`None` the source writes. -/
structure TaskResp where
  id : Nat
  name : PyStr
  related_issue : Option Nat
  related_projects : List Nat
  priority_score : Rat
  kpi : PyStr
  subtasks : List PyStr
  estimated_time_min : Option Int
  context_hint : Option PyStr
  status : PyStr
deriving DecidableEq, Repr

/-- The `task_projects` aggregation (`array_agg(tp.project_id)`). -/
def task_related_projects (task_id : Nat) (db : Db) : List Nat :=
  (db.task_projects.filter (fun kv => kv.1 == task_id)).map (·.2)

/-- `TaskRepository.get_mind_map_tasks`: this map's tasks with their
link aggregation, `ORDER BY priority_score DESC, created_at DESC LIMIT
$2` (creation order is insertion order, so the secondary key reverses
the scan before the stable primary sort). -/
def get_mind_map_tasks (mind_map_id : Nat) (limit : Nat) (db : Db) :
    List TaskRow :=
  (sort_desc_key (fun t => t.priority_score)
    ((db.tasks.filter (fun t => t.mind_map_id == mind_map_id)).reverse)
    ).take limit

/-- `Layer1Orchestrator._format_tasks_response` (limit 5). -/
def format_tasks_response (mind_map_id : Nat) (db : Db) :
    List TaskResp :=
  (get_mind_map_tasks mind_map_id 5 db).map (fun task =>
    { id := task.id
      name := task.name
      related_issue := none
      related_projects := task_related_projects task.id db
      priority_score := task.priority_score
      kpi := task.kpi
      subtasks := task.subtasks
      estimated_time_min := task.estimated_time_min
      context_hint := task.context_hint
      status := task.status })

/-- The issue dict of the reply payload (`id` is the issue type). -/
structure IssueResp where
  issue_id : PyStr
  description : PyStr
  severity : PyStr
  related_projects : List Nat
deriving DecidableEq, Repr

/-- The `issue_projects` aggregation. -/
def issue_related_projects (issue_id : Nat) (db : Db) : List Nat :=
  (db.issue_projects.filter (fun kv => kv.1 == issue_id)).map (·.2)

/-- `TaskRepository.get_mind_map_issues`: `ORDER BY created_at DESC`
(reverse insertion order). -/
def get_mind_map_issues (mind_map_id : Nat) (db : Db) : List IssueRow :=
  (db.issues.filter (fun i => i.mind_map_id == mind_map_id)).reverse

/-- The issues part of `_format_analysis_response`. -/
def format_issues_response (mind_map_id : Nat) (db : Db) :
    List IssueResp :=
  (get_mind_map_issues mind_map_id db).map (fun issue =>
    { issue_id := issue.issue_type
      description := issue.description
      severity := issue.severity
      related_projects := issue_related_projects issue.id db })

/-! ## Layer 5 — Snapshot Store read path
(`SnapshotRepository.find_similar_snapshots`,
`Layer5Memory.retrieve_snapshot_candidates`) -/

/-- One candidate entry of `retrieve_snapshot_candidates`.  `map_name`
comes from the LEFT JOIN, so it is NULL (not the dead `"Unnamed Map"`
`.get` default — the SQL row always carries the column) when the
snapshot has no mind map; `summary_payload` stands for the re-parsed
stored `snapshot_data` whose `central_theme` the source extracts. -/
structure SnapCandidate where
  map_id : Option Nat
  map_name : Option PyStr
  last_updated : Nat
  summary_payload : Nat
  unresolved_issues : List PyStr
deriving DecidableEq, Repr

/-- `SnapshotRepository.find_similar_snapshots`: all snapshots of the
user's sessions (JOIN on `sessions.user_id`), most recent first
(`ORDER BY s.created_at DESC`), `LIMIT $2`, each LEFT-JOINed with its
mind-map row.  The `keywords` argument is accepted and ignored, as in
the source. -/
def find_similar_snapshots (user_id : Nat) (keywords : List PyStr)
    (limit : Nat) (db : Db) : List (SnapshotRow × Option MindMapRow) :=
  ((sort_desc_key (fun s => s.created_at)
      (db.snapshots.filter (fun s =>
        (db.sessions.find? (fun sess =>
          sess.id == s.session_id && sess.user_id == user_id)).isSome))
    ).take limit).map (fun s =>
      (s, match s.mind_map_id with
          | some mid => db.mind_maps.find? (fun mm => mm.id == mid)
          | none => none))

/-- `Layer5Memory.retrieve_snapshot_candidates`: format each returned
snapshot row into a candidate dict, one entry per snapshot row. -/
def retrieve_snapshot_candidates (user_id : Nat)
    (keywords : List PyStr) (limit : Nat) (db : Db) :
    List SnapCandidate :=
  (find_similar_snapshots user_id keywords limit db).map (fun sm =>
    { map_id := sm.1.mind_map_id
      map_name := sm.2.map (·.map_name)
      last_updated := sm.1.created_at
      summary_payload := sm.1.snapshot_payload
      unresolved_issues := sm.1.unresolved_issues })

end Clearity

namespace Clearity

/-! ## Supporting lemmas for the stable sort -/

/-- `insertByKeyDesc` splices its element in: the result is a
permutation of consing it. -/
theorem insertByKeyDesc_perm (t : GenTask) (l : List GenTask) :
    (insertByKeyDesc t l).Perm (t :: l) := by
  induction l with
  | nil => simp [insertByKeyDesc]
  | cons u us ih =>
      by_cases h : taskKey t < taskKey u
      · have h1 : insertByKeyDesc t (u :: us) = u :: insertByKeyDesc t us := by
          simp [insertByKeyDesc, h]
        rw [h1]
        exact ((List.Perm.cons u ih).trans (List.Perm.swap t u us))
      · simp [insertByKeyDesc, h]

/-- Members of an insertion are the element or members of the list. -/
theorem mem_insertByKeyDesc {x t : GenTask} {l : List GenTask}
    (h : x ∈ insertByKeyDesc t l) : x = t ∨ x ∈ l := by
  have := (insertByKeyDesc_perm t l).mem_iff.mp h
  simpa using this

/-- Inserting preserves non-increasing key order. -/
theorem insertByKeyDesc_pairwise (t : GenTask) (l : List GenTask)
    (h : l.Pairwise (fun a b => taskKey b ≤ taskKey a)) :
    (insertByKeyDesc t l).Pairwise (fun a b => taskKey b ≤ taskKey a) := by
  induction l with
  | nil => simp [insertByKeyDesc]
  | cons u us ih =>
      rcases List.pairwise_cons.mp h with ⟨hu, hus⟩
      by_cases hcmp : taskKey t < taskKey u
      · have hhead : ∀ b ∈ insertByKeyDesc t us, taskKey b ≤ taskKey u := by
          intro b hb
          rcases mem_insertByKeyDesc hb with rfl | hb'
          · exact le_of_lt hcmp
          · exact hu b hb'
        simpa [insertByKeyDesc, hcmp] using
          List.pairwise_cons.mpr ⟨hhead, ih hus⟩
      · have hall : ∀ b ∈ u :: us, taskKey b ≤ taskKey t := by
          intro b hb
          rcases List.mem_cons.mp hb with rfl | hb'
          · exact not_lt.mp hcmp
          · exact le_trans (hu b hb') (not_lt.mp hcmp)
        simpa [insertByKeyDesc, hcmp] using List.pairwise_cons.mpr ⟨hall, h⟩

/-- The sorted list is non-increasing on keys. -/
theorem pySortTasksDesc_pairwise (ts : List GenTask) :
    (pySortTasksDesc ts).Pairwise (fun a b => taskKey b ≤ taskKey a) := by
  induction ts with
  | nil => simp [pySortTasksDesc]
  | cons t ts ih => exact insertByKeyDesc_pairwise t _ ih

/-- The sorted list is a permutation of the input. -/
theorem pySortTasksDesc_perm (ts : List GenTask) :
    (pySortTasksDesc ts).Perm ts := by
  induction ts with
  | nil => simp [pySortTasksDesc]
  | cons t ts ih =>
      exact (insertByKeyDesc_perm t (pySortTasksDesc ts)).trans
        (List.Perm.cons t ih)

/-- Stability at the insertion step: filtering at any key value either
prepends the new element (when it has that key) or leaves the filtered
list unchanged, because everything walked past has a strictly greater
key. -/
theorem insertByKeyDesc_filter (t : GenTask) (l : List GenTask) (q : Rat) :
    (insertByKeyDesc t l).filter (fun x => taskKey x == q) =
      (if taskKey t == q then [t] else []) ++
        l.filter (fun x => taskKey x == q) := by
  induction l with
  | nil => by_cases h : taskKey t == q <;> simp [insertByKeyDesc, h]
  | cons u us ih =>
      by_cases hcmp : taskKey t < taskKey u
      · by_cases htq : taskKey t == q
        · have huq : ¬ (taskKey u == q) := by
            intro habs
            have h1 : taskKey t = q := by simpa using htq
            have h2 : taskKey u = q := by simpa using habs
            rw [h1, h2] at hcmp
            exact lt_irrefl _ hcmp
          simp [insertByKeyDesc, hcmp, List.filter, huq, htq, ih]
        · by_cases huq : taskKey u == q <;>
            simp [insertByKeyDesc, hcmp, List.filter, huq, htq, ih]
      · by_cases htq : taskKey t == q <;>
          by_cases huq : taskKey u == q <;>
            simp [insertByKeyDesc, hcmp, List.filter, huq, htq]

/-- Stability of the whole sort: for every key value, the subsequence of
tasks carrying that key is exactly the input's subsequence, in the same
order. -/
theorem pySortTasksDesc_stable (ts : List GenTask) (q : Rat) :
    (pySortTasksDesc ts).filter (fun x => taskKey x == q) =
      ts.filter (fun x => taskKey x == q) := by
  induction ts with
  | nil => simp [pySortTasksDesc]
  | cons t ts ih =>
      by_cases htq : taskKey t == q <;>
        simp [pySortTasksDesc, insertByKeyDesc_filter, htq, List.filter, ih]

/-- C4: after `Layer4Actions.analyze_and_generate_tasks` decodes a
generator response, the returned task list is sorted by priority score
(`t.get("priority_score", 0)`) in non-increasing order, it is a
permutation of the decoded task list, and the sort is stable: for every
score value, the tasks carrying that score appear in exactly the order
the generator produced them. -/
theorem analyze_and_generate_tasks_sorted_stable (response : GenAnalysis) :
    (analyze_and_generate_tasks response).tasks.Pairwise
        (fun a b => taskKey b ≤ taskKey a) ∧
      ((analyze_and_generate_tasks response).tasks).Perm response.tasks ∧
      ∀ q : Rat,
        (analyze_and_generate_tasks response).tasks.filter
            (fun x => taskKey x == q) =
          response.tasks.filter (fun x => taskKey x == q) :=
  ⟨pySortTasksDesc_pairwise _, pySortTasksDesc_perm _,
    fun q => pySortTasksDesc_stable _ q⟩

/-! ## Supporting lemmas for the Identity Reconciler -/

/-- Appending nothing extends. -/
theorem projects_extended_refl (db : Db) : projects_extended db db :=
  ⟨[], by simp⟩

/-- Extension composes. -/
theorem projects_extended_trans {a b c : Db}
    (h1 : projects_extended a b) (h2 : projects_extended b c) :
    projects_extended a c := by
  obtain ⟨t1, e1⟩ := h1
  obtain ⟨t2, e2⟩ := h2
  exact ⟨t1 ++ t2, by rw [e2, e1, List.append_assoc]⟩

/-- A sound id map stays sound when the projects table only grows. -/
theorem idmap_sound_mono {mmid : Nat} {db db' : Db} {m : IdMap}
    (h : projects_extended db db') (hs : idmap_sound mmid db m) :
    idmap_sound mmid db' m := by
  obtain ⟨tail, e⟩ := h
  intro kv hkv
  obtain ⟨p, hp, h1, h2⟩ := hs kv hkv
  exact ⟨p, by rw [e]; exact List.mem_append_left _ hp, h1, h2⟩

/-- Recording an ephemeral id keeps the map sound when the recorded
persisted id belongs to a project row of this turn's mind map. -/
theorem idmap_sound_record {mmid : Nat} {db : Db} {m : IdMap}
    (hs : idmap_sound mmid db m) (eph : Option PyStr) {v : Nat}
    (hv : ∃ p ∈ db.projects, p.id = v ∧ p.mind_map_id = mmid) :
    idmap_sound mmid db (idmap_record eph v m) := by
  intro kv hkv
  rcases eph with _ | s
  · exact hs kv hkv
  · by_cases ht : pyTruthy s
    · simp only [idmap_record, ht, if_pos, idmap_insert] at hkv
      rcases List.mem_cons.mp hkv with rfl | hkv'
      · exact hv
      · exact hs kv hkv'
    · simp only [idmap_record, ht] at hkv
      simp only [if_neg, Bool.false_eq_true, reduceIte] at hkv
      exact hs kv hkv

/-- A successful id-map lookup returns a value stored in the map. -/
theorem idmap_lookup_mem {k : PyStr} {m : IdMap} {v : Nat}
    (h : idmap_lookup k m = some v) : ∃ k', (k', v) ∈ m := by
  unfold idmap_lookup at h
  rcases hf : m.find? (fun p => p.1 == k) with _ | p
  · rw [hf] at h; simp at h
  · rw [hf] at h
    have hm := List.mem_of_find?_eq_some hf
    have hv2 : p.2 = v := by simpa using h
    exact ⟨p.1, by rw [← hv2]; simpa using hm⟩

/-- Effect of one node-creation step: projects grow by one row of this
mind map, other tables are untouched, and the id map stays sound. -/
theorem persist_node_shape (mmid : Nat) (pf : Option (List PyStr))
    (pid : Nat) (acc : Db × IdMap) (nd : CandNode) :
    projects_extended acc.1 (persist_node mmid pf pid acc nd).1 ∧
      (persist_node mmid pf pid acc nd).1.connections = acc.1.connections ∧
      (persist_node mmid pf pid acc nd).1.mind_maps = acc.1.mind_maps ∧
      (idmap_sound mmid acc.1 acc.2 →
        idmap_sound mmid (persist_node mmid pf pid acc nd).1
          (persist_node mmid pf pid acc nd).2) := by
  obtain ⟨db, m⟩ := acc
  refine ⟨⟨[_], rfl⟩, rfl, rfl, ?_⟩
  intro hs
  apply idmap_sound_record
  · exact idmap_sound_mono ⟨[_], rfl⟩ hs
  · exact ⟨_, List.mem_append_right _ (List.mem_singleton_self _), rfl, rfl⟩

/-- Effect of the node fold of `_persist_project`. -/
theorem nodes_fold_shape (mmid : Nat) (pf : Option (List PyStr))
    (pid : Nat) (nds : List CandNode) :
    ∀ acc : Db × IdMap,
      projects_extended acc.1
          (nds.foldl (persist_node mmid pf pid) acc).1 ∧
        (nds.foldl (persist_node mmid pf pid) acc).1.connections =
          acc.1.connections ∧
        (nds.foldl (persist_node mmid pf pid) acc).1.mind_maps =
          acc.1.mind_maps ∧
        (idmap_sound mmid acc.1 acc.2 →
          idmap_sound mmid (nds.foldl (persist_node mmid pf pid) acc).1
            (nds.foldl (persist_node mmid pf pid) acc).2) := by
  induction nds with
  | nil =>
      intro acc
      exact ⟨projects_extended_refl _, rfl, rfl, fun hs => hs⟩
  | cons nd nds ih =>
      intro acc
      obtain ⟨he, hc, hm, hsnd⟩ := persist_node_shape mmid pf pid acc nd
      obtain ⟨he', hc', hm', hsnd'⟩ := ih (persist_node mmid pf pid acc nd)
      refine ⟨projects_extended_trans he he', ?_, ?_, ?_⟩
      · simpa [List.foldl_cons, hc'] using hc
      · simpa [List.foldl_cons, hm'] using hm
      · intro hs
        simpa [List.foldl_cons] using hsnd' (hsnd hs)

/-- Effect of `_persist_project`: projects grow by rows of this mind
map, connections and mind-map rows are untouched, soundness of the id
map is preserved. -/
theorem persist_project_shape (mmid : Nat) (pd : CandProject)
    (db : Db) (m : IdMap) :
    projects_extended db (persist_project mmid pd db m).2.1 ∧
      (persist_project mmid pd db m).2.1.connections = db.connections ∧
      (persist_project mmid pd db m).2.1.mind_maps = db.mind_maps ∧
      (idmap_sound mmid db m →
        idmap_sound mmid (persist_project mmid pd db m).2.1
          (persist_project mmid pd db m).2.2) := by
  have hstep := nodes_fold_shape mmid pd.fields db.next_id (pd.nodes.getD [])
  unfold persist_project create_project Db.fresh
  obtain ⟨he, hc, hm, hsnd⟩ := hstep _
  refine ⟨projects_extended_trans ⟨[_], rfl⟩ he, by simpa using hc,
    by simpa using hm, ?_⟩
  intro hs
  apply hsnd
  apply idmap_sound_record
  · exact idmap_sound_mono ⟨[_], rfl⟩ hs
  · exact ⟨_, List.mem_append_right _ (List.mem_singleton_self _), rfl, rfl⟩

/-- Effect of the projects fold with an arbitrary starting map. -/
theorem projects_fold_shape (mmid : Nat) (ps : List CandProject) :
    ∀ (db : Db) (m : IdMap), idmap_sound mmid db m →
      projects_extended db
          (ps.foldl (fun acc pd =>
            let t := persist_project mmid pd acc.1 acc.2
            (t.2.1, t.2.2)) (db, m)).1 ∧
        (ps.foldl (fun acc pd =>
            let t := persist_project mmid pd acc.1 acc.2
            (t.2.1, t.2.2)) (db, m)).1.connections = db.connections ∧
        (ps.foldl (fun acc pd =>
            let t := persist_project mmid pd acc.1 acc.2
            (t.2.1, t.2.2)) (db, m)).1.mind_maps = db.mind_maps ∧
        idmap_sound mmid
          (ps.foldl (fun acc pd =>
            let t := persist_project mmid pd acc.1 acc.2
            (t.2.1, t.2.2)) (db, m)).1
          (ps.foldl (fun acc pd =>
            let t := persist_project mmid pd acc.1 acc.2
            (t.2.1, t.2.2)) (db, m)).2 := by
  induction ps with
  | nil =>
      intro db m hs
      exact ⟨projects_extended_refl _, rfl, rfl, hs⟩
  | cons pd ps ih =>
      intro db m hs
      obtain ⟨he, hc, hm, hsnd⟩ := persist_project_shape mmid pd db m
      obtain ⟨he', hc', hm', hs'⟩ :=
        ih (persist_project mmid pd db m).2.1
          (persist_project mmid pd db m).2.2 (hsnd hs)
      refine ⟨projects_extended_trans he he', ?_, ?_, ?_⟩
      · simpa [List.foldl_cons, hc'] using hc
      · simpa [List.foldl_cons, hm'] using hm
      · simpa [List.foldl_cons] using hs'

/-- `persist_projects_phase` grows projects, leaves connections and
mind-map rows alone, and produces a sound id map. -/
theorem persist_projects_phase_shape (mmid : Nat)
    (ps : List CandProject) (db : Db) :
    projects_extended db (persist_projects_phase mmid ps db).1 ∧
      (persist_projects_phase mmid ps db).1.connections =
        db.connections ∧
      (persist_projects_phase mmid ps db).1.mind_maps = db.mind_maps ∧
      idmap_sound mmid (persist_projects_phase mmid ps db).1
        (persist_projects_phase mmid ps db).2 := by
  have h := projects_fold_shape mmid ps db [] (by intro kv hkv; cases hkv)
  simpa [persist_projects_phase] using h

/-- The connections phase is exactly `persist_connections_spec`: the
generated-id counter advances by the number of resolvable candidates
and their rows are appended; nothing else changes. -/
theorem connections_fold_spec (mmid : Nat) (m : IdMap)
    (cs : List CandConn) :
    ∀ db : Db,
      persist_connections_phase mmid cs m db =
        { db with
            next_id :=
              db.next_id + (cs.filter (conn_resolvable m)).length,
            connections :=
              db.connections ++
                persist_connections_spec mmid m db.next_id cs } := by
  induction cs with
  | nil =>
      intro db
      cases db
      simp [persist_connections_phase, persist_connections_spec]
  | cons c cs ih =>
      intro db
      have hstep : persist_connections_phase mmid (c :: cs) m db =
          persist_connections_phase mmid cs m
            (persist_connection mmid c m db) := rfl
      rw [hstep, ih]
      rcases hf : idmap_lookup c.from_id m with _ | f
      · cases db
        simp [persist_connection, hf, persist_connections_spec,
          conn_resolvable, List.filter]
      · rcases ht : idmap_lookup c.to_id m with _ | t
        · cases db
          simp [persist_connection, hf, ht, persist_connections_spec,
            conn_resolvable, List.filter]
        · cases db
          simp [persist_connection, hf, ht, persist_connections_spec,
            conn_resolvable, List.filter, create_connection, Db.fresh,
            Nat.add_comm, Nat.add_assoc, Nat.add_left_comm]

/-- Row count of the spec equals the resolvable-candidate count. -/
theorem persist_connections_spec_length (mmid : Nat) (m : IdMap)
    (cs : List CandConn) :
    ∀ next : Nat,
      (persist_connections_spec mmid m next cs).length =
        (cs.filter (conn_resolvable m)).length := by
  induction cs with
  | nil => intro next; simp [persist_connections_spec]
  | cons c cs ih =>
      intro next
      rcases hf : idmap_lookup c.from_id m with _ | f
      · simp [persist_connections_spec, hf, conn_resolvable,
          List.filter, ih]
      · rcases ht : idmap_lookup c.to_id m with _ | t
        · simp [persist_connections_spec, hf, ht, conn_resolvable,
            List.filter, ih]
        · simp [persist_connections_spec, hf, ht, conn_resolvable,
            List.filter, ih]

/-- Every spec row comes from a candidate both of whose endpoints
resolved, carries the resolved endpoints and root cause, and belongs to
this turn's mind map. -/
theorem persist_connections_spec_mem {mmid : Nat} {m : IdMap}
    {cs : List CandConn} :
    ∀ {next : Nat} {row : ConnectionRow},
      row ∈ persist_connections_spec mmid m next cs →
      ∃ c ∈ cs,
        idmap_lookup c.from_id m = some row.from_id ∧
          idmap_lookup c.to_id m = some row.to_id ∧
          row.root_cause_id = resolve_root_cause m c.root_cause_id ∧
          row.mind_map_id = mmid := by
  induction cs with
  | nil => intro next row h; simp [persist_connections_spec] at h
  | cons c cs ih =>
      intro next row h
      rcases hf : idmap_lookup c.from_id m with _ | f
      · rw [persist_connections_spec, hf] at h
        obtain ⟨c', hc', hprops⟩ := ih h
        exact ⟨c', List.mem_cons_of_mem c hc', hprops⟩
      · rcases ht : idmap_lookup c.to_id m with _ | t
        · rw [persist_connections_spec, hf, ht] at h
          obtain ⟨c', hc', hprops⟩ := ih h
          exact ⟨c', List.mem_cons_of_mem c hc', hprops⟩
        · rw [persist_connections_spec, hf, ht] at h
          rcases List.mem_cons.mp h with rfl | h'
          · exact ⟨c, List.mem_cons_self c cs, hf, ht, rfl, rfl⟩
          · obtain ⟨c', hc', hprops⟩ := ih h'
            exact ⟨c', List.mem_cons_of_mem c hc', hprops⟩

/-- C1: in a turn's `persist_mind_map`, the connection rows appended
are exactly the candidates both of whose endpoint ephemeral ids
resolve through that turn's ephemeral→persisted id map (row count
equals resolvable-candidate count, so unresolved candidates are
dropped, without any error — the function is total); an unresolved
optional root-cause reference yields a row whose `root_cause_id` is
null rather than a dropped row; and every appended row's `from`/`to`
endpoints are ids of project rows persisted for this turn's mind map —
no dangling endpoints. -/
theorem persist_mind_map_connection_integrity
    (session_id : Nat) (g : CandGraph) (ex : Option Nat) (db : Db) :
    (persist_mind_map session_id g ex db).2.connections =
        (persist_projects_phase (persist_header session_id g ex db).1
            (g.projects.getD [])
            (persist_header session_id g ex db).2).1.connections ++
          persist_connections_spec (persist_header session_id g ex db).1
            (persist_projects_phase (persist_header session_id g ex db).1
              (g.projects.getD [])
              (persist_header session_id g ex db).2).2
            (persist_projects_phase (persist_header session_id g ex db).1
              (g.projects.getD [])
              (persist_header session_id g ex db).2).1.next_id
            (g.connections.getD []) ∧
      (persist_connections_spec (persist_header session_id g ex db).1
          (persist_projects_phase (persist_header session_id g ex db).1
            (g.projects.getD [])
            (persist_header session_id g ex db).2).2
          (persist_projects_phase (persist_header session_id g ex db).1
            (g.projects.getD [])
            (persist_header session_id g ex db).2).1.next_id
          (g.connections.getD [])).length =
        ((g.connections.getD []).filter
          (conn_resolvable
            (persist_projects_phase (persist_header session_id g ex db).1
              (g.projects.getD [])
              (persist_header session_id g ex db).2).2)).length ∧
      ∀ row ∈ persist_connections_spec (persist_header session_id g ex db).1
          (persist_projects_phase (persist_header session_id g ex db).1
            (g.projects.getD [])
            (persist_header session_id g ex db).2).2
          (persist_projects_phase (persist_header session_id g ex db).1
            (g.projects.getD [])
            (persist_header session_id g ex db).2).1.next_id
          (g.connections.getD []),
        (∃ p ∈ (persist_mind_map session_id g ex db).2.projects,
            p.id = row.from_id ∧
              p.mind_map_id = (persist_header session_id g ex db).1) ∧
          (∃ p ∈ (persist_mind_map session_id g ex db).2.projects,
            p.id = row.to_id ∧
              p.mind_map_id = (persist_header session_id g ex db).1) := by
  have hfold := connections_fold_spec (persist_header session_id g ex db).1
    (persist_projects_phase (persist_header session_id g ex db).1
      (g.projects.getD []) (persist_header session_id g ex db).2).2
    (g.connections.getD [])
    (persist_projects_phase (persist_header session_id g ex db).1
      (g.projects.getD []) (persist_header session_id g ex db).2).1
  have hmm : (persist_mind_map session_id g ex db).2 =
      persist_connections_phase (persist_header session_id g ex db).1
        (g.connections.getD [])
        (persist_projects_phase (persist_header session_id g ex db).1
          (g.projects.getD []) (persist_header session_id g ex db).2).2
        (persist_projects_phase (persist_header session_id g ex db).1
          (g.projects.getD []) (persist_header session_id g ex db).2).1 :=
    rfl
  obtain ⟨-, -, -, hsound⟩ := persist_projects_phase_shape
    (persist_header session_id g ex db).1 (g.projects.getD [])
    (persist_header session_id g ex db).2
  refine ⟨by rw [hmm, hfold], persist_connections_spec_length _ _ _ _, ?_⟩
  intro row hrow
  obtain ⟨c, -, hf, ht, -, -⟩ := persist_connections_spec_mem hrow
  have hproj : (persist_mind_map session_id g ex db).2.projects =
      (persist_projects_phase (persist_header session_id g ex db).1
        (g.projects.getD []) (persist_header session_id g ex db).2).1.projects := by
    rw [hmm, hfold]
  constructor
  · obtain ⟨k', hk'⟩ := idmap_lookup_mem hf
    obtain ⟨p, hp, h1, h2⟩ := hsound (k', row.from_id) hk'
    exact ⟨p, by rw [hproj]; exact hp, h1, h2⟩
  · obtain ⟨k', hk'⟩ := idmap_lookup_mem ht
    obtain ⟨p, hp, h1, h2⟩ := hsound (k', row.to_id) hk'
    exact ⟨p, by rw [hproj]; exact hp, h1, h2⟩

/-- C2 counterexample: a second turn in the same session (prior
snapshot present, so `existing_mind_map_id` is passed) in which the
generator returns a different `map_name` overwrites the persisted
name: the stored `MindMap.name` is no longer the first turn's name. -/
theorem persist_mind_map_renames_counterexample :
    ∃ r ∈ (persist_mind_map 1
        ⟨"B".toList, "T2".toList, 0, none, none⟩ (some 1)
        ⟨2, [⟨1, 1, "A".toList, "T".toList⟩], [], [], [], [], [], [],
          [], [], [], [], []⟩).2.mind_maps,
      r.id = 1 ∧ r.map_name ≠ "A".toList := by decide

/-- C2 amended: `persist_mind_map` on a later turn overwrites the
stored `map_name` (and `central_theme`) of the existing row with this
turn's generator-produced values whenever they are non-empty
(Python-truthy), leaving other rows alone; the name from the first
turn survives only if the generator echoes it (or returns an empty
name). -/
theorem persist_mind_map_name_overwrite (session_id : Nat)
    (g : CandGraph) (mmid : Nat) (db : Db) :
    (persist_mind_map session_id g (some mmid) db).2.mind_maps =
      db.mind_maps.map (fun r =>
        if r.id = mmid then
          { r with
              map_name :=
                if pyTruthy g.map_name then g.map_name else r.map_name,
              central_theme :=
                if pyTruthy g.central_theme then g.central_theme
                else r.central_theme }
        else r) := by
  have hmm : (persist_mind_map session_id g (some mmid) db).2 =
      persist_connections_phase mmid (g.connections.getD [])
        (persist_projects_phase mmid (g.projects.getD [])
          (update_mind_map mmid (some g.map_name)
            (some g.central_theme) db)).2
        (persist_projects_phase mmid (g.projects.getD [])
          (update_mind_map mmid (some g.map_name)
            (some g.central_theme) db)).1 := rfl
  have hfold := connections_fold_spec mmid
    (persist_projects_phase mmid (g.projects.getD [])
      (update_mind_map mmid (some g.map_name)
        (some g.central_theme) db)).2
    (g.connections.getD [])
    (persist_projects_phase mmid (g.projects.getD [])
      (update_mind_map mmid (some g.map_name)
        (some g.central_theme) db)).1
  obtain ⟨-, -, hmaps, -⟩ := persist_projects_phase_shape mmid
    (g.projects.getD [])
    (update_mind_map mmid (some g.map_name) (some g.central_theme) db)
  rw [hmm, hfold]
  show (persist_projects_phase mmid (g.projects.getD [])
      (update_mind_map mmid (some g.map_name)
        (some g.central_theme) db)).1.mind_maps = _
  rw [hmaps]
  unfold update_mind_map
  simp only []
  apply List.map_congr_left
  intro r _
  by_cases hid : r.id = mmid
  · cases r with
    | mk i sid nm th =>
        have hid' : i = mmid := hid
        subst hid'
        by_cases hn : pyTruthy g.map_name <;>
          by_cases hth : pyTruthy g.central_theme <;> simp [hn, hth]
  · simp [hid]

/-- C5: whenever the context-extraction completion call raises (any
exception), `_build_context` does not propagate the error but returns
the default context: `emotion=unknown`, `intensity=medium`,
`intent=understanding`, `summary` the truncated 200-character prefix of
the user message, `stage=early`. -/
theorem build_context_failure_default (e : Nat) (message : PyStr) :
    build_context (.exn e) message =
      { emotion := "unknown".toList
        emotion_intensity := "medium".toList
        user_intent := "understanding".toList
        summary := message.take 200
        session_stage := "early".toList } := rfl

/-! ## C6 — the truncation diagnostic of the Resilient Decoder -/

/-- C6: when the direct parse and the fence-stripped retry both fail,
`json_completion` raises the classified decode error, and its
truncation diagnostic is set exactly when the response character
length exceeds 3 times the requested `max_tokens` budget. -/
theorem json_completion_decode_truncation_flag (response : List Char)
    (max_tokens : Nat)
    (h1 : py_json_loads response = none)
    (h2 : py_json_loads (fence_strip response) = none) :
    ∃ e : DecodeError,
      json_completion_decode response max_tokens = .error e ∧
        (e.truncated_hint = true ↔ max_tokens * 3 < response.length) ∧
        e.max_tokens = max_tokens := by
  refine ⟨⟨decide (max_tokens * 3 < response.length), max_tokens⟩,
    ?_, ?_, rfl⟩
  · unfold json_completion_decode
    rw [h1, h2]
  · simp

/-- C6 witness: the truncated object `{"a":` (5 characters) with a
budget of 1 token fails both parses and carries a set truncation
flag. -/
theorem json_completion_decode_truncation_flag_witness :
    ∃ e : DecodeError,
      json_completion_decode ['{', '\"', 'a', '\"', ':'] 1 = .error e ∧
        (e.truncated_hint = true ↔
          1 * 3 < (['{', '\"', 'a', '\"', ':'] : List Char).length) ∧
        e.max_tokens = 1 :=
  json_completion_decode_truncation_flag ['{', '\"', 'a', '\"', ':'] 1
    rfl rfl

/-! ## Whitespace and scanner lemmas for the decoder -/

/-- JSON whitespace is Python-strip whitespace. -/
theorem json_ws_py {c : Char} (h : json_ws c = true) :
    py_space c = true := by
  simp [py_space, h]

/-- `skip_ws` erases the whole input iff it is all JSON whitespace. -/
theorem skip_ws_nil_iff (s : List Char) :
    skip_ws s = [] ↔ ∀ c ∈ s, json_ws c = true := by
  induction s with
  | nil => simp [skip_ws]
  | cons c cs ih =>
      by_cases h : json_ws c
      · simp [skip_ws, h, ih]
      · simp [skip_ws, h]

/-- `skip_ws` over an append. -/
theorem skip_ws_append (s t : List Char) :
    skip_ws (s ++ t) =
      if (skip_ws s).isEmpty then skip_ws t else skip_ws s ++ t := by
  induction s with
  | nil => simp [skip_ws]
  | cons c cs ih =>
      by_cases h : json_ws c
      · simpa [skip_ws, h] using ih
      · simp [skip_ws, h]

/-- `skip_ws` stops at a non-whitespace head. -/
theorem skip_ws_head_not_ws {c : Char} (r : List Char)
    (h : json_ws c = false) : skip_ws (c :: r) = c :: r := by
  simp [skip_ws, h]

/-- `skip_ws` of an all-`py_space` input is all `py_space`. -/
theorem skip_ws_all_py {t : List Char}
    (ht : ∀ c ∈ t, py_space c = true) :
    ∀ c ∈ skip_ws t, py_space c = true := by
  induction t with
  | nil => simp [skip_ws]
  | cons c cs ih =>
      intro d hd
      by_cases h : json_ws c
      · exact ih (fun e he => ht e (List.mem_cons_of_mem _ he)) d
          (by simpa [skip_ws, h] using hd)
      · rw [skip_ws_head_not_ws _ (by simpa using h)] at hd
        rcases List.mem_cons.mp hd with rfl | hd'
        · exact ht d (List.mem_cons_self _ _)
        · exact ht d (List.mem_cons_of_mem _ hd')

/-- The six Python-strip whitespace characters. -/
theorem py_space_cases {c : Char} (h : py_space c = true) :
    c = ' ' ∨ c = '\t' ∨ c = '\n' ∨ c = '\r' ∨
      c = Char.ofNat 11 ∨ c = Char.ofNat 12 := by
  simp only [py_space, json_ws, Bool.or_eq_true, beq_iff_eq] at h
  tauto

/-- Whitespace is not a digit. -/
theorem py_space_not_digit {c : Char} (h : py_space c = true) :
    is_digit c = false := by
  rcases py_space_cases h with rfl | rfl | rfl | rfl | rfl | rfl <;> decide

/-- Whitespace is not a hex digit. -/
theorem py_space_not_hex {c : Char} (h : py_space c = true) :
    is_hex c = false := by
  rcases py_space_cases h with rfl | rfl | rfl | rfl | rfl | rfl <;> decide

/-- One-step body equation for `scan_string` (definitional). -/
theorem scan_string_cons (c : Char) (cs : List Char) :
    scan_string (c :: cs) =
      if c = '\"' then some ([], cs)
      else if c = '\\' then scan_escape cs
      else if c.toNat < 32 then none
      else (scan_string cs).map (fun r => (c :: r.1, r.2)) := rfl

/-- One-step body equation for `scan_escape` (definitional). -/
theorem scan_escape_cons (e : Char) (cs' : List Char) :
    scan_escape (e :: cs') =
      if e = 'u' then scan_unicode cs'
      else if simple_escape e then
        (scan_string cs').map (fun r => ('\\' :: e :: r.1, r.2))
      else none := rfl

/-- A string body that is all whitespace never terminates. -/
theorem scan_string_all_py {t : List Char}
    (ht : ∀ c ∈ t, py_space c = true) : scan_string t = none := by
  induction t with
  | nil => rfl
  | cons c cs ih =>
      have hc := ht c (List.mem_cons_self _ _)
      have ihs := ih (fun e he => ht e (List.mem_cons_of_mem _ he))
      rcases py_space_cases hc with rfl | rfl | rfl | rfl | rfl | rfl <;>
        simp [scan_string_cons, ihs]

/-- A backslash followed by only whitespace is an invalid escape. -/
theorem scan_escape_all_py {t : List Char}
    (ht : ∀ c ∈ t, py_space c = true) : scan_escape t = none := by
  rcases t with _ | ⟨d, t'⟩
  · rfl
  · have hd := ht d (List.mem_cons_self _ _)
    rcases py_space_cases hd with rfl | rfl | rfl | rfl | rfl | rfl <;>
      simp [scan_escape_cons, simple_escape]

/-- `scan_unicode` of an input whose head is whitespace fails. -/
theorem scan_unicode_py_head {x : Char} {r : List Char}
    (hx : py_space x = true) : scan_unicode (x :: r) = none := by
  rcases r with _ | ⟨b, _ | ⟨c2, _ | ⟨d, r'⟩⟩⟩
  · rfl
  · rfl
  · rfl
  · simp [scan_unicode, py_space_not_hex hx]

mutual

/-- `scan_string` over an appended all-whitespace tail: the appended
whitespace never completes or extends a string body, so the result is
the original one with the tail carried through on the remainder. -/
theorem scan_string_append {t : List Char}
    (ht : ∀ c ∈ t, py_space c = true) :
    ∀ s, scan_string (s ++ t) =
      (scan_string s).map (fun r => (r.1, r.2 ++ t))
  | [] => by simpa using scan_string_all_py ht
  | c :: cs => by
      rw [List.cons_append, scan_string_cons, scan_string_cons]
      by_cases hq : c = '\"'
      · simp [hq]
      · by_cases hb : c = '\\'
        · simp only [if_neg hq, if_pos hb]
          exact scan_escape_append ht cs
        · by_cases hctl : c.toNat < 32
          · simp [hq, hb, hctl]
          · simp only [if_neg hq, if_neg hb, if_neg hctl,
              scan_string_append ht cs]
            cases scan_string cs <;> simp
termination_by structural s => s

/-- `scan_escape` over an appended all-whitespace tail. -/
theorem scan_escape_append {t : List Char}
    (ht : ∀ c ∈ t, py_space c = true) :
    ∀ s, scan_escape (s ++ t) =
      (scan_escape s).map (fun r => (r.1, r.2 ++ t))
  | [] => by simpa using scan_escape_all_py ht
  | e :: cs' => by
      rw [List.cons_append, scan_escape_cons, scan_escape_cons]
      by_cases hu : e = 'u'
      · simp only [if_pos hu]
        exact scan_unicode_append ht cs'
      · by_cases hesc : simple_escape e
        · simp only [if_neg hu, hesc, if_true,
            scan_string_append ht cs']
          cases scan_string cs' <;> simp
        · simp [hu, hesc]
termination_by structural s => s

/-- `scan_unicode` over an appended all-whitespace tail: whitespace
characters are not hex digits, so they never complete a `\u` escape. -/
theorem scan_unicode_append {t : List Char}
    (ht : ∀ c ∈ t, py_space c = true) :
    ∀ s, scan_unicode (s ++ t) =
      (scan_unicode s).map (fun r => (r.1, r.2 ++ t))
  | [] => by
      show scan_unicode t = none
      rcases t with _ | ⟨x, r⟩
      · rfl
      · exact scan_unicode_py_head (ht x (List.mem_cons_self _ _))
  | [a] => by
      show scan_unicode (a :: t) = none
      rcases ht2 : t with _ | ⟨x, r⟩
      · rfl
      · rcases r with _ | ⟨y, _ | ⟨z, r'⟩⟩
        · rfl
        · rfl
        · have hx : py_space x = true := by
            rw [ht2] at ht
            exact ht x (List.mem_cons_self _ _)
          simp [scan_unicode, py_space_not_hex hx]
  | [a, b] => by
      show scan_unicode (a :: b :: t) = none
      rcases ht2 : t with _ | ⟨x, r⟩
      · rfl
      · rcases r with _ | ⟨y, r'⟩
        · rfl
        · have hx : py_space x = true := by
            rw [ht2] at ht
            exact ht x (List.mem_cons_self _ _)
          simp [scan_unicode, py_space_not_hex hx]
  | [a, b, c2] => by
      show scan_unicode (a :: b :: c2 :: t) = none
      rcases ht2 : t with _ | ⟨x, r⟩
      · rfl
      · have hx : py_space x = true := by
          rw [ht2] at ht
          exact ht x (List.mem_cons_self _ _)
        simp [scan_unicode, py_space_not_hex hx]
  | a :: b :: c2 :: d :: cs'' => by
      show scan_unicode (a :: b :: c2 :: d :: (cs'' ++ t)) = _
      by_cases hhex : (is_hex a && is_hex b && is_hex c2 && is_hex d) = true
      · simp only [scan_unicode, hhex, if_true,
          scan_string_append ht cs'']
        cases scan_string cs'' <;> simp
      · simp [scan_unicode, hhex]
termination_by structural s => s

end

/-- `take_digits` over an appended all-whitespace tail. -/
theorem take_digits_append {t : List Char}
    (ht : ∀ c ∈ t, py_space c = true) :
    ∀ s, take_digits (s ++ t) =
      ((take_digits s).1, (take_digits s).2 ++ t) := by
  intro s
  induction s with
  | nil =>
      rcases t with _ | ⟨x, r⟩
      · rfl
      · have hx := ht x (List.mem_cons_self _ _)
        simp [take_digits, py_space_not_digit hx]
  | cons c cs ih =>
      by_cases hd : is_digit c
      · simp [take_digits, hd, ih]
      · simp [take_digits, hd]

/-- `scan_frac_dot` over an appended all-whitespace tail. -/
theorem scan_frac_dot_append {t : List Char}
    (ht : ∀ c ∈ t, py_space c = true) :
    ∀ s, scan_frac_dot (s ++ t) =
      ((scan_frac_dot s).1, (scan_frac_dot s).2 ++ t) := by
  intro s
  rcases s with _ | ⟨d, r2⟩
  · rcases t with _ | ⟨x, r⟩
    · rfl
    · have hx := ht x (List.mem_cons_self _ _)
      simp [scan_frac_dot, py_space_not_digit hx]
  · by_cases hd : is_digit d
    · simp [scan_frac_dot, hd, take_digits_append ht]
    · simp [scan_frac_dot, hd]

/-- `scan_frac` over an appended all-whitespace tail. -/
theorem scan_frac_append {t : List Char}
    (ht : ∀ c ∈ t, py_space c = true) :
    ∀ s, scan_frac (s ++ t) =
      ((scan_frac s).1, (scan_frac s).2 ++ t) := by
  intro s
  rcases s with _ | ⟨c, r⟩
  · rcases t with _ | ⟨x, r⟩
    · rfl
    · have hx := ht x (List.mem_cons_self _ _)
      have hdot : ¬ x = '.' := by
        rcases py_space_cases hx with rfl | rfl | rfl | rfl | rfl | rfl <;>
          decide
      simp [scan_frac, hdot]
  · by_cases hc : c = '.'
    · simp [scan_frac, hc, scan_frac_dot_append ht]
    · simp [scan_frac, hc]

/-- `scan_exp_tail` over an appended all-whitespace tail. -/
theorem scan_exp_tail_append {t : List Char}
    (ht : ∀ c ∈ t, py_space c = true) (e : Char) :
    ∀ s, scan_exp_tail e (s ++ t) =
      ((scan_exp_tail e s).1, (scan_exp_tail e s).2 ++ t) := by
  intro s
  rcases s with _ | ⟨c, r⟩
  · rcases t with _ | ⟨x, r⟩
    · rfl
    · have hx := ht x (List.mem_cons_self _ _)
      have hsgn : (x == '+' || x == '-') = false := by
        rcases py_space_cases hx with rfl | rfl | rfl | rfl | rfl | rfl <;>
          decide
      simp [scan_exp_tail, hsgn, take_digits,
        py_space_not_digit hx]
  · by_cases hsgn : (c == '+' || c == '-') = true
    · rw [List.cons_append]
      rw [show scan_exp_tail e (c :: (r ++ t)) =
          (if (c == '+' || c == '-') = true then
            match take_digits (r ++ t) with
            | ([], _) => ([], e :: c :: (r ++ t))
            | (ds, r2) => (e :: c :: ds, r2)
          else
            match take_digits (c :: (r ++ t)) with
            | ([], _) => ([], e :: c :: (r ++ t))
            | (ds, r2) => (e :: ds, r2)) from rfl]
      rw [show scan_exp_tail e (c :: r) =
          (if (c == '+' || c == '-') = true then
            match take_digits r with
            | ([], _) => ([], e :: c :: r)
            | (ds, r2) => (e :: c :: ds, r2)
          else
            match take_digits (c :: r) with
            | ([], _) => ([], e :: c :: r)
            | (ds, r2) => (e :: ds, r2)) from rfl]
      rw [if_pos hsgn, if_pos hsgn, take_digits_append ht]
      rcases htd : take_digits r with ⟨ds, r2⟩
      rcases ds with _ | ⟨d0, ds'⟩ <;> simp
    · rw [List.cons_append]
      rw [show scan_exp_tail e (c :: (r ++ t)) =
          (if (c == '+' || c == '-') = true then
            match take_digits (r ++ t) with
            | ([], _) => ([], e :: c :: (r ++ t))
            | (ds, r2) => (e :: c :: ds, r2)
          else
            match take_digits (c :: (r ++ t)) with
            | ([], _) => ([], e :: c :: (r ++ t))
            | (ds, r2) => (e :: ds, r2)) from rfl]
      rw [show scan_exp_tail e (c :: r) =
          (if (c == '+' || c == '-') = true then
            match take_digits r with
            | ([], _) => ([], e :: c :: r)
            | (ds, r2) => (e :: c :: ds, r2)
          else
            match take_digits (c :: r) with
            | ([], _) => ([], e :: c :: r)
            | (ds, r2) => (e :: ds, r2)) from rfl]
      rw [if_neg hsgn, if_neg hsgn,
        show (c :: (r ++ t)) = (c :: r) ++ t from rfl,
        take_digits_append ht]
      rcases htd : take_digits (c :: r) with ⟨ds, r2⟩
      rcases ds with _ | ⟨d0, ds'⟩ <;> simp

/-- `scan_exp` over an appended all-whitespace tail. -/
theorem scan_exp_append {t : List Char}
    (ht : ∀ c ∈ t, py_space c = true) :
    ∀ s, scan_exp (s ++ t) =
      ((scan_exp s).1, (scan_exp s).2 ++ t) := by
  intro s
  rcases s with _ | ⟨e, rest⟩
  · rcases t with _ | ⟨x, r⟩
    · rfl
    · have hx := ht x (List.mem_cons_self _ _)
      have he : (x == 'e' || x == 'E') = false := by
        rcases py_space_cases hx with rfl | rfl | rfl | rfl | rfl | rfl <;>
          decide
      simp [scan_exp, he]
  · by_cases he : (e == 'e' || e == 'E') = true
    · simp [scan_exp, he, scan_exp_tail_append ht]
    · simp [scan_exp, he]

/-- `scan_number_body` over an appended all-whitespace tail. -/
theorem scan_number_body_append {t : List Char}
    (ht : ∀ c ∈ t, py_space c = true) (neg : List Char) :
    ∀ s, scan_number_body neg (s ++ t) =
      (scan_number_body neg s).map (fun r => (r.1, r.2 ++ t)) := by
  intro s
  rcases s with _ | ⟨c, r⟩
  · rcases t with _ | ⟨x, r⟩
    · rfl
    · have hx := ht x (List.mem_cons_self _ _)
      have h0 : ¬ x = '0' := by
        rcases py_space_cases hx with rfl | rfl | rfl | rfl | rfl | rfl <;>
          decide
      simp [scan_number_body, h0, py_space_not_digit hx]
  · by_cases h0 : c = '0'
    · simp [scan_number_body, h0, scan_frac_append ht,
        scan_exp_append ht]
    · by_cases hd : is_digit c
      · simp [scan_number_body, h0, hd, take_digits_append ht,
          scan_frac_append ht, scan_exp_append ht]
      · simp [scan_number_body, h0, hd]

/-- `scan_number` over an appended all-whitespace tail. -/
theorem scan_number_append {t : List Char}
    (ht : ∀ c ∈ t, py_space c = true) :
    ∀ s, scan_number (s ++ t) =
      (scan_number s).map (fun r => (r.1, r.2 ++ t)) := by
  intro s
  rcases s with _ | ⟨c, r⟩
  · rcases t with _ | ⟨x, r⟩
    · rfl
    · have hx := ht x (List.mem_cons_self _ _)
      have hm : ¬ x = '-' := by
        rcases py_space_cases hx with rfl | rfl | rfl | rfl | rfl | rfl <;>
          decide
      have h0 : ¬ x = '0' := by
        rcases py_space_cases hx with rfl | rfl | rfl | rfl | rfl | rfl <;>
          decide
      simp [scan_number, hm, scan_number_body, h0,
        py_space_not_digit hx]
  · by_cases hm : c = '-'
    · simp [scan_number, hm, scan_number_body_append ht]
    · have hstep : (c :: r) ++ t = (c :: r) ++ t := rfl
      simp [scan_number, hm]
      rw [show c :: (r ++ t) = (c :: r) ++ t from rfl,
        scan_number_body_append ht]

/-- `strip_lit` over an appended all-whitespace tail, for a pattern
with no whitespace characters. -/
theorem strip_lit_append {t : List Char}
    (ht : ∀ c ∈ t, py_space c = true) :
    ∀ (pat : List Char), (∀ c ∈ pat, py_space c = false) →
      ∀ s, strip_lit pat (s ++ t) =
        (strip_lit pat s).map (fun r => r ++ t) := by
  intro pat
  induction pat with
  | nil => intro _ s; simp [strip_lit]
  | cons p ps ih =>
      intro hpat s
      rcases s with _ | ⟨c, cs⟩
      · rcases t with _ | ⟨x, r⟩
        · rfl
        · have hx := ht x (List.mem_cons_self _ _)
          have hp := hpat p (List.mem_cons_self _ _)
          have hne : ¬ x = p := by
            intro habs
            rw [habs] at hx
            rw [hx] at hp
            cases hp
          simp [strip_lit, hne]
      · by_cases hc : c = p
        · simp only [List.cons_append, strip_lit, if_pos hc]
          exact ih (fun d hd => hpat d (List.mem_cons_of_mem _ hd)) cs
        · simp [strip_lit, hc]

/-- `parse_value` at zero fuel. -/
theorem parse_value_zero (s : List Char) : parse_value 0 s = none := rfl

/-- `parse_value` on empty input. -/
theorem parse_value_nil (fuel : Nat) : parse_value fuel [] = none := by
  cases fuel <;> rfl

/-- One-step body equation for `parse_value` (definitional). -/
theorem parse_value_succ (fuel : Nat) (c : Char) (r : List Char) :
    parse_value (fuel + 1) (c :: r) =
      (if c = '\"' then
        (scan_string r).map (fun t => (JValue.jstr t.1, t.2))
      else if c = '{' then
        match skip_ws r with
        | '}' :: r' => some (.jobj [], r')
        | r' => (parse_members fuel r').map
            (fun t => (JValue.jobj t.1, t.2))
      else if c = '[' then
        match skip_ws r with
        | ']' :: r' => some (.jarr [], r')
        | r' => (parse_elems fuel r').map
            (fun t => (JValue.jarr t.1, t.2))
      else
        match strip_lit "null".toList (c :: r) with
        | some r' => some (.jnull, r')
        | none =>
        match strip_lit "true".toList (c :: r) with
        | some r' => some (.jtrue, r')
        | none =>
        match strip_lit "false".toList (c :: r) with
        | some r' => some (.jfalse, r')
        | none =>
            if c = '-' || is_digit c then
              match scan_number (c :: r) with
              | some t => some (.jnum t.1, t.2)
              | none =>
                  match strip_lit "-Infinity".toList (c :: r) with
                  | some r' => some (.jneginf, r')
                  | none => none
            else
              match strip_lit "NaN".toList (c :: r) with
              | some r' => some (.jnan, r')
              | none =>
              match strip_lit "Infinity".toList (c :: r) with
              | some r' => some (.jinf, r')
              | none => none) := rfl

/-- `parse_elems` at zero fuel. -/
theorem parse_elems_zero (s : List Char) : parse_elems 0 s = none := rfl

/-- One-step body equation for `parse_elems` (definitional). -/
theorem parse_elems_succ (fuel : Nat) (s : List Char) :
    parse_elems (fuel + 1) s =
      (match parse_value fuel s with
       | none => none
       | some (v, rest) =>
          match skip_ws rest with
          | ',' :: r => (parse_elems fuel (skip_ws r)).map
              (fun t => (v :: t.1, t.2))
          | ']' :: r => some ([v], r)
          | _ => none) := rfl

/-- `parse_members` at zero fuel. -/
theorem parse_members_zero (s : List Char) : parse_members 0 s = none :=
  rfl

/-- One-step body equation for `parse_members` at a key quote
(definitional). -/
theorem parse_members_succ_quote (fuel : Nat) (r : List Char) :
    parse_members (fuel + 1) ('\"' :: r) =
      (match scan_string r with
       | none => none
       | some (key, r1) =>
          match skip_ws r1 with
          | ':' :: r2 =>
              match parse_value fuel (skip_ws r2) with
              | none => none
              | some (v, r3) =>
                  match skip_ws r3 with
                  | ',' :: r4 => (parse_members fuel (skip_ws r4)).map
                      (fun t => ((key, v) :: t.1, t.2))
                  | '}' :: r4 => some ([(key, v)], r4)
                  | _ => none
          | _ => none) := rfl

/-- `parse_members` fails off a key quote. -/
theorem parse_members_not_quote (fuel : Nat) :
    ∀ {s : List Char}, (∀ r, s ≠ '\"' :: r) → parse_members fuel s = none := by
  intro s h
  cases fuel with
  | zero => rfl
  | succ fuel =>
      unfold parse_members
      split
      · rename_i r
        exact absurd rfl (h r)
      · rfl

/-- No value starts with a whitespace character. -/
theorem parse_value_py_head (fuel : Nat) {c : Char} (r : List Char)
    (hc : py_space c = true) : parse_value fuel (c :: r) = none := by
  cases fuel with
  | zero => rfl
  | succ fuel =>
      rcases py_space_cases hc with rfl | rfl | rfl | rfl | rfl | rfl <;>
        simp [parse_value_succ, strip_lit, is_digit]

/-- `parse_elems` fails on all-whitespace input. -/
theorem parse_elems_all_py (fuel : Nat) {u : List Char}
    (hu : ∀ c ∈ u, py_space c = true) : parse_elems fuel u = none := by
  cases fuel with
  | zero => rfl
  | succ fuel =>
      rw [parse_elems_succ]
      rcases u with _ | ⟨x, r⟩
      · rw [parse_value_nil]
      · rw [parse_value_py_head fuel r (hu x (List.mem_cons_self _ _))]

/-- `parse_members` fails on all-whitespace input. -/
theorem parse_members_all_py (fuel : Nat) {u : List Char}
    (hu : ∀ c ∈ u, py_space c = true) : parse_members fuel u = none := by
  apply parse_members_not_quote
  intro r habs
  have := hu '\"' (by rw [habs]; exact List.mem_cons_self _ _)
  cases this

/-- The patterns of the literals recognized at value positions contain
no whitespace characters. -/
theorem lit_no_ws :
    (∀ c ∈ "null".toList, py_space c = false) ∧
      (∀ c ∈ "true".toList, py_space c = false) ∧
      (∀ c ∈ "false".toList, py_space c = false) ∧
      (∀ c ∈ "-Infinity".toList, py_space c = false) ∧
      (∀ c ∈ "NaN".toList, py_space c = false) ∧
      (∀ c ∈ "Infinity".toList, py_space c = false) := by decide

mutual

/-- Appending an all-whitespace tail to the input does not change what
`parse_value` recognizes: whitespace never extends a token, never
repairs a failure, and is carried through on the remainder. -/
theorem parse_value_append {t : List Char}
    (ht : ∀ c ∈ t, py_space c = true) :
    ∀ (fuel : Nat) (s : List Char),
      parse_value fuel (s ++ t) =
        (parse_value fuel s).map (fun r => (r.1, r.2 ++ t))
  | 0, s => by rw [parse_value_zero, parse_value_zero]; rfl
  | fuel + 1, s => by
      rcases s with _ | ⟨c, r⟩
      · rw [List.nil_append, parse_value_nil]
        rcases t with _ | ⟨x, tr⟩
        · rw [parse_value_nil]; rfl
        · rw [parse_value_py_head _ _ (ht x (List.mem_cons_self _ _))]
          rfl
      · rw [List.cons_append, parse_value_succ, parse_value_succ]
        by_cases hq : c = '\"'
        · rw [if_pos hq, if_pos hq, scan_string_append ht r]
          cases scan_string r <;> rfl
        · rw [if_neg hq, if_neg hq]
          by_cases hob : c = '{'
          · rw [if_pos hob, if_pos hob, skip_ws_append]
            by_cases hsk : (skip_ws r).isEmpty
            · rw [if_pos hsk]
              have hre : skip_ws r = [] := by
                simpa [List.isEmpty_iff] using hsk
              rw [hre]
              have hRe : (match ([] : List Char) with
                  | '}' :: r' => some (JValue.jobj [], r')
                  | r' => (parse_members fuel r').map
                      (fun t => (JValue.jobj t.1, t.2))) =
                  (none : Option (JValue × List Char)) := by
                show (parse_members fuel []).map _ = none
                rw [parse_members_all_py fuel (by intro c h; cases h)]
                rfl
              have hLe : (match skip_ws t with
                  | '}' :: r' => some (JValue.jobj [], r')
                  | r' => (parse_members fuel r').map
                      (fun t => (JValue.jobj t.1, t.2))) =
                  (none : Option (JValue × List Char)) := by
                have hall := skip_ws_all_py ht
                rcases hskt : skip_ws t with _ | ⟨x, tr⟩
                · show (parse_members fuel []).map _ = none
                  rw [parse_members_all_py fuel (by intro c h; cases h)]
                  rfl
                · rw [hskt] at hall
                  have hx : py_space x = true :=
                    hall x (List.mem_cons_self _ _)
                  have hxb : ¬ x = '}' := by
                    intro habs
                    rw [habs] at hx
                    cases hx
                  split
                  · rename_i r' heq
                    exact absurd (List.cons.inj heq).1 hxb
                  · rw [parse_members_all_py fuel hall]
                    rfl
              rw [hLe, hRe]
              rfl
            · rw [if_neg hsk]
              rcases hre : skip_ws r with _ | ⟨d, ds⟩
              · rw [hre] at hsk
                exact absurd rfl hsk
              · rw [List.cons_append]
                by_cases hd : d = '}'
                · rw [hd]
                  rfl
                · have hL : (match d :: (ds ++ t) with
                      | '}' :: r' => some (JValue.jobj [], r')
                      | r' => (parse_members fuel r').map
                          (fun t => (JValue.jobj t.1, t.2))) =
                      (parse_members fuel (d :: (ds ++ t))).map
                        (fun t => (JValue.jobj t.1, t.2)) := by
                    split
                    · rename_i r' heq
                      exact absurd (List.cons.inj heq).1 hd
                    · rfl
                  have hR : (match d :: ds with
                      | '}' :: r' => some (JValue.jobj [], r')
                      | r' => (parse_members fuel r').map
                          (fun t => (JValue.jobj t.1, t.2))) =
                      (parse_members fuel (d :: ds)).map
                        (fun t => (JValue.jobj t.1, t.2)) := by
                    split
                    · rename_i r' heq
                      exact absurd (List.cons.inj heq).1 hd
                    · rfl
                  rw [hL, hR, ← List.cons_append,
                    parse_members_append ht fuel (d :: ds)]
                  cases parse_members fuel (d :: ds) <;> rfl
          · rw [if_neg hob, if_neg hob]
            by_cases har : c = '['
            · rw [if_pos har, if_pos har, skip_ws_append]
              by_cases hsk : (skip_ws r).isEmpty
              · rw [if_pos hsk]
                have hre : skip_ws r = [] := by
                  simpa [List.isEmpty_iff] using hsk
                rw [hre]
                have hRe : (match ([] : List Char) with
                    | ']' :: r' => some (JValue.jarr [], r')
                    | r' => (parse_elems fuel r').map
                        (fun t => (JValue.jarr t.1, t.2))) =
                    (none : Option (JValue × List Char)) := by
                  show (parse_elems fuel []).map _ = none
                  rw [parse_elems_all_py fuel (by intro c h; cases h)]
                  rfl
                have hLe : (match skip_ws t with
                    | ']' :: r' => some (JValue.jarr [], r')
                    | r' => (parse_elems fuel r').map
                        (fun t => (JValue.jarr t.1, t.2))) =
                    (none : Option (JValue × List Char)) := by
                  have hall := skip_ws_all_py ht
                  rcases hskt : skip_ws t with _ | ⟨x, tr⟩
                  · show (parse_elems fuel []).map _ = none
                    rw [parse_elems_all_py fuel (by intro c h; cases h)]
                    rfl
                  · rw [hskt] at hall
                    have hx : py_space x = true :=
                      hall x (List.mem_cons_self _ _)
                    have hxb : ¬ x = ']' := by
                      intro habs
                      rw [habs] at hx
                      cases hx
                    split
                    · rename_i r' heq
                      exact absurd (List.cons.inj heq).1 hxb
                    · rw [parse_elems_all_py fuel hall]
                      rfl
                rw [hLe, hRe]
                rfl
              · rw [if_neg hsk]
                rcases hre : skip_ws r with _ | ⟨d, ds⟩
                · rw [hre] at hsk
                  exact absurd rfl hsk
                · rw [List.cons_append]
                  by_cases hd : d = ']'
                  · rw [hd]
                    rfl
                  · have hL : (match d :: (ds ++ t) with
                        | ']' :: r' => some (JValue.jarr [], r')
                        | r' => (parse_elems fuel r').map
                            (fun t => (JValue.jarr t.1, t.2))) =
                        (parse_elems fuel (d :: (ds ++ t))).map
                          (fun t => (JValue.jarr t.1, t.2)) := by
                      split
                      · rename_i r' heq
                        exact absurd (List.cons.inj heq).1 hd
                      · rfl
                    have hR : (match d :: ds with
                        | ']' :: r' => some (JValue.jarr [], r')
                        | r' => (parse_elems fuel r').map
                            (fun t => (JValue.jarr t.1, t.2))) =
                        (parse_elems fuel (d :: ds)).map
                          (fun t => (JValue.jarr t.1, t.2)) := by
                      split
                      · rename_i r' heq
                        exact absurd (List.cons.inj heq).1 hd
                      · rfl
                    rw [hL, hR, ← List.cons_append,
                      parse_elems_append ht fuel (d :: ds)]
                    cases parse_elems fuel (d :: ds) <;> rfl
            · rw [if_neg har, if_neg har, ← List.cons_append,
                strip_lit_append ht _ lit_no_ws.1,
                strip_lit_append ht _ lit_no_ws.2.1,
                strip_lit_append ht _ lit_no_ws.2.2.1,
                strip_lit_append ht _ lit_no_ws.2.2.2.1,
                strip_lit_append ht _ lit_no_ws.2.2.2.2.1,
                strip_lit_append ht _ lit_no_ws.2.2.2.2.2,
                scan_number_append ht]
              rcases strip_lit "null".toList (c :: r) with _ | r1
              · rcases strip_lit "true".toList (c :: r) with _ | r2
                · rcases strip_lit "false".toList (c :: r) with _ | r3
                  · by_cases hnum : (c = '-' || is_digit c) = true
                    · rw [if_pos hnum, if_pos hnum]
                      rcases scan_number (c :: r) with _ | p
                      · rcases strip_lit "-Infinity".toList (c :: r)
                          with _ | r4 <;> rfl
                      · rfl
                    · rw [if_neg hnum, if_neg hnum]
                      rcases strip_lit "NaN".toList (c :: r) with _ | r5
                      · rcases strip_lit "Infinity".toList (c :: r)
                          with _ | r6 <;> rfl
                      · rfl
                  · rfl
                · rfl
              · rfl
termination_by fuel _ => (fuel, 1)

/-- The array-element analogue of `parse_value_append`. -/
theorem parse_elems_append {t : List Char}
    (ht : ∀ c ∈ t, py_space c = true) :
    ∀ (fuel : Nat) (s : List Char),
      parse_elems fuel (s ++ t) =
        (parse_elems fuel s).map (fun r => (r.1, r.2 ++ t))
  | 0, s => by rw [parse_elems_zero, parse_elems_zero]; rfl
  | fuel + 1, s => by
      rw [parse_elems_succ, parse_elems_succ,
        parse_value_append ht fuel s]
      rcases hv : parse_value fuel s with _ | ⟨v, rest⟩
      · rfl
      · show (match skip_ws (rest ++ t) with
          | ',' :: r => (parse_elems fuel (skip_ws r)).map
              (fun (u : List JValue × List Char) => (v :: u.1, u.2))
          | ']' :: r => some ([v], r)
          | _ => none) =
          Option.map (fun r => (r.1, r.2 ++ t))
            (match skip_ws rest with
             | ',' :: r => (parse_elems fuel (skip_ws r)).map
                 (fun (u : List JValue × List Char) => (v :: u.1, u.2))
             | ']' :: r => some ([v], r)
             | _ => none)
        rw [skip_ws_append]
        by_cases hsk : (skip_ws rest).isEmpty
        · rw [if_pos hsk]
          have hre : skip_ws rest = [] := by
            simpa [List.isEmpty_iff] using hsk
          rw [hre]
          have hall := skip_ws_all_py ht
          rcases hskt : skip_ws t with _ | ⟨x, tr⟩
          · rfl
          · rw [hskt] at hall
            have hx : py_space x = true :=
              hall x (List.mem_cons_self _ _)
            have hxc : ¬ x = ',' := by
              intro habs; rw [habs] at hx; cases hx
            have hxb : ¬ x = ']' := by
              intro habs; rw [habs] at hx; cases hx
            split
            · rename_i r' heq
              exact absurd (List.cons.inj heq).1 hxc
            · rename_i r' heq
              exact absurd (List.cons.inj heq).1 hxb
            · rfl
        · rw [if_neg hsk]
          rcases hre : skip_ws rest with _ | ⟨d, ds⟩
          · rw [hre] at hsk
            exact absurd rfl hsk
          · rw [List.cons_append]
            by_cases hdc : d = ','
            · rw [hdc]
              show (parse_elems fuel (skip_ws (ds ++ t))).map
                  (fun (u : List JValue × List Char) =>
                    (v :: u.1, u.2)) =
                Option.map (fun r => (r.1, r.2 ++ t))
                  ((parse_elems fuel (skip_ws ds)).map
                    (fun (u : List JValue × List Char) =>
                      (v :: u.1, u.2)))
              rw [skip_ws_append]
              by_cases hsk2 : (skip_ws ds).isEmpty
              · rw [if_pos hsk2]
                have hre2 : skip_ws ds = [] := by
                  simpa [List.isEmpty_iff] using hsk2
                rw [hre2, parse_elems_all_py fuel (skip_ws_all_py ht),
                  parse_elems_all_py fuel (by intro c h; cases h)]
                rfl
              · rw [if_neg hsk2, parse_elems_append ht fuel (skip_ws ds)]
                cases parse_elems fuel (skip_ws ds) <;> rfl
            · by_cases hdb : d = ']'
              · rw [hdb]
                rfl
              · have hL : (match d :: (ds ++ t) with
                    | ',' :: r => (parse_elems fuel (skip_ws r)).map
                        (fun (u : List JValue × List Char) =>
                          (v :: u.1, u.2))
                    | ']' :: r => some ([v], r)
                    | _ => none) =
                    (none : Option (List JValue × List Char)) := by
                  split
                  · rename_i r' heq
                    exact absurd (List.cons.inj heq).1 hdc
                  · rename_i r' heq
                    exact absurd (List.cons.inj heq).1 hdb
                  · rfl
                have hR : (match d :: ds with
                    | ',' :: r => (parse_elems fuel (skip_ws r)).map
                        (fun (u : List JValue × List Char) =>
                          (v :: u.1, u.2))
                    | ']' :: r => some ([v], r)
                    | _ => none) =
                    (none : Option (List JValue × List Char)) := by
                  split
                  · rename_i r' heq
                    exact absurd (List.cons.inj heq).1 hdc
                  · rename_i r' heq
                    exact absurd (List.cons.inj heq).1 hdb
                  · rfl
                rw [hL, hR]
                rfl
termination_by fuel _ => (fuel, 0)

/-- The object-member analogue of `parse_value_append`. -/
theorem parse_members_append {t : List Char}
    (ht : ∀ c ∈ t, py_space c = true) :
    ∀ (fuel : Nat) (s : List Char),
      parse_members fuel (s ++ t) =
        (parse_members fuel s).map (fun r => (r.1, r.2 ++ t))
  | 0, s => by rw [parse_members_zero, parse_members_zero]; rfl
  | fuel + 1, s => by
      rcases s with _ | ⟨c, r⟩
      · rw [List.nil_append]
        have hnq : ∀ r', t ≠ '\"' :: r' := by
          intro r' habs
          have hx := ht '\"' (by rw [habs]; exact List.mem_cons_self _ _)
          cases hx
        rw [parse_members_not_quote (fuel + 1) hnq,
          parse_members_not_quote (fuel + 1) (by intro r' h; cases h)]
        rfl
      · by_cases hq : c = '\"'
        · rw [hq, List.cons_append, parse_members_succ_quote,
            parse_members_succ_quote, scan_string_append ht r]
          rcases hk : scan_string r with _ | ⟨key, r1⟩
          · rfl
          · show (match skip_ws (r1 ++ t) with
              | ':' :: r2 =>
                  match parse_value fuel (skip_ws r2) with
                  | none => none
                  | some (v, r3) =>
                      match skip_ws r3 with
                      | ',' :: r4 => (parse_members fuel (skip_ws r4)).map
                          (fun (u : List (List Char × JValue) ×
                              List Char) => ((key, v) :: u.1, u.2))
                      | '}' :: r4 => some ([(key, v)], r4)
                      | _ => none
              | _ => none) =
              Option.map (fun r => (r.1, r.2 ++ t))
                (match skip_ws r1 with
                 | ':' :: r2 =>
                     match parse_value fuel (skip_ws r2) with
                     | none => none
                     | some (v, r3) =>
                         match skip_ws r3 with
                         | ',' :: r4 =>
                             (parse_members fuel (skip_ws r4)).map
                               (fun (u : List (List Char × JValue) ×
                                   List Char) => ((key, v) :: u.1, u.2))
                         | '}' :: r4 => some ([(key, v)], r4)
                         | _ => none
                 | _ => none)
            rw [skip_ws_append]
            by_cases hsk : (skip_ws r1).isEmpty
            · rw [if_pos hsk]
              have hre : skip_ws r1 = [] := by
                simpa [List.isEmpty_iff] using hsk
              rw [hre]
              have hall := skip_ws_all_py ht
              rcases hskt : skip_ws t with _ | ⟨x, tr⟩
              · rfl
              · rw [hskt] at hall
                have hx : py_space x = true :=
                  hall x (List.mem_cons_self _ _)
                have hxc : ¬ x = ':' := by
                  intro habs; rw [habs] at hx; cases hx
                split
                · rename_i r' heq
                  exact absurd (List.cons.inj heq).1 hxc
                · rfl
            · rw [if_neg hsk]
              rcases hre : skip_ws r1 with _ | ⟨d, ds⟩
              · rw [hre] at hsk
                exact absurd rfl hsk
              · rw [List.cons_append]
                by_cases hdc : d = ':'
                · rw [hdc]
                  show (match parse_value fuel (skip_ws (ds ++ t)) with
                    | none => none
                    | some (v, r3) =>
                        match skip_ws r3 with
                        | ',' :: r4 =>
                            (parse_members fuel (skip_ws r4)).map
                              (fun (u : List (List Char × JValue) ×
                                  List Char) => ((key, v) :: u.1, u.2))
                        | '}' :: r4 => some ([(key, v)], r4)
                        | _ => none) =
                    Option.map (fun r => (r.1, r.2 ++ t))
                      (match parse_value fuel (skip_ws ds) with
                       | none => none
                       | some (v, r3) =>
                           match skip_ws r3 with
                           | ',' :: r4 =>
                               (parse_members fuel (skip_ws r4)).map
                                 (fun (u : List (List Char × JValue) ×
                                     List Char) =>
                                   ((key, v) :: u.1, u.2))
                           | '}' :: r4 => some ([(key, v)], r4)
                           | _ => none)
                  rw [skip_ws_append]
                  by_cases hsk2 : (skip_ws ds).isEmpty
                  · rw [if_pos hsk2]
                    have hre2 : skip_ws ds = [] := by
                      simpa [List.isEmpty_iff] using hsk2
                    rw [hre2, parse_value_nil]
                    rcases hskt : skip_ws t with _ | ⟨x, tr⟩
                    · rw [parse_value_nil]
                      rfl
                    · rw [parse_value_py_head fuel tr
                        (skip_ws_all_py ht x
                          (by rw [hskt]; exact List.mem_cons_self _ _))]
                      rfl
                  · rw [if_neg hsk2,
                      parse_value_append ht fuel (skip_ws ds)]
                    rcases hv : parse_value fuel (skip_ws ds)
                      with _ | ⟨v, r3⟩
                    · rfl
                    · show (match skip_ws (r3 ++ t) with
                        | ',' :: r4 =>
                            (parse_members fuel (skip_ws r4)).map
                              (fun (u : List (List Char × JValue) ×
                                  List Char) => ((key, v) :: u.1, u.2))
                        | '}' :: r4 => some ([(key, v)], r4)
                        | _ => none) =
                        Option.map (fun r => (r.1, r.2 ++ t))
                          (match skip_ws r3 with
                           | ',' :: r4 =>
                               (parse_members fuel (skip_ws r4)).map
                                 (fun (u : List (List Char × JValue) ×
                                     List Char) =>
                                   ((key, v) :: u.1, u.2))
                           | '}' :: r4 => some ([(key, v)], r4)
                           | _ => none)
                      rw [skip_ws_append]
                      by_cases hsk3 : (skip_ws r3).isEmpty
                      · rw [if_pos hsk3]
                        have hre3 : skip_ws r3 = [] := by
                          simpa [List.isEmpty_iff] using hsk3
                        rw [hre3]
                        have hall := skip_ws_all_py ht
                        rcases hskt : skip_ws t with _ | ⟨x, tr⟩
                        · rfl
                        · rw [hskt] at hall
                          have hx : py_space x = true :=
                            hall x (List.mem_cons_self _ _)
                          have hxc : ¬ x = ',' := by
                            intro habs; rw [habs] at hx; cases hx
                          have hxb : ¬ x = '}' := by
                            intro habs; rw [habs] at hx; cases hx
                          split
                          · rename_i r' heq
                            exact absurd (List.cons.inj heq).1 hxc
                          · rename_i r' heq
                            exact absurd (List.cons.inj heq).1 hxb
                          · rfl
                      · rw [if_neg hsk3]
                        rcases hre3 : skip_ws r3 with _ | ⟨d2, ds2⟩
                        · rw [hre3] at hsk3
                          exact absurd rfl hsk3
                        · rw [List.cons_append]
                          by_cases hd2c : d2 = ','
                          · rw [hd2c]
                            show (parse_members fuel
                                (skip_ws (ds2 ++ t))).map
                                (fun (u : List (List Char × JValue) ×
                                    List Char) =>
                                  ((key, v) :: u.1, u.2)) =
                              Option.map (fun r => (r.1, r.2 ++ t))
                                ((parse_members fuel (skip_ws ds2)).map
                                  (fun (u : List (List Char × JValue) ×
                                      List Char) =>
                                    ((key, v) :: u.1, u.2)))
                            rw [skip_ws_append]
                            by_cases hsk4 : (skip_ws ds2).isEmpty
                            · rw [if_pos hsk4]
                              have hre4 : skip_ws ds2 = [] := by
                                simpa [List.isEmpty_iff] using hsk4
                              rw [hre4,
                                parse_members_all_py fuel
                                  (skip_ws_all_py ht),
                                parse_members_all_py fuel
                                  (by intro c h; cases h)]
                              rfl
                            · rw [if_neg hsk4,
                                parse_members_append ht fuel
                                  (skip_ws ds2)]
                              cases parse_members fuel (skip_ws ds2) <;>
                                rfl
                          · by_cases hd2b : d2 = '}'
                            · rw [hd2b]
                              rfl
                            · have hL : (match d2 :: (ds2 ++ t) with
                                  | ',' :: r4 =>
                                      (parse_members fuel
                                        (skip_ws r4)).map
                                        (fun (u : List (List Char ×
                                            JValue) × List Char) =>
                                          ((key, v) :: u.1, u.2))
                                  | '}' :: r4 => some ([(key, v)], r4)
                                  | _ => none) =
                                  (none : Option (List (List Char ×
                                    JValue) × List Char)) := by
                                split
                                · rename_i r' heq
                                  exact absurd
                                    (List.cons.inj heq).1 hd2c
                                · rename_i r' heq
                                  exact absurd
                                    (List.cons.inj heq).1 hd2b
                                · rfl
                              have hR : (match d2 :: ds2 with
                                  | ',' :: r4 =>
                                      (parse_members fuel
                                        (skip_ws r4)).map
                                        (fun (u : List (List Char ×
                                            JValue) × List Char) =>
                                          ((key, v) :: u.1, u.2))
                                  | '}' :: r4 => some ([(key, v)], r4)
                                  | _ => none) =
                                  (none : Option (List (List Char ×
                                    JValue) × List Char)) := by
                                split
                                · rename_i r' heq
                                  exact absurd
                                    (List.cons.inj heq).1 hd2c
                                · rename_i r' heq
                                  exact absurd
                                    (List.cons.inj heq).1 hd2b
                                · rfl
                              rw [hL, hR]
                              rfl
                · have hL : (match d :: (ds ++ t) with
                      | ':' :: r2 =>
                          match parse_value fuel (skip_ws r2) with
                          | none => none
                          | some (v, r3) =>
                              match skip_ws r3 with
                              | ',' :: r4 =>
                                  (parse_members fuel (skip_ws r4)).map
                                    (fun (u : List (List Char ×
                                        JValue) × List Char) =>
                                      ((key, v) :: u.1, u.2))
                              | '}' :: r4 => some ([(key, v)], r4)
                              | _ => none
                      | _ => none) =
                      (none : Option (List (List Char × JValue) ×
                        List Char)) := by
                    split
                    · rename_i r' heq
                      exact absurd (List.cons.inj heq).1 hdc
                    · rfl
                  have hR : (match d :: ds with
                      | ':' :: r2 =>
                          match parse_value fuel (skip_ws r2) with
                          | none => none
                          | some (v, r3) =>
                              match skip_ws r3 with
                              | ',' :: r4 =>
                                  (parse_members fuel (skip_ws r4)).map
                                    (fun (u : List (List Char ×
                                        JValue) × List Char) =>
                                      ((key, v) :: u.1, u.2))
                              | '}' :: r4 => some ([(key, v)], r4)
                              | _ => none
                      | _ => none) =
                      (none : Option (List (List Char × JValue) ×
                        List Char)) := by
                    split
                    · rename_i r' heq
                      exact absurd (List.cons.inj heq).1 hdc
                    · rfl
                  rw [hL, hR]
                  rfl
        · rw [List.cons_append,
            parse_members_not_quote (fuel + 1)
              (by intro r' h; exact hq (List.cons.inj h).1),
            parse_members_not_quote (fuel + 1)
              (by intro r' h; exact hq (List.cons.inj h).1)]
          rfl
termination_by fuel _ => (fuel, 0)

end

/-! ## Consumption bounds: a successful scan or parse shortens the
input, which bounds the recursion depth of the parser. -/

/-- `skip_ws` never lengthens the input. -/
theorem skip_ws_length (s : List Char) : (skip_ws s).length ≤ s.length := by
  induction s with
  | nil => exact Nat.le_refl _
  | cons c cs ih =>
      show (if json_ws c then skip_ws cs else c :: cs).length ≤
        (c :: cs).length
      by_cases h : json_ws c
      · rw [if_pos h]
        exact Nat.le_trans ih (Nat.le_succ _)
      · rw [if_neg h]

mutual

/-- A successful string scan consumes at least the closing quote. -/
theorem scan_string_length : ∀ (s : List Char) {lex r2 : List Char},
    scan_string s = some (lex, r2) → r2.length < s.length
  | [] => by
      intro h
      exact Option.noConfusion h
  | c :: cs => by
      intro h
      rw [scan_string_cons] at h
      by_cases hq : c = '"'
      · rw [if_pos hq] at h
        obtain ⟨h1, h2⟩ := Prod.mk.inj (Option.some.inj h)
        rw [← h2]
        exact Nat.lt_succ_self _
      · rw [if_neg hq] at h
        by_cases hb : c = '\\'
        · rw [if_pos hb] at h
          exact Nat.lt_succ_of_lt (scan_escape_length cs h)
        · rw [if_neg hb] at h
          by_cases hc : c.toNat < 32
          · rw [if_pos hc] at h
            exact Option.noConfusion h
          · rw [if_neg hc] at h
            rcases hs : scan_string cs with _ | ⟨l, r⟩ <;> rw [hs] at h
            · exact Option.noConfusion h
            · obtain ⟨h1, h2⟩ := Prod.mk.inj (Option.some.inj h)
              rw [← h2]
              exact Nat.lt_succ_of_lt (scan_string_length cs hs)
termination_by s => s.length

/-- The escape-position analogue of `scan_string_length`. -/
theorem scan_escape_length : ∀ (s : List Char) {lex r2 : List Char},
    scan_escape s = some (lex, r2) → r2.length < s.length
  | [] => by
      intro h
      exact Option.noConfusion h
  | e :: cs' => by
      intro h
      rw [scan_escape_cons] at h
      by_cases hu : e = 'u'
      · rw [if_pos hu] at h
        exact Nat.lt_succ_of_lt (scan_unicode_length cs' h)
      · rw [if_neg hu] at h
        by_cases hse : simple_escape e
        · rw [if_pos hse] at h
          rcases hs : scan_string cs' with _ | ⟨l, r⟩ <;> rw [hs] at h
          · exact Option.noConfusion h
          · obtain ⟨h1, h2⟩ := Prod.mk.inj (Option.some.inj h)
            rw [← h2]
            exact Nat.lt_succ_of_lt (scan_string_length cs' hs)
        · rw [if_neg hse] at h
          exact Option.noConfusion h
termination_by s => s.length

/-- The `\u`-position analogue of `scan_string_length`. -/
theorem scan_unicode_length : ∀ (s : List Char) {lex r2 : List Char},
    scan_unicode s = some (lex, r2) → r2.length < s.length
  | [] => by intro h; exact Option.noConfusion h
  | [a] => by intro h; exact Option.noConfusion h
  | [a, b] => by intro h; exact Option.noConfusion h
  | [a, b, c2] => by intro h; exact Option.noConfusion h
  | a :: b :: c2 :: d :: cs'' => by
      intro h
      rename_i lex r2
      have h' : (if is_hex a && is_hex b && is_hex c2 && is_hex d then
          (scan_string cs'').map
            (fun r => ('\\' :: 'u' :: a :: b :: c2 :: d :: r.1, r.2))
        else none) = some (lex, r2) := h
      by_cases hx : (is_hex a && is_hex b && is_hex c2 && is_hex d) = true
      · rw [if_pos hx] at h'
        rcases hs : scan_string cs'' with _ | ⟨l, r⟩ <;> rw [hs] at h'
        · exact Option.noConfusion h'
        · obtain ⟨h1, h2⟩ := Prod.mk.inj (Option.some.inj h')
          rw [← h2]
          have := scan_string_length cs'' hs
          simp only [List.length_cons]
          omega
      · rw [if_neg hx] at h'
        exact Option.noConfusion h'
termination_by s => s.length

end

/-- `take_digits` never lengthens the remainder. -/
theorem take_digits_length : ∀ s : List Char,
    (take_digits s).2.length ≤ s.length
  | [] => Nat.le_refl _
  | c :: cs => by
      show (if is_digit c then
          ((c :: (take_digits cs).1, (take_digits cs).2) :
            List Char × List Char)
        else ([], c :: cs)).2.length ≤ (c :: cs).length
      by_cases h : is_digit c
      · rw [if_pos h]
        exact Nat.le_trans (take_digits_length cs) (Nat.le_succ _)
      · rw [if_neg h]

/-- After a decimal point the remainder grows by at most the restored
dot. -/
theorem scan_frac_dot_length (s : List Char) :
    (scan_frac_dot s).2.length ≤ s.length + 1 := by
  rcases s with _ | ⟨d, r2⟩
  · exact Nat.le_refl _
  · show (if is_digit d then
        (('.' :: d :: (take_digits r2).1, (take_digits r2).2) :
          List Char × List Char)
      else ([], '.' :: d :: r2)).2.length ≤ (d :: r2).length + 1
    by_cases h : is_digit d
    · rw [if_pos h]
      exact Nat.le_trans (take_digits_length r2) (by simp; omega)
    · rw [if_neg h]
      exact Nat.le_refl _

/-- The fraction group never lengthens the remainder. -/
theorem scan_frac_length (s : List Char) :
    (scan_frac s).2.length ≤ s.length := by
  rcases s with _ | ⟨c, r⟩
  · exact Nat.le_refl _
  · show (if c = '.' then scan_frac_dot r else ([], c :: r)).2.length ≤
      (c :: r).length
    by_cases h : c = '.'
    · rw [if_pos h]
      exact scan_frac_dot_length r
    · rw [if_neg h]

/-- After `e`/`E` the remainder grows by at most the restored
exponent character. -/
theorem scan_exp_tail_length (e : Char) (s : List Char) :
    (scan_exp_tail e s).2.length ≤ s.length + 1 := by
  rcases s with _ | ⟨c, r⟩
  · exact Nat.le_refl _
  · rw [show scan_exp_tail e (c :: r) =
        (if (c == '+' || c == '-') = true then
          match take_digits r with
          | ([], _) => ([], e :: c :: r)
          | (ds, r2) => (e :: c :: ds, r2)
        else
          match take_digits (c :: r) with
          | ([], _) => ([], e :: c :: r)
          | (ds, r2) => (e :: ds, r2)) from rfl]
    by_cases hsgn : (c == '+' || c == '-') = true
    · rw [if_pos hsgn]
      have htd := take_digits_length r
      rcases htd2 : take_digits r with ⟨ds, r2⟩
      rw [htd2] at htd
      rcases ds with _ | ⟨d0, ds'⟩ <;> simp at htd ⊢ <;> omega
    · rw [if_neg hsgn]
      have htd := take_digits_length (c :: r)
      rcases htd2 : take_digits (c :: r) with ⟨ds, r2⟩
      rw [htd2] at htd
      rcases ds with _ | ⟨d0, ds'⟩ <;> simp at htd ⊢ <;> omega

/-- The exponent group never lengthens the remainder. -/
theorem scan_exp_length (s : List Char) :
    (scan_exp s).2.length ≤ s.length := by
  rcases s with _ | ⟨e, rest⟩
  · exact Nat.le_refl _
  · show (if (e == 'e' || e == 'E') = true then scan_exp_tail e rest
      else ([], e :: rest)).2.length ≤ (e :: rest).length
    by_cases h : (e == 'e' || e == 'E') = true
    · rw [if_pos h]
      exact scan_exp_tail_length e rest
    · rw [if_neg h]

/-- A successful number scan consumes at least one character of the
part after the optional sign. -/
theorem scan_number_body_length (neg : List Char) :
    ∀ {s lex rest : List Char},
      scan_number_body neg s = some (lex, rest) → rest.length < s.length := by
  intro s lex rest h
  rcases s with _ | ⟨c, r⟩
  · exact Option.noConfusion h
  · have h' : (if c = '0' then
        some (neg ++ ('0' :: (scan_frac r).1 ++
            (scan_exp (scan_frac r).2).1),
          (scan_exp (scan_frac r).2).2)
      else if is_digit c then
        some (neg ++ (c :: (take_digits r).1 ++
            (scan_frac (take_digits r).2).1 ++
            (scan_exp (scan_frac (take_digits r).2).2).1),
          (scan_exp (scan_frac (take_digits r).2).2).2)
      else none) = some (lex, rest) := h
    by_cases h0 : c = '0'
    · rw [if_pos h0] at h'
      obtain ⟨h1, h2⟩ := Prod.mk.inj (Option.some.inj h')
      rw [← h2]
      have a1 := scan_frac_length r
      have a2 := scan_exp_length (scan_frac r).2
      simp only [List.length_cons]
      omega
    · rw [if_neg h0] at h'
      by_cases hd : is_digit c
      · rw [if_pos hd] at h'
        obtain ⟨h1, h2⟩ := Prod.mk.inj (Option.some.inj h')
        rw [← h2]
        have a0 := take_digits_length r
        have a1 := scan_frac_length (take_digits r).2
        have a2 := scan_exp_length (scan_frac (take_digits r).2).2
        simp only [List.length_cons]
        omega
      · rw [if_neg hd] at h'
        exact Option.noConfusion h'

/-- A successful number scan consumes at least one character. -/
theorem scan_number_length : ∀ {s lex rest : List Char},
    scan_number s = some (lex, rest) → rest.length < s.length := by
  intro s lex rest h
  rcases s with _ | ⟨c, r⟩
  · exact Option.noConfusion h
  · have h' : (if c = '-' then scan_number_body ['-'] r
      else scan_number_body [] (c :: r)) = some (lex, rest) := h
    by_cases hm : c = '-'
    · rw [if_pos hm] at h'
      exact Nat.lt_succ_of_lt (scan_number_body_length _ h')
    · rw [if_neg hm] at h'
      exact scan_number_body_length _ h'

/-- A successful literal match consumes exactly the pattern. -/
theorem strip_lit_length : ∀ (p s r : List Char),
    strip_lit p s = some r → r.length + p.length = s.length
  | [], s, r => by
      intro h
      have hs := Option.some.inj h
      subst hs
      rfl
  | _ :: _, [], r => by
      intro h
      exact Option.noConfusion h
  | p :: ps, c :: cs, r => by
      intro h
      have h' : (if c = p then strip_lit ps cs else none) = some r := h
      by_cases hc : c = p
      · rw [if_pos hc] at h'
        have := strip_lit_length ps cs r h'
        simp only [List.length_cons]
        omega
      · rw [if_neg hc] at h'
        exact Option.noConfusion h'

mutual

/-- A successful `parse_value` consumes at least one character. -/
theorem parse_value_consume : ∀ (fuel : Nat) (s : List Char)
    {v : JValue} {rest : List Char},
    parse_value fuel s = some (v, rest) → rest.length < s.length
  | 0, s => by
      intro h
      exact Option.noConfusion h
  | fuel + 1, [] => by
      intro h
      rw [parse_value_nil] at h
      exact Option.noConfusion h
  | fuel + 1, c :: r => by
      intro h
      rename_i v rest
      rw [parse_value_succ] at h
      by_cases hq : c = '"'
      · rw [if_pos hq] at h
        rcases hs : scan_string r with _ | ⟨l, r2⟩ <;> rw [hs] at h
        · exact Option.noConfusion h
        · obtain ⟨h1, h2⟩ := Prod.mk.inj (Option.some.inj h)
          rw [← h2]
          exact Nat.lt_succ_of_lt (scan_string_length r hs)
      · rw [if_neg hq] at h
        by_cases hob : c = '{'
        · rw [if_pos hob] at h
          rcases hsw : skip_ws r with _ | ⟨d, ds⟩ <;> rw [hsw] at h
          · have h' : (parse_members fuel ([] : List Char)).map
                (fun t => (JValue.jobj t.1, t.2)) = some (v, rest) := h
            rw [parse_members_all_py fuel (by intro x hx; cases hx)] at h'
            exact Option.noConfusion h'
          · have hlen : ds.length + 1 ≤ r.length := by
              have hl := skip_ws_length r
              rw [hsw] at hl
              simpa using hl
            by_cases hd : d = '}'
            · subst hd
              have h' : (some (JValue.jobj [], ds) :
                  Option (JValue × List Char)) = some (v, rest) := h
              obtain ⟨h1, h2⟩ := Prod.mk.inj (Option.some.inj h')
              rw [← h2]
              simp only [List.length_cons]
              omega
            · have hL : (match d :: ds with
                  | '}' :: r' => some (JValue.jobj [], r')
                  | r' => (parse_members fuel r').map
                      (fun t => (JValue.jobj t.1, t.2))) =
                  (parse_members fuel (d :: ds)).map
                    (fun t => (JValue.jobj t.1, t.2)) := by
                split
                · rename_i r' heq
                  exact absurd (List.cons.inj heq).1 hd
                · rfl
              rw [hL] at h
              rcases hm : parse_members fuel (d :: ds) with _ | ⟨l2, r2⟩ <;>
                rw [hm] at h
              · exact Option.noConfusion h
              · obtain ⟨h1, h2⟩ := Prod.mk.inj (Option.some.inj h)
                rw [← h2]
                have hc2 := parse_members_consume fuel (d :: ds) hm
                simp only [List.length_cons] at hc2 ⊢
                omega
        · rw [if_neg hob] at h
          by_cases har : c = '['
          · rw [if_pos har] at h
            rcases hsw : skip_ws r with _ | ⟨d, ds⟩ <;> rw [hsw] at h
            · have h' : (parse_elems fuel ([] : List Char)).map
                  (fun t => (JValue.jarr t.1, t.2)) = some (v, rest) := h
              rw [parse_elems_all_py fuel (by intro x hx; cases hx)] at h'
              exact Option.noConfusion h'
            · have hlen : ds.length + 1 ≤ r.length := by
                have hl := skip_ws_length r
                rw [hsw] at hl
                simpa using hl
              by_cases hd : d = ']'
              · subst hd
                have h' : (some (JValue.jarr [], ds) :
                    Option (JValue × List Char)) = some (v, rest) := h
                obtain ⟨h1, h2⟩ := Prod.mk.inj (Option.some.inj h')
                rw [← h2]
                simp only [List.length_cons]
                omega
              · have hL : (match d :: ds with
                    | ']' :: r' => some (JValue.jarr [], r')
                    | r' => (parse_elems fuel r').map
                        (fun t => (JValue.jarr t.1, t.2))) =
                    (parse_elems fuel (d :: ds)).map
                      (fun t => (JValue.jarr t.1, t.2)) := by
                  split
                  · rename_i r' heq
                    exact absurd (List.cons.inj heq).1 hd
                  · rfl
                rw [hL] at h
                rcases hm : parse_elems fuel (d :: ds) with _ | ⟨l2, r2⟩ <;>
                  rw [hm] at h
                · exact Option.noConfusion h
                · obtain ⟨h1, h2⟩ := Prod.mk.inj (Option.some.inj h)
                  rw [← h2]
                  have hc2 := parse_elems_consume fuel (d :: ds) hm
                  simp only [List.length_cons] at hc2 ⊢
                  omega
          · rw [if_neg har] at h
            rcases hn : strip_lit "null".toList (c :: r) with _ | r1 <;>
              rw [hn] at h
            · rcases ht2 : strip_lit "true".toList (c :: r) with _ | r2 <;>
                rw [ht2] at h
              · rcases hf2 : strip_lit "false".toList (c :: r) with _ | r3 <;>
                  rw [hf2] at h
                · by_cases hnum : (c = '-' || is_digit c) = true
                  · rw [if_pos hnum] at h
                    rcases hsn : scan_number (c :: r) with _ | ⟨nl, nr⟩ <;>
                      rw [hsn] at h
                    · rcases hni : strip_lit "-Infinity".toList (c :: r)
                        with _ | r4 <;> rw [hni] at h
                      · exact Option.noConfusion h
                      · obtain ⟨h1, h2⟩ :=
                          Prod.mk.inj (Option.some.inj h)
                        rw [← h2]
                        have ha := strip_lit_length _ _ _ hni
                        have h9 : ("-Infinity".toList).length = 9 := rfl
                        omega
                    · obtain ⟨h1, h2⟩ := Prod.mk.inj (Option.some.inj h)
                      rw [← h2]
                      exact scan_number_length hsn
                  · rw [if_neg hnum] at h
                    rcases hna : strip_lit "NaN".toList (c :: r)
                      with _ | r5 <;> rw [hna] at h
                    · rcases hi : strip_lit "Infinity".toList (c :: r)
                        with _ | r6 <;> rw [hi] at h
                      · exact Option.noConfusion h
                      · obtain ⟨h1, h2⟩ :=
                          Prod.mk.inj (Option.some.inj h)
                        rw [← h2]
                        have ha := strip_lit_length _ _ _ hi
                        have h8 : ("Infinity".toList).length = 8 := rfl
                        omega
                    · obtain ⟨h1, h2⟩ := Prod.mk.inj (Option.some.inj h)
                      rw [← h2]
                      have ha := strip_lit_length _ _ _ hna
                      have h3 : ("NaN".toList).length = 3 := rfl
                      omega
                · obtain ⟨h1, h2⟩ := Prod.mk.inj (Option.some.inj h)
                  rw [← h2]
                  have ha := strip_lit_length _ _ _ hf2
                  have h5 : ("false".toList).length = 5 := rfl
                  omega
              · obtain ⟨h1, h2⟩ := Prod.mk.inj (Option.some.inj h)
                rw [← h2]
                have ha := strip_lit_length _ _ _ ht2
                have h4 : ("true".toList).length = 4 := rfl
                omega
            · obtain ⟨h1, h2⟩ := Prod.mk.inj (Option.some.inj h)
              rw [← h2]
              have ha := strip_lit_length _ _ _ hn
              have h4 : ("null".toList).length = 4 := rfl
              omega
termination_by fuel _ => fuel

/-- A successful `parse_elems` consumes at least one character. -/
theorem parse_elems_consume : ∀ (fuel : Nat) (s : List Char)
    {l : List JValue} {rest : List Char},
    parse_elems fuel s = some (l, rest) → rest.length < s.length
  | 0, s => by
      intro h
      exact Option.noConfusion h
  | fuel + 1, s => by
      intro h
      rename_i l rest
      rw [parse_elems_succ] at h
      rcases hv : parse_value fuel s with _ | ⟨v, r1⟩ <;> rw [hv] at h
      · exact Option.noConfusion h
      · have hr1 := parse_value_consume fuel s hv
        have h' : (match skip_ws r1 with
            | ',' :: r => (parse_elems fuel (skip_ws r)).map
                (fun (u : List JValue × List Char) => (v :: u.1, u.2))
            | ']' :: r => some ([v], r)
            | _ => none) = some (l, rest) := h
        rcases hsw : skip_ws r1 with _ | ⟨d, ds⟩ <;> rw [hsw] at h'
        · exact Option.noConfusion h'
        · have hds : ds.length + 1 ≤ r1.length := by
            have hl2 := skip_ws_length r1
            rw [hsw] at hl2
            simpa using hl2
          by_cases hdc : d = ','
          · subst hdc
            have h'' : (parse_elems fuel (skip_ws ds)).map
                (fun (u : List JValue × List Char) => (v :: u.1, u.2)) =
                some (l, rest) := h'
            rcases he : parse_elems fuel (skip_ws ds) with _ | ⟨l2, r2⟩ <;>
              rw [he] at h''
            · exact Option.noConfusion h''
            · obtain ⟨h1, h2⟩ := Prod.mk.inj (Option.some.inj h'')
              rw [← h2]
              show r2.length < s.length
              have hr2 := parse_elems_consume fuel (skip_ws ds) he
              have hds2 := skip_ws_length ds
              omega
          · by_cases hdb : d = ']'
            · subst hdb
              have h'' : (some ([v], ds) :
                  Option (List JValue × List Char)) = some (l, rest) := h'
              obtain ⟨h1, h2⟩ := Prod.mk.inj (Option.some.inj h'')
              rw [← h2]
              omega
            · have hnone : (match d :: ds with
                  | ',' :: r => (parse_elems fuel (skip_ws r)).map
                      (fun (u : List JValue × List Char) =>
                        (v :: u.1, u.2))
                  | ']' :: r => some ([v], r)
                  | _ => none) =
                  (none : Option (List JValue × List Char)) := by
                split
                · rename_i r' heq
                  exact absurd (List.cons.inj heq).1 hdc
                · rename_i r' heq
                  exact absurd (List.cons.inj heq).1 hdb
                · rfl
              rw [hnone] at h'
              exact Option.noConfusion h'
termination_by fuel _ => fuel

/-- A successful `parse_members` consumes at least one character. -/
theorem parse_members_consume : ∀ (fuel : Nat) (s : List Char)
    {l : List (List Char × JValue)} {rest : List Char},
    parse_members fuel s = some (l, rest) → rest.length < s.length
  | 0, s => by
      intro h
      exact Option.noConfusion h
  | fuel + 1, s => by
      intro h
      rename_i l rest
      rcases s with _ | ⟨c, r⟩
      · rw [parse_members_not_quote _
          (fun r' h' => List.noConfusion h')] at h
        exact Option.noConfusion h
      · by_cases hq : c = '"'
        · subst hq
          rw [parse_members_succ_quote] at h
          rcases hk : scan_string r with _ | ⟨key, r1⟩ <;> rw [hk] at h
          · exact Option.noConfusion h
          · have hr1 := scan_string_length r hk
            have ha1 : (match skip_ws r1 with
                | ':' :: r2 =>
                    match parse_value fuel (skip_ws r2) with
                    | none => none
                    | some (v, r3) =>
                        match skip_ws r3 with
                        | ',' :: r4 => (parse_members fuel (skip_ws r4)).map
                            (fun (u : List (List Char × JValue) ×
                                List Char) => ((key, v) :: u.1, u.2))
                        | '}' :: r4 => some ([(key, v)], r4)
                        | _ => none
                | _ => none) = some (l, rest) := h
            rcases hsw1 : skip_ws r1 with _ | ⟨d1, ds1⟩ <;> rw [hsw1] at ha1
            · exact Option.noConfusion ha1
            · have hd1len : ds1.length + 1 ≤ r1.length := by
                have hl2 := skip_ws_length r1
                rw [hsw1] at hl2
                simpa using hl2
              by_cases hcolon : d1 = ':'
              · subst hcolon
                have ha2 : (match parse_value fuel (skip_ws ds1) with
                    | none => none
                    | some (v, r3) =>
                        match skip_ws r3 with
                        | ',' :: r4 => (parse_members fuel (skip_ws r4)).map
                            (fun (u : List (List Char × JValue) ×
                                List Char) => ((key, v) :: u.1, u.2))
                        | '}' :: r4 => some ([(key, v)], r4)
                        | _ => none) = some (l, rest) := ha1
                rcases hv : parse_value fuel (skip_ws ds1)
                  with _ | ⟨v, r3⟩ <;> rw [hv] at ha2
                · exact Option.noConfusion ha2
                · have hr3 := parse_value_consume fuel (skip_ws ds1) hv
                  have hds1 := skip_ws_length ds1
                  have ha3 : (match skip_ws r3 with
                      | ',' :: r4 => (parse_members fuel (skip_ws r4)).map
                          (fun (u : List (List Char × JValue) ×
                              List Char) => ((key, v) :: u.1, u.2))
                      | '}' :: r4 => some ([(key, v)], r4)
                      | _ => none) = some (l, rest) := ha2
                  rcases hsw3 : skip_ws r3 with _ | ⟨d3, ds3⟩ <;>
                    rw [hsw3] at ha3
                  · exact Option.noConfusion ha3
                  · have hd3len : ds3.length + 1 ≤ r3.length := by
                      have hl3 := skip_ws_length r3
                      rw [hsw3] at hl3
                      simpa using hl3
                    by_cases hcm : d3 = ','
                    · subst hcm
                      have ha4 : (parse_members fuel (skip_ws ds3)).map
                          (fun (u : List (List Char × JValue) ×
                              List Char) => ((key, v) :: u.1, u.2)) =
                          some (l, rest) := ha3
                      rcases hm : parse_members fuel (skip_ws ds3)
                        with _ | ⟨l4, r4⟩ <;> rw [hm] at ha4
                      · exact Option.noConfusion ha4
                      · obtain ⟨e1, e2⟩ :=
                          Prod.mk.inj (Option.some.inj ha4)
                        rw [← e2]
                        have hc4 := parse_members_consume fuel
                          (skip_ws ds3) hm
                        have hds3 := skip_ws_length ds3
                        simp only [List.length_cons]
                        omega
                    · by_cases hcb : d3 = '}'
                      · subst hcb
                        have ha4 : (some ([(key, v)], ds3) :
                            Option (List (List Char × JValue) ×
                              List Char)) = some (l, rest) := ha3
                        obtain ⟨e1, e2⟩ :=
                          Prod.mk.inj (Option.some.inj ha4)
                        rw [← e2]
                        simp only [List.length_cons]
                        omega
                      · have hnone : (match d3 :: ds3 with
                            | ',' :: r4 =>
                                (parse_members fuel (skip_ws r4)).map
                                  (fun (u : List (List Char × JValue) ×
                                      List Char) =>
                                    ((key, v) :: u.1, u.2))
                            | '}' :: r4 => some ([(key, v)], r4)
                            | _ => none) =
                            (none : Option (List (List Char × JValue) ×
                              List Char)) := by
                          split
                          · rename_i r' heq
                            exact absurd (List.cons.inj heq).1 hcm
                          · rename_i r' heq
                            exact absurd (List.cons.inj heq).1 hcb
                          · rfl
                        rw [hnone] at ha3
                        exact Option.noConfusion ha3
              · have hnone : (match d1 :: ds1 with
                    | ':' :: r2 =>
                        match parse_value fuel (skip_ws r2) with
                        | none => none
                        | some (v, r3) =>
                            match skip_ws r3 with
                            | ',' :: r4 =>
                                (parse_members fuel (skip_ws r4)).map
                                  (fun (u : List (List Char × JValue) ×
                                      List Char) =>
                                    ((key, v) :: u.1, u.2))
                            | '}' :: r4 => some ([(key, v)], r4)
                            | _ => none
                    | _ => none) =
                    (none : Option (List (List Char × JValue) ×
                      List Char)) := by
                  split
                  · rename_i r' heq
                    exact absurd (List.cons.inj heq).1 hcolon
                  · rfl
                rw [hnone] at ha1
                exact Option.noConfusion ha1
        · rw [parse_members_not_quote _
            (fun r' h' => hq (List.cons.inj h').1)] at h
          exact Option.noConfusion h
termination_by fuel _ => fuel

end

/-! ## Fuel irrelevance: any fuel of at least twice the input length
(plus the constant) gives the same parse. -/

mutual

/-- `parse_value` is fuel-irrelevant above the `2·|s| + 1` threshold. -/
theorem parse_value_fuel : ∀ (f g : Nat) (s : List Char),
    2 * s.length + 1 ≤ f → 2 * s.length + 1 ≤ g →
    parse_value f s = parse_value g s
  | 0, g, s => by
      intro hf hg
      exact absurd hf (by omega)
  | f + 1, 0, s => by
      intro hf hg
      exact absurd hg (by omega)
  | f + 1, g + 1, s => by
      intro hf hg
      rcases s with _ | ⟨c, r⟩
      · rw [parse_value_nil, parse_value_nil]
      · rw [List.length_cons] at hf hg
        rw [parse_value_succ, parse_value_succ]
        by_cases hq : c = '"'
        · rw [if_pos hq, if_pos hq]
        · rw [if_neg hq, if_neg hq]
          by_cases hob : c = '{'
          · rw [if_pos hob, if_pos hob]
            rcases hsw : skip_ws r with _ | ⟨d, ds⟩
            · show (parse_members f ([] : List Char)).map
                  (fun t => (JValue.jobj t.1, t.2)) =
                (parse_members g []).map
                  (fun t => (JValue.jobj t.1, t.2))
              rw [parse_members_all_py f (by intro x hx; cases hx),
                parse_members_all_py g (by intro x hx; cases hx)]
            · have hlen : ds.length + 1 ≤ r.length := by
                have hl2 := skip_ws_length r
                rw [hsw] at hl2
                simpa using hl2
              by_cases hd : d = '}'
              · subst hd
                rfl
              · have hL : (match d :: ds with
                    | '}' :: r' => some (JValue.jobj [], r')
                    | r' => (parse_members f r').map
                        (fun t => (JValue.jobj t.1, t.2))) =
                    (parse_members f (d :: ds)).map
                      (fun t => (JValue.jobj t.1, t.2)) := by
                  split
                  · rename_i r' heq
                    exact absurd (List.cons.inj heq).1 hd
                  · rfl
                have hR : (match d :: ds with
                    | '}' :: r' => some (JValue.jobj [], r')
                    | r' => (parse_members g r').map
                        (fun t => (JValue.jobj t.1, t.2))) =
                    (parse_members g (d :: ds)).map
                      (fun t => (JValue.jobj t.1, t.2)) := by
                  split
                  · rename_i r' heq
                    exact absurd (List.cons.inj heq).1 hd
                  · rfl
                rw [hL, hR, parse_members_fuel f g (d :: ds)
                  (by simp only [List.length_cons]; omega)
                  (by simp only [List.length_cons]; omega)]
          · rw [if_neg hob, if_neg hob]
            by_cases har : c = '['
            · rw [if_pos har, if_pos har]
              rcases hsw : skip_ws r with _ | ⟨d, ds⟩
              · show (parse_elems f ([] : List Char)).map
                    (fun t => (JValue.jarr t.1, t.2)) =
                  (parse_elems g []).map
                    (fun t => (JValue.jarr t.1, t.2))
                rw [parse_elems_all_py f (by intro x hx; cases hx),
                  parse_elems_all_py g (by intro x hx; cases hx)]
              · have hlen : ds.length + 1 ≤ r.length := by
                  have hl2 := skip_ws_length r
                  rw [hsw] at hl2
                  simpa using hl2
                by_cases hd : d = ']'
                · subst hd
                  rfl
                · have hL : (match d :: ds with
                      | ']' :: r' => some (JValue.jarr [], r')
                      | r' => (parse_elems f r').map
                          (fun t => (JValue.jarr t.1, t.2))) =
                      (parse_elems f (d :: ds)).map
                        (fun t => (JValue.jarr t.1, t.2)) := by
                    split
                    · rename_i r' heq
                      exact absurd (List.cons.inj heq).1 hd
                    · rfl
                  have hR : (match d :: ds with
                      | ']' :: r' => some (JValue.jarr [], r')
                      | r' => (parse_elems g r').map
                          (fun t => (JValue.jarr t.1, t.2))) =
                      (parse_elems g (d :: ds)).map
                        (fun t => (JValue.jarr t.1, t.2)) := by
                    split
                    · rename_i r' heq
                      exact absurd (List.cons.inj heq).1 hd
                    · rfl
                  rw [hL, hR, parse_elems_fuel f g (d :: ds)
                    (by simp only [List.length_cons]; omega)
                    (by simp only [List.length_cons]; omega)]
            · rw [if_neg har, if_neg har]
termination_by f g _ => f + g

/-- `parse_elems` is fuel-irrelevant above the `2·|s| + 2` threshold. -/
theorem parse_elems_fuel : ∀ (f g : Nat) (s : List Char),
    2 * s.length + 2 ≤ f → 2 * s.length + 2 ≤ g →
    parse_elems f s = parse_elems g s
  | 0, g, s => by
      intro hf hg
      exact absurd hf (by omega)
  | f + 1, 0, s => by
      intro hf hg
      exact absurd hg (by omega)
  | f + 1, g + 1, s => by
      intro hf hg
      rw [parse_elems_succ, parse_elems_succ,
        parse_value_fuel f g s (by omega) (by omega)]
      rcases hv : parse_value g s with _ | ⟨v, rest⟩
      · rfl
      · have hrest := parse_value_consume g s hv
        show (match skip_ws rest with
          | ',' :: r => (parse_elems f (skip_ws r)).map
              (fun (u : List JValue × List Char) => (v :: u.1, u.2))
          | ']' :: r => some ([v], r)
          | _ => none) =
          (match skip_ws rest with
           | ',' :: r => (parse_elems g (skip_ws r)).map
               (fun (u : List JValue × List Char) => (v :: u.1, u.2))
           | ']' :: r => some ([v], r)
           | _ => none)
        rcases hsw : skip_ws rest with _ | ⟨d, ds⟩
        · rfl
        · have hds : ds.length + 1 ≤ rest.length := by
            have hl2 := skip_ws_length rest
            rw [hsw] at hl2
            simpa using hl2
          by_cases hdc : d = ','
          · subst hdc
            show (parse_elems f (skip_ws ds)).map
                (fun (u : List JValue × List Char) => (v :: u.1, u.2)) =
              (parse_elems g (skip_ws ds)).map
                (fun (u : List JValue × List Char) => (v :: u.1, u.2))
            have hds2 := skip_ws_length ds
            rw [parse_elems_fuel f g (skip_ws ds) (by omega) (by omega)]
          · by_cases hdb : d = ']'
            · subst hdb
              rfl
            · have hLn : (match d :: ds with
                  | ',' :: r => (parse_elems f (skip_ws r)).map
                      (fun (u : List JValue × List Char) =>
                        (v :: u.1, u.2))
                  | ']' :: r => some ([v], r)
                  | _ => none) =
                  (none : Option (List JValue × List Char)) := by
                split
                · rename_i r' heq
                  exact absurd (List.cons.inj heq).1 hdc
                · rename_i r' heq
                  exact absurd (List.cons.inj heq).1 hdb
                · rfl
              have hRn : (match d :: ds with
                  | ',' :: r => (parse_elems g (skip_ws r)).map
                      (fun (u : List JValue × List Char) =>
                        (v :: u.1, u.2))
                  | ']' :: r => some ([v], r)
                  | _ => none) =
                  (none : Option (List JValue × List Char)) := by
                split
                · rename_i r' heq
                  exact absurd (List.cons.inj heq).1 hdc
                · rename_i r' heq
                  exact absurd (List.cons.inj heq).1 hdb
                · rfl
              rw [hLn, hRn]
termination_by f g _ => f + g

/-- `parse_members` is fuel-irrelevant above the `2·|s| + 2`
threshold. -/
theorem parse_members_fuel : ∀ (f g : Nat) (s : List Char),
    2 * s.length + 2 ≤ f → 2 * s.length + 2 ≤ g →
    parse_members f s = parse_members g s
  | 0, g, s => by
      intro hf hg
      exact absurd hf (by omega)
  | f + 1, 0, s => by
      intro hf hg
      exact absurd hg (by omega)
  | f + 1, g + 1, s => by
      intro hf hg
      rcases s with _ | ⟨c, r⟩
      · rw [parse_members_not_quote (f + 1)
            (fun r' h' => List.noConfusion h'),
          parse_members_not_quote (g + 1)
            (fun r' h' => List.noConfusion h')]
      · by_cases hq : c = '"'
        · subst hq
          rw [List.length_cons] at hf hg
          rw [parse_members_succ_quote, parse_members_succ_quote]
          rcases hk : scan_string r with _ | ⟨key, r1⟩
          · rfl
          · have hr1 := scan_string_length r hk
            show (match skip_ws r1 with
              | ':' :: r2 =>
                  match parse_value f (skip_ws r2) with
                  | none => none
                  | some (v, r3) =>
                      match skip_ws r3 with
                      | ',' :: r4 => (parse_members f (skip_ws r4)).map
                          (fun (u : List (List Char × JValue) ×
                              List Char) => ((key, v) :: u.1, u.2))
                      | '}' :: r4 => some ([(key, v)], r4)
                      | _ => none
              | _ => none) =
              (match skip_ws r1 with
               | ':' :: r2 =>
                   match parse_value g (skip_ws r2) with
                   | none => none
                   | some (v, r3) =>
                       match skip_ws r3 with
                       | ',' :: r4 => (parse_members g (skip_ws r4)).map
                           (fun (u : List (List Char × JValue) ×
                               List Char) => ((key, v) :: u.1, u.2))
                       | '}' :: r4 => some ([(key, v)], r4)
                       | _ => none
               | _ => none)
            rcases hsw1 : skip_ws r1 with _ | ⟨d1, ds1⟩
            · rfl
            · have hd1len : ds1.length + 1 ≤ r1.length := by
                have hl2 := skip_ws_length r1
                rw [hsw1] at hl2
                simpa using hl2
              by_cases hcolon : d1 = ':'
              · subst hcolon
                show (match parse_value f (skip_ws ds1) with
                  | none => none
                  | some (v, r3) =>
                      match skip_ws r3 with
                      | ',' :: r4 => (parse_members f (skip_ws r4)).map
                          (fun (u : List (List Char × JValue) ×
                              List Char) => ((key, v) :: u.1, u.2))
                      | '}' :: r4 => some ([(key, v)], r4)
                      | _ => none) =
                  (match parse_value g (skip_ws ds1) with
                   | none => none
                   | some (v, r3) =>
                       match skip_ws r3 with
                       | ',' :: r4 => (parse_members g (skip_ws r4)).map
                           (fun (u : List (List Char × JValue) ×
                               List Char) => ((key, v) :: u.1, u.2))
                       | '}' :: r4 => some ([(key, v)], r4)
                       | _ => none)
                have hds1 := skip_ws_length ds1
                rw [parse_value_fuel f g (skip_ws ds1) (by omega)
                  (by omega)]
                rcases hv : parse_value g (skip_ws ds1)
                  with _ | ⟨v, r3⟩
                · rfl
                · have hr3 := parse_value_consume g (skip_ws ds1) hv
                  show (match skip_ws r3 with
                    | ',' :: r4 => (parse_members f (skip_ws r4)).map
                        (fun (u : List (List Char × JValue) ×
                            List Char) => ((key, v) :: u.1, u.2))
                    | '}' :: r4 => some ([(key, v)], r4)
                    | _ => none) =
                    (match skip_ws r3 with
                     | ',' :: r4 => (parse_members g (skip_ws r4)).map
                         (fun (u : List (List Char × JValue) ×
                             List Char) => ((key, v) :: u.1, u.2))
                     | '}' :: r4 => some ([(key, v)], r4)
                     | _ => none)
                  rcases hsw3 : skip_ws r3 with _ | ⟨d3, ds3⟩
                  · rfl
                  · have hd3len : ds3.length + 1 ≤ r3.length := by
                      have hl3 := skip_ws_length r3
                      rw [hsw3] at hl3
                      simpa using hl3
                    by_cases hcm : d3 = ','
                    · subst hcm
                      show (parse_members f (skip_ws ds3)).map
                          (fun (u : List (List Char × JValue) ×
                              List Char) => ((key, v) :: u.1, u.2)) =
                        (parse_members g (skip_ws ds3)).map
                          (fun (u : List (List Char × JValue) ×
                              List Char) => ((key, v) :: u.1, u.2))
                      have hds3 := skip_ws_length ds3
                      rw [parse_members_fuel f g (skip_ws ds3)
                        (by omega) (by omega)]
                    · by_cases hcb : d3 = '}'
                      · subst hcb
                        rfl
                      · have hLn : (match d3 :: ds3 with
                            | ',' :: r4 =>
                                (parse_members f (skip_ws r4)).map
                                  (fun (u : List (List Char × JValue) ×
                                      List Char) =>
                                    ((key, v) :: u.1, u.2))
                            | '}' :: r4 => some ([(key, v)], r4)
                            | _ => none) =
                            (none : Option (List (List Char × JValue) ×
                              List Char)) := by
                          split
                          · rename_i r' heq
                            exact absurd (List.cons.inj heq).1 hcm
                          · rename_i r' heq
                            exact absurd (List.cons.inj heq).1 hcb
                          · rfl
                        have hRn : (match d3 :: ds3 with
                            | ',' :: r4 =>
                                (parse_members g (skip_ws r4)).map
                                  (fun (u : List (List Char × JValue) ×
                                      List Char) =>
                                    ((key, v) :: u.1, u.2))
                            | '}' :: r4 => some ([(key, v)], r4)
                            | _ => none) =
                            (none : Option (List (List Char × JValue) ×
                              List Char)) := by
                          split
                          · rename_i r' heq
                            exact absurd (List.cons.inj heq).1 hcm
                          · rename_i r' heq
                            exact absurd (List.cons.inj heq).1 hcb
                          · rfl
                        rw [hLn, hRn]
              · have hLn : (match d1 :: ds1 with
                    | ':' :: r2 =>
                        match parse_value f (skip_ws r2) with
                        | none => none
                        | some (v, r3) =>
                            match skip_ws r3 with
                            | ',' :: r4 =>
                                (parse_members f (skip_ws r4)).map
                                  (fun (u : List (List Char × JValue) ×
                                      List Char) =>
                                    ((key, v) :: u.1, u.2))
                            | '}' :: r4 => some ([(key, v)], r4)
                            | _ => none
                    | _ => none) =
                    (none : Option (List (List Char × JValue) ×
                      List Char)) := by
                  split
                  · rename_i r' heq
                    exact absurd (List.cons.inj heq).1 hcolon
                  · rfl
                have hRn : (match d1 :: ds1 with
                    | ':' :: r2 =>
                        match parse_value g (skip_ws r2) with
                        | none => none
                        | some (v, r3) =>
                            match skip_ws r3 with
                            | ',' :: r4 =>
                                (parse_members g (skip_ws r4)).map
                                  (fun (u : List (List Char × JValue) ×
                                      List Char) =>
                                    ((key, v) :: u.1, u.2))
                            | '}' :: r4 => some ([(key, v)], r4)
                            | _ => none
                    | _ => none) =
                    (none : Option (List (List Char × JValue) ×
                      List Char)) := by
                  split
                  · rename_i r' heq
                    exact absurd (List.cons.inj heq).1 hcolon
                  · rfl
                rw [hLn, hRn]
        · rw [parse_members_not_quote (f + 1)
              (fun r' h' => hq (List.cons.inj h').1),
            parse_members_not_quote (g + 1)
              (fun r' h' => hq (List.cons.inj h').1)]
termination_by f g _ => f + g

end

/-! ## C7 — the fence-stripping repair is a decode round-trip -/

/-- A successful parse starts at a non-whitespace character. -/
theorem parse_value_some_head {fuel : Nat} {s : List Char}
    {x : JValue × List Char} (h : parse_value fuel s = some x) :
    ∃ c u, s = c :: u ∧ py_space c = false := by
  rcases s with _ | ⟨c, u⟩
  · rw [parse_value_nil] at h
    exact Option.noConfusion h
  · refine ⟨c, u, rfl, ?_⟩
    cases hc : py_space c
    · rfl
    · rw [parse_value_py_head fuel u hc] at h
      exact Option.noConfusion h

/-- Not Python-strip whitespace implies not JSON whitespace. -/
theorem py_space_false_json {c : Char} (h : py_space c = false) :
    json_ws c = false := by
  cases hj : json_ws c
  · rfl
  · rw [json_ws_py hj] at h
    exact Bool.noConfusion h

/-- When the whitespace-skipped input starts with a character that is
not Python-strip whitespace either, `str.strip` from the left removes
exactly what `json.loads` skips. -/
theorem strip_left_eq_skip_ws : ∀ (j : List Char) {c : Char}
    {u : List Char}, skip_ws j = c :: u → py_space c = false →
    strip_left j = skip_ws j
  | [] => by
      intro h hc
      exact List.noConfusion h
  | x :: xs => by
      intro h hc
      rename_i c u
      by_cases hx : json_ws x
      · have hstep : skip_ws (x :: xs) = skip_ws xs := by
          show (if json_ws x then skip_ws xs else x :: xs) = skip_ws xs
          rw [if_pos hx]
        rw [hstep] at h ⊢
        show List.dropWhile py_space (x :: xs) = skip_ws xs
        rw [List.dropWhile_cons, if_pos (json_ws_py hx)]
        exact strip_left_eq_skip_ws xs h hc
      · have hxf : json_ws x = false := by
          cases hj : json_ws x
          · rfl
          · exact absurd hj hx
        rw [skip_ws_head_not_ws xs hxf] at h ⊢
        obtain ⟨hxc, -⟩ := List.cons.inj h
        have hpx : py_space x = false := by
          rw [hxc]
          exact hc
        show List.dropWhile py_space (x :: xs) = x :: xs
        rw [List.dropWhile_cons, if_neg (by simp [hpx])]

/-- Any list splits as its right-strip followed by an all-whitespace
tail. -/
theorem strip_right_decomp (s : List Char) :
    s = strip_right s ++ (s.reverse.takeWhile py_space).reverse ∧
      ∀ c ∈ (s.reverse.takeWhile py_space).reverse, py_space c = true := by
  constructor
  · show s = (s.reverse.dropWhile py_space).reverse ++
      (s.reverse.takeWhile py_space).reverse
    rw [← List.reverse_append, List.takeWhile_append_dropWhile,
      List.reverse_reverse]
  · intro c hc
    rw [List.mem_reverse] at hc
    exact List.mem_takeWhile_imp hc

/-- `json.loads` succeeds on `s.strip()` exactly as on `s`: the strip
removes only surrounding whitespace, which the decoder skips or
tolerates anyway. -/
theorem py_json_loads_strip {j : List Char} {v : JValue}
    (h : py_json_loads j = some v) :
    py_json_loads (py_strip j) = some v := by
  unfold py_json_loads at h
  rcases hp : parse_value (2 * j.length + 2) (skip_ws j)
    with _ | ⟨w, rest⟩ <;> rw [hp] at h
  · exact Option.noConfusion h
  · have h' : (if (skip_ws rest).isEmpty then some w else none) =
        some v := h
    by_cases hemp : (skip_ws rest).isEmpty
    · rw [if_pos hemp] at h'
      have hwv := Option.some.inj h'
      subst hwv
      obtain ⟨c, u, hsj, hc⟩ := parse_value_some_head hp
      have hsl : strip_left j = skip_ws j := strip_left_eq_skip_ws j hsj hc
      obtain ⟨hdec, hall⟩ := strip_right_decomp (skip_ws j)
      have hps : py_strip j = strip_right (skip_ws j) := by
        show strip_right (strip_left j) = _
        rw [hsl]
      have happ := parse_value_append hall (2 * j.length + 2)
        (strip_right (skip_ws j))
      rw [← hdec, hp] at happ
      rcases hpd : parse_value (2 * j.length + 2)
          (strip_right (skip_ws j)) with _ | ⟨w0, rest0⟩ <;>
        rw [hpd] at happ
      · exact Option.noConfusion happ
      · obtain ⟨h1, h2⟩ := Prod.mk.inj (Option.some.inj happ)
        have hre : skip_ws rest = [] := by
          simpa [List.isEmpty_iff] using hemp
        have hr0 : skip_ws rest0 = [] := by
          rw [h2, skip_ws_append] at hre
          by_cases he0 : (skip_ws rest0).isEmpty
          · simpa [List.isEmpty_iff] using he0
          · rw [if_neg he0] at hre
            rcases hx : skip_ws rest0 with _ | ⟨y, ys⟩
            · rfl
            · rw [hx] at hre
              exact absurd hre (by simp)
        obtain ⟨u0, hDs⟩ : ∃ u0, strip_right (skip_ws j) = c :: u0 := by
          rcases hDs : strip_right (skip_ws j) with _ | ⟨d, u0⟩
          · rw [hDs, List.nil_append] at hdec
            have hcp : py_space c = true := by
              apply hall
              rw [← hdec, hsj]
              exact List.mem_cons_self _ _
            rw [hcp] at hc
            exact Bool.noConfusion hc
          · rw [hDs, hsj, List.cons_append] at hdec
            obtain ⟨hcd, -⟩ := List.cons.inj hdec
            exact ⟨u0, by rw [← hcd]⟩
        have hlen1 : (c :: u0).length ≤ j.length := by
          have hswl := skip_ws_length j
          have hcl := congrArg List.length hdec
          rw [List.length_append, hDs] at hcl
          omega
        have hpd2 : parse_value (2 * j.length + 2) (c :: u0) =
            some (w0, rest0) := by
          rw [← hDs]
          exact hpd
        unfold py_json_loads
        rw [hps, hDs, skip_ws_head_not_ws u0 (py_space_false_json hc),
          parse_value_fuel (2 * (c :: u0).length + 2) (2 * j.length + 2)
            (c :: u0) (by omega) (by omega),
          hpd2]
        show (if (skip_ws rest0).isEmpty then some w0 else none) = some w
        rw [hr0]
        show (some w0 : Option JValue) = some w
        exact congrArg some h1.symm
    · rw [if_neg hemp] at h'
      exact Option.noConfusion h'

/-- No JSON value starts with a backtick, so the fenced raw response
fails the direct parse. -/
theorem parse_value_backtick (fuel : Nat) (r : List Char) :
    parse_value fuel (Char.ofNat 96 :: r) = none := by
  cases fuel with
  | zero => rfl
  | succ fuel => rfl

/-- The direct `json.loads` of a fenced response fails. -/
theorem py_json_loads_fence_wrap (j : List Char) :
    py_json_loads (fence_wrap j) = none := by
  have hsw : skip_ws (fence_wrap j) =
      Char.ofNat 96 :: (Char.ofNat 96 :: Char.ofNat 96 :: 'j' :: 's' ::
        'o' :: 'n' :: ('\n' :: j ++ '\n' :: fence_close)) := rfl
  unfold py_json_loads
  rw [hsw, parse_value_backtick]

/-- `strip_lit` strips exactly a literal prefix. -/
theorem strip_lit_self_append : ∀ (p s : List Char),
    strip_lit p (p ++ s) = some s
  | [], s => rfl
  | c :: ps, s => by
      show (if c = c then strip_lit ps (ps ++ s) else none) = some s
      rw [if_pos rfl]
      exact strip_lit_self_append ps s

/-- `endswith` holds on an appended copy of the pattern. -/
theorem ends_with_append (p s : List Char) :
    ends_with p (s ++ p) = true := by
  show (strip_lit p.reverse (s ++ p).reverse).isSome = true
  rw [List.reverse_append, strip_lit_self_append]
  rfl

/-- `str.strip` drops a leading whitespace character. -/
theorem py_strip_cons_space (x : Char) (hx : py_space x = true)
    (s : List Char) : py_strip (x :: s) = py_strip s := by
  show strip_right (List.dropWhile py_space (x :: s)) =
    strip_right (List.dropWhile py_space s)
  rw [List.dropWhile_cons, if_pos hx]

/-- `str.strip` from the right drops a trailing whitespace character. -/
theorem strip_right_append_space (x : Char) (hx : py_space x = true)
    (s : List Char) : strip_right (s ++ [x]) = strip_right s := by
  show ((s ++ [x]).reverse.dropWhile py_space).reverse =
    (s.reverse.dropWhile py_space).reverse
  rw [List.reverse_append, List.reverse_singleton, List.singleton_append,
    List.dropWhile_cons, if_pos hx]

/-- `str.strip` from the right keeps a non-whitespace last character. -/
theorem strip_right_append_keep (x : Char) (hx : py_space x = false)
    (s : List Char) : strip_right (s ++ [x]) = s ++ [x] := by
  show ((s ++ [x]).reverse.dropWhile py_space).reverse = s ++ [x]
  rw [List.reverse_append, List.reverse_singleton, List.singleton_append,
    List.dropWhile_cons, if_neg (by simp [hx]), List.reverse_cons,
    List.reverse_reverse]

/-- `str.strip` drops a trailing whitespace character. -/
theorem py_strip_append_space (x : Char) (hx : py_space x = true)
    (s : List Char) : py_strip (s ++ [x]) = py_strip s := by
  show strip_right (List.dropWhile py_space (s ++ [x])) =
    strip_right (List.dropWhile py_space s)
  rw [List.dropWhile_append]
  by_cases he : (List.dropWhile py_space s).isEmpty
  · have hse : List.dropWhile py_space s = [] := by
      simpa [List.isEmpty_iff] using he
    rw [if_pos he, hse,
      show List.dropWhile py_space [x] = ([] : List Char) from by
        rw [List.dropWhile_cons, if_pos hx, List.dropWhile_nil]]
  · rw [if_neg he]
    exact strip_right_append_space x hx _

/-- A fenced response is already stripped: it starts and ends with a
backtick. -/
theorem py_strip_fence_wrap (j : List Char) :
    py_strip (fence_wrap j) = fence_wrap j := by
  have h1 : strip_left (fence_wrap j) = fence_wrap j := rfl
  have h2 : fence_wrap j =
      (fence_open ++ '\n' :: j ++
        ['\n', Char.ofNat 96, Char.ofNat 96]) ++ [Char.ofNat 96] := by
    simp [fence_wrap, fence_open, fence_close]
  show strip_right (strip_left (fence_wrap j)) = fence_wrap j
  rw [h1, h2, strip_right_append_keep (Char.ofNat 96) (by rfl)]

/-- The fence-stripping repair recovers exactly the stripped payload of
a fenced response. -/
theorem fence_strip_wrap (j : List Char) :
    fence_strip (fence_wrap j) = py_strip j := by
  show py_strip
      (let s1 := py_strip (fence_wrap j)
       let s2 := match strip_lit fence_open s1 with
                 | some r => r
                 | none => s1
       if ends_with fence_close s2 then s2.take (s2.length - 3)
       else s2) =
    py_strip j
  rw [py_strip_fence_wrap]
  show py_strip
      (if ends_with fence_close ('\n' :: j ++ '\n' :: fence_close) then
        ('\n' :: j ++ '\n' :: fence_close).take
          (('\n' :: j ++ '\n' :: fence_close).length - 3)
      else '\n' :: j ++ '\n' :: fence_close) = py_strip j
  have hy : '\n' :: j ++ '\n' :: fence_close =
      ('\n' :: j ++ ['\n']) ++ fence_close := by simp
  have hcond : ends_with fence_close
      (('\n' :: j ++ ['\n']) ++ fence_close) = true :=
    ends_with_append _ _
  rw [hy, if_pos hcond, List.length_append,
    show (fence_close : List Char).length = 3 from rfl,
    Nat.add_sub_cancel, List.take_left,
    py_strip_append_space '\n' (by rfl), py_strip_cons_space '\n' (by rfl)]

/-- C7: the fence-stripping repair is a decode round-trip.  For every
JSON text `j` (an input `json.loads` accepts), decoding the raw
response that wraps `j` in triple-backtick fences with a leading
`json` language tag yields exactly the value of decoding `j`
unwrapped. -/
theorem fence_wrap_decode_roundtrip (j : List Char) (max_tokens : Nat)
    (v : JValue) (h : py_json_loads j = some v) :
    json_completion_decode (fence_wrap j) max_tokens = .ok v ∧
      json_completion_decode j max_tokens = .ok v := by
  constructor
  · unfold json_completion_decode
    rw [py_json_loads_fence_wrap, fence_strip_wrap,
      py_json_loads_strip h]
  · unfold json_completion_decode
    rw [h]

/-- C7 witness: the one-character JSON text `1` decodes to its number
token both bare and wrapped in `json`-tagged fences. -/
theorem fence_wrap_decode_roundtrip_witness :
    py_json_loads ['1'] = some (JValue.jnum ['1']) ∧
      json_completion_decode (fence_wrap ['1']) 2000 =
        Except.ok (JValue.jnum ['1']) ∧
      json_completion_decode ['1'] 2000 =
        Except.ok (JValue.jnum ['1']) :=
  ⟨rfl, (fence_wrap_decode_roundtrip ['1'] 2000 _ rfl).1,
    (fence_wrap_decode_roundtrip ['1'] 2000 _ rfl).2⟩

/-! ## Generic descending-sort lemmas (read paths) -/

/-- The generic insert splices its element in. -/
theorem insert_desc_key_perm {α κ : Type} [LinearOrder κ]
    (key : α → κ) (x : α) (l : List α) :
    (insert_desc_key key x l).Perm (x :: l) := by
  induction l with
  | nil => simp [insert_desc_key]
  | cons y ys ih =>
      by_cases h : key x < key y
      · have h1 : insert_desc_key key x (y :: ys) =
            y :: insert_desc_key key x ys := by simp [insert_desc_key, h]
        rw [h1]
        exact ((List.Perm.cons y ih).trans (List.Perm.swap x y ys))
      · simp [insert_desc_key, h]

/-- The generic insert preserves non-increasing key order. -/
theorem insert_desc_key_pairwise {α κ : Type} [LinearOrder κ]
    (key : α → κ) (x : α) (l : List α)
    (h : l.Pairwise (fun a b => key b ≤ key a)) :
    (insert_desc_key key x l).Pairwise (fun a b => key b ≤ key a) := by
  induction l with
  | nil => simp [insert_desc_key]
  | cons y ys ih =>
      rcases List.pairwise_cons.mp h with ⟨hy, hys⟩
      by_cases hcmp : key x < key y
      · have hhead : ∀ b ∈ insert_desc_key key x ys, key b ≤ key y := by
          intro b hb
          rcases (by simpa using (insert_desc_key_perm key x ys).mem_iff.mp hb :
              b = x ∨ b ∈ ys) with rfl | hb'
          · exact le_of_lt hcmp
          · exact hy b hb'
        simpa [insert_desc_key, hcmp] using
          List.pairwise_cons.mpr ⟨hhead, ih hys⟩
      · have hall : ∀ b ∈ y :: ys, key b ≤ key x := by
          intro b hb
          rcases List.mem_cons.mp hb with rfl | hb'
          · exact not_lt.mp hcmp
          · exact le_trans (hy b hb') (not_lt.mp hcmp)
        simpa [insert_desc_key, hcmp] using List.pairwise_cons.mpr ⟨hall, h⟩

/-- The generic sort is non-increasing on keys. -/
theorem sort_desc_key_pairwise {α κ : Type} [LinearOrder κ]
    (key : α → κ) (l : List α) :
    (sort_desc_key key l).Pairwise (fun a b => key b ≤ key a) := by
  induction l with
  | nil => simp [sort_desc_key]
  | cons x xs ih => exact insert_desc_key_pairwise key x _ ih

/-! ## C3 — where the 5/3 visibility caps live -/

/-- C3 counterexample: the Graph Synthesizer does not truncate.  For a
generator response carrying six top-level projects, the candidate graph
`build_mind_map` returns contains six top-level projects — more than
the claimed cap of 5. -/
theorem build_mind_map_no_truncation_counterexample :
    5 < ((build_mind_map
        ⟨"M".toList, "T".toList, 0,
          some (List.replicate 6
            ⟨none, "P".toList, none, none, none, none, none, none,
              none⟩),
          none⟩).projects.getD []).length := by decide

/-- C3 amended: the visibility caps are enforced on the read path, not
by the Synthesizer: whatever the database holds, the assembled
`mind_map` reply object has at most 5 top-level projects and at most 3
child nodes per project. -/
theorem format_mind_map_response_caps (mind_map_id : Nat) (db : Db)
    (resp : MindMapResp)
    (h : format_mind_map_response mind_map_id db = some resp) :
    resp.projects.length ≤ 5 ∧ ∀ p ∈ resp.projects, p.nodes.length ≤ 3 := by
  unfold format_mind_map_response at h
  rcases hm : get_mind_map mind_map_id db with _ | mm
  · rw [hm] at h; exact absurd h (by simp)
  · rw [hm] at h
    simp only [Option.some.injEq] at h
    subst h
    constructor
    · simp only [List.length_map, List.length_take]
      omega
    · intro p hp
      simp only [List.mem_map] at hp
      obtain ⟨proj, hproj, rfl⟩ := hp
      simp only [List.length_map, get_project_nodes, List.length_take]
      omega

/-- C3 witness: a concrete database on which the formatted response
exists and satisfies the caps. -/
theorem format_mind_map_response_caps_witness :
    ∃ resp, format_mind_map_response 1
        ⟨2, [⟨1, 1, "A".toList, "T".toList⟩], [], [], [], [], [], [],
          [], [], [], [], []⟩ = some resp ∧
      resp.projects.length ≤ 5 ∧
        ∀ p ∈ resp.projects, p.nodes.length ≤ 3 := by
  rcases hval : format_mind_map_response 1
      ⟨2, [⟨1, 1, "A".toList, "T".toList⟩], [], [], [], [], [], [],
        [], [], [], [], []⟩ with _ | resp
  · exact absurd hval (by decide)
  · exact ⟨resp, rfl, format_mind_map_response_caps 1 _ resp hval⟩

/-! ## C8 — plan persistence drops unresolved issue references -/

/-- The issue-id map the issues loop builds, in closed form: most
recent binding first, one binding per decoded issue with its generated
row id. -/
def issue_map_spec (next : Nat) : List GIssue → IdMap
  | [] => []
  | issue_data :: rest =>
      issue_map_spec (next + 1) rest ++ [(issue_data.issue_id, next)]

/-- Closed form of the issues loop from any starting accumulator. -/
theorem issues_fold_chars (mmid : Nat) (issues : List GIssue) :
    ∀ (db : Db) (m0 : IdMap),
      issues.foldl (fun acc issue_data =>
          let r := create_issue mmid issue_data.issue_id
            issue_data.description
            (issue_data.severity.getD "medium".toList) [] acc.1
          (r.2, idmap_insert issue_data.issue_id r.1 acc.2)) (db, m0) =
        ({ db with
            next_id := db.next_id + issues.length,
            issues := db.issues ++
              persist_issues_spec mmid db.next_id issues },
          issue_map_spec db.next_id issues ++ m0) := by
  induction issues with
  | nil =>
      intro db m0
      cases db
      simp [persist_issues_spec, issue_map_spec]
  | cons issue_data rest ih =>
      intro db m0
      rw [List.foldl_cons]
      have hstep := ih
        (create_issue mmid issue_data.issue_id issue_data.description
          (issue_data.severity.getD "medium".toList) [] db).2
        (idmap_insert issue_data.issue_id
          (create_issue mmid issue_data.issue_id issue_data.description
            (issue_data.severity.getD "medium".toList) [] db).1 m0)
      refine hstep.trans ?_
      cases db
      simp [create_issue, Db.fresh, persist_issues_spec, issue_map_spec,
        idmap_insert, Nat.add_comm, Nat.add_assoc, Nat.add_left_comm]

/-- `persist_issues_phase` in closed form. -/
theorem persist_issues_phase_chars (mmid : Nat) (issues : List GIssue)
    (db : Db) :
    persist_issues_phase mmid issues db =
      ({ db with
          next_id := db.next_id + issues.length,
          issues := db.issues ++
            persist_issues_spec mmid db.next_id issues },
        issue_map_spec db.next_id issues) := by
  have h := issues_fold_chars mmid issues db []
  simpa [persist_issues_phase] using h

/-- Every binding of the closed-form issue map points at a row of the
closed-form issue rows (same generated id, this mind map). -/
theorem issue_map_spec_sound (mmid : Nat) (issues : List GIssue) :
    ∀ (next : Nat) (kv : PyStr × Nat), kv ∈ issue_map_spec next issues →
      ∃ irow ∈ persist_issues_spec mmid next issues,
        irow.id = kv.2 ∧ irow.mind_map_id = mmid := by
  induction issues with
  | nil => intro next kv hkv; simp [issue_map_spec] at hkv
  | cons issue_data rest ih =>
      intro next kv hkv
      simp only [issue_map_spec, List.mem_append, List.mem_singleton]
        at hkv
      rcases hkv with hkv | rfl
      · obtain ⟨irow, hirow, h1, h2⟩ := ih (next + 1) kv hkv
        exact ⟨irow, List.mem_cons_of_mem _ hirow, h1, h2⟩
      · exact ⟨_, List.mem_cons_self _ _, rfl, rfl⟩

/-- The root-causes loop touches only `root_causes`,
`root_cause_issues` and the id counter. -/
theorem causes_fold_preserves (mmid : Nat) (causes : List GCause)
    (m : IdMap) :
    ∀ db : Db,
      (persist_causes_phase mmid causes m db).plans = db.plans ∧
        (persist_causes_phase mmid causes m db).issues = db.issues ∧
        (persist_causes_phase mmid causes m db).issue_projects =
          db.issue_projects ∧
        (persist_causes_phase mmid causes m db).task_projects =
          db.task_projects ∧
        (persist_causes_phase mmid causes m db).tasks = db.tasks := by
  induction causes with
  | nil => intro db; exact ⟨rfl, rfl, rfl, rfl, rfl⟩
  | cons cause_data rest ih =>
      intro db
      have hstep : persist_causes_phase mmid (cause_data :: rest) m db =
          persist_causes_phase mmid rest m
            ((create_root_cause mmid cause_data.cause_id
              cause_data.short_explanation
              (((cause_data.linked_issues.getD []).filterMap
                (fun iid => idmap_lookup iid m))) db).2) := rfl
      rw [hstep]
      obtain ⟨h1, h2, h3, h4, h5⟩ := ih
        ((create_root_cause mmid cause_data.cause_id
          cause_data.short_explanation
          (((cause_data.linked_issues.getD []).filterMap
            (fun iid => idmap_lookup iid m))) db).2)
      by_cases he : (((cause_data.linked_issues.getD []).filterMap
          (fun iid => idmap_lookup iid m))).isEmpty
      · refine ⟨?_, ?_, ?_, ?_, ?_⟩ <;>
          simp [create_root_cause, Db.fresh, he] at h1 h2 h3 h4 h5 ⊢ <;>
            assumption
      · refine ⟨?_, ?_, ?_, ?_, ?_⟩ <;>
          simp [create_root_cause, Db.fresh, he] at h1 h2 h3 h4 h5 ⊢ <;>
            assumption

/-- The plans loop in closed form: the counter advances by the number
of resolvable plans and their rows are appended; nothing else moves. -/
theorem plans_fold_spec (m : IdMap) (plans : List GPlan) :
    ∀ db : Db,
      persist_plans_phase plans m db =
        { db with
            next_id := db.next_id +
              (plans.filter (plan_resolvable m)).length,
            plans := db.plans ++
              persist_plans_spec m db.next_id plans } := by
  induction plans with
  | nil =>
      intro db
      cases db
      simp [persist_plans_phase, persist_plans_spec]
  | cons plan_data rest ih =>
      intro db
      have hstep : persist_plans_phase (plan_data :: rest) m db =
          persist_plans_phase rest m
            (match idmap_lookup plan_data.plan_issue_id m with
             | some iid =>
                (create_plan iid (plan_data.steps.getD []) db).2
             | none => db) := rfl
      rw [hstep]
      rcases hl : idmap_lookup plan_data.plan_issue_id m with _ | iid
      · rw [ih]
        cases db
        simp [persist_plans_spec, plan_resolvable, hl, List.filter]
      · rw [ih]
        cases db
        simp [persist_plans_spec, plan_resolvable, hl, List.filter,
          create_plan, Db.fresh, Nat.add_comm, Nat.add_assoc,
          Nat.add_left_comm]

/-- Spec row count equals the resolvable-plan count. -/
theorem persist_plans_spec_length (m : IdMap) (plans : List GPlan) :
    ∀ next : Nat,
      (persist_plans_spec m next plans).length =
        (plans.filter (plan_resolvable m)).length := by
  induction plans with
  | nil => intro next; simp [persist_plans_spec]
  | cons plan_data rest ih =>
      intro next
      rcases hl : idmap_lookup plan_data.plan_issue_id m with _ | iid
      · simp [persist_plans_spec, hl, plan_resolvable, List.filter, ih]
      · simp [persist_plans_spec, hl, plan_resolvable, List.filter, ih]

/-- Every spec plan row comes from a decoded plan whose issue id
resolved, and references the mapped issue row id with the plan's own
steps. -/
theorem persist_plans_spec_mem {m : IdMap} {plans : List GPlan} :
    ∀ {next : Nat} {row : PlanRow},
      row ∈ persist_plans_spec m next plans →
      ∃ pl ∈ plans,
        idmap_lookup pl.plan_issue_id m = some row.issue_id ∧
          row.steps = pl.steps.getD [] := by
  induction plans with
  | nil => intro next row h; simp [persist_plans_spec] at h
  | cons plan_data rest ih =>
      intro next row h
      rcases hl : idmap_lookup plan_data.plan_issue_id m with _ | iid
      · rw [persist_plans_spec, hl] at h
        obtain ⟨pl, hpl, hprops⟩ := ih h
        exact ⟨pl, List.mem_cons_of_mem _ hpl, hprops⟩
      · rw [persist_plans_spec, hl] at h
        rcases List.mem_cons.mp h with rfl | h'
        · exact ⟨plan_data, List.mem_cons_self _ _, hl, rfl⟩
        · obtain ⟨pl, hpl, hprops⟩ := ih h'
          exact ⟨pl, List.mem_cons_of_mem _ hpl, hprops⟩

/-- The tasks loop touches only `tasks` and the counter: with
`related_projects=[]` no `task_projects` link is ever written, and
`plans`, `issues`, `issue_projects` stay put. -/
theorem tasks_fold_preserves (mmid : Nat) (m : IdMap)
    (ts : List GTask) :
    ∀ (db : Db) (acc : List Nat),
      (ts.foldl (fun acc task_data =>
          let related_issue_id :=
            match task_data.related_issue with
            | some s => idmap_lookup s m
            | none => none
          let r := create_task mmid task_data.name task_data.kpi
            task_data.subtasks task_data.priority_score related_issue_id
            [] task_data.estimated_time_min task_data.context_hint acc.1
          (r.2, acc.2 ++ [r.1])) (db, acc)).1.plans = db.plans ∧
      (ts.foldl (fun acc task_data =>
          let related_issue_id :=
            match task_data.related_issue with
            | some s => idmap_lookup s m
            | none => none
          let r := create_task mmid task_data.name task_data.kpi
            task_data.subtasks task_data.priority_score related_issue_id
            [] task_data.estimated_time_min task_data.context_hint acc.1
          (r.2, acc.2 ++ [r.1])) (db, acc)).1.issues = db.issues ∧
      (ts.foldl (fun acc task_data =>
          let related_issue_id :=
            match task_data.related_issue with
            | some s => idmap_lookup s m
            | none => none
          let r := create_task mmid task_data.name task_data.kpi
            task_data.subtasks task_data.priority_score related_issue_id
            [] task_data.estimated_time_min task_data.context_hint acc.1
          (r.2, acc.2 ++ [r.1])) (db, acc)).1.issue_projects =
        db.issue_projects ∧
      (ts.foldl (fun acc task_data =>
          let related_issue_id :=
            match task_data.related_issue with
            | some s => idmap_lookup s m
            | none => none
          let r := create_task mmid task_data.name task_data.kpi
            task_data.subtasks task_data.priority_score related_issue_id
            [] task_data.estimated_time_min task_data.context_hint acc.1
          (r.2, acc.2 ++ [r.1])) (db, acc)).1.task_projects =
        db.task_projects := by
  induction ts with
  | nil => intro db acc; exact ⟨rfl, rfl, rfl, rfl⟩
  | cons task_data rest ih =>
      intro db acc
      rw [List.foldl_cons]
      obtain ⟨h1, h2, h3, h4⟩ := ih
        (create_task mmid task_data.name task_data.kpi
          task_data.subtasks task_data.priority_score
          (match task_data.related_issue with
           | some s => idmap_lookup s m
           | none => none)
          [] task_data.estimated_time_min task_data.context_hint db).2
        (acc ++ [(create_task mmid task_data.name task_data.kpi
          task_data.subtasks task_data.priority_score
          (match task_data.related_issue with
           | some s => idmap_lookup s m
           | none => none)
          [] task_data.estimated_time_min task_data.context_hint db).1])
      refine ⟨?_, ?_, ?_, ?_⟩ <;>
        simp [create_task, Db.fresh] at h1 h2 h3 h4 ⊢ <;> assumption

/-- C8: in `persist_analysis_and_tasks`, the plan rows appended are
exactly the decoded plans whose `issue_id` is a key of the turn's
issue-id map (row count equals resolvable-plan count, so a plan whose
issue id is absent is skipped, and the function is total — no
exception); every appended plan row references the id of an issue row
freshly created in the same call for the same mind map. -/
theorem persist_analysis_plans_resolution (mmid : Nat)
    (resp : AnalysisResp) (db : Db) :
    (persist_analysis_and_tasks mmid resp db).2.2.issues =
        db.issues ++ persist_issues_spec mmid db.next_id resp.issues ∧
      (persist_analysis_and_tasks mmid resp db).2.2.plans =
        db.plans ++
          persist_plans_spec (issue_map_spec db.next_id resp.issues)
            (persist_causes_phase mmid resp.root_causes
              (persist_issues_phase mmid resp.issues db).2
              (persist_issues_phase mmid resp.issues db).1).next_id
            resp.plans ∧
      (persist_plans_spec (issue_map_spec db.next_id resp.issues)
          (persist_causes_phase mmid resp.root_causes
            (persist_issues_phase mmid resp.issues db).2
            (persist_issues_phase mmid resp.issues db).1).next_id
          resp.plans).length =
        (resp.plans.filter
          (plan_resolvable (issue_map_spec db.next_id resp.issues))
          ).length ∧
      ∀ row ∈ persist_plans_spec (issue_map_spec db.next_id resp.issues)
          (persist_causes_phase mmid resp.root_causes
            (persist_issues_phase mmid resp.issues db).2
            (persist_issues_phase mmid resp.issues db).1).next_id
          resp.plans,
        (∃ pl ∈ resp.plans,
          idmap_lookup pl.plan_issue_id
              (issue_map_spec db.next_id resp.issues) =
            some row.issue_id ∧ row.steps = pl.steps.getD []) ∧
        ∃ irow ∈ persist_issues_spec mmid db.next_id resp.issues,
          irow.id = row.issue_id ∧ irow.mind_map_id = mmid := by
  have hphase := persist_issues_phase_chars mmid resp.issues db
  have hmap : (persist_issues_phase mmid resp.issues db).2 =
      issue_map_spec db.next_id resp.issues := by rw [hphase]
  obtain ⟨hcp, hci, hcip, hctp, hct⟩ := causes_fold_preserves mmid
    resp.root_causes (persist_issues_phase mmid resp.issues db).2
    (persist_issues_phase mmid resp.issues db).1
  have hplans := plans_fold_spec (persist_issues_phase mmid resp.issues db).2
    resp.plans (persist_causes_phase mmid resp.root_causes
      (persist_issues_phase mmid resp.issues db).2
      (persist_issues_phase mmid resp.issues db).1)
  obtain ⟨htp, hti, htip, http⟩ := tasks_fold_preserves mmid
    (persist_issues_phase mmid resp.issues db).2 (resp.tasks.take 5)
    (persist_plans_phase resp.plans
      (persist_issues_phase mmid resp.issues db).2
      (persist_causes_phase mmid resp.root_causes
        (persist_issues_phase mmid resp.issues db).2
        (persist_issues_phase mmid resp.issues db).1)) []
  have hfinal : (persist_analysis_and_tasks mmid resp db).2.2 =
      (persist_tasks_phase mmid resp.tasks
        (persist_issues_phase mmid resp.issues db).2
        (persist_plans_phase resp.plans
          (persist_issues_phase mmid resp.issues db).2
          (persist_causes_phase mmid resp.root_causes
            (persist_issues_phase mmid resp.issues db).2
            (persist_issues_phase mmid resp.issues db).1))).1 := rfl
  constructor
  · rw [hfinal]
    unfold persist_tasks_phase
    rw [hti, hplans]
    show (persist_causes_phase mmid resp.root_causes
        (persist_issues_phase mmid resp.issues db).2
        (persist_issues_phase mmid resp.issues db).1).issues = _
    rw [hci, hphase]
  constructor
  · rw [hfinal]
    unfold persist_tasks_phase
    rw [htp, hplans]
    show (persist_causes_phase mmid resp.root_causes
          (persist_issues_phase mmid resp.issues db).2
          (persist_issues_phase mmid resp.issues db).1).plans ++ _ = _
    rw [hcp, hmap]
    have : (persist_issues_phase mmid resp.issues db).1.plans =
        db.plans := by rw [hphase]
    rw [this]
  constructor
  · rw [persist_plans_spec_length]
  · intro row hrow
    refine ⟨persist_plans_spec_mem hrow, ?_⟩
    obtain ⟨pl, hpl, hlk, hsteps⟩ := persist_plans_spec_mem hrow
    obtain ⟨k', hk'⟩ := idmap_lookup_mem hlk
    exact issue_map_spec_sound mmid resp.issues db.next_id
      (k', row.issue_id) hk'

/-! ## C10 — persisted issues and tasks carry no project links -/

/-- C10: the pipeline always passes empty project-link lists (the
issues loop passes `project_ids=[]`, the tasks loop
`related_projects=[]`), so `persist_analysis_and_tasks` writes no
`issue_projects` or `task_projects` rows; starting from a state with
empty link tables, the link tables stay empty and every issue and
every task in the assembled reply payload has an empty
`related_projects` array. -/
theorem persist_analysis_no_project_links (mmid : Nat)
    (resp : AnalysisResp) (db : Db)
    (hip : db.issue_projects = []) (htp : db.task_projects = []) :
    (persist_analysis_and_tasks mmid resp db).2.2.issue_projects = [] ∧
      (persist_analysis_and_tasks mmid resp db).2.2.task_projects = [] ∧
      (∀ ir ∈ format_issues_response mmid
          (persist_analysis_and_tasks mmid resp db).2.2,
        ir.related_projects = []) ∧
      ∀ tr ∈ format_tasks_response mmid
          (persist_analysis_and_tasks mmid resp db).2.2,
        tr.related_projects = [] := by
  have hphase := persist_issues_phase_chars mmid resp.issues db
  obtain ⟨-, -, hcip, hctp, -⟩ := causes_fold_preserves mmid
    resp.root_causes (persist_issues_phase mmid resp.issues db).2
    (persist_issues_phase mmid resp.issues db).1
  have hplans := plans_fold_spec (persist_issues_phase mmid resp.issues db).2
    resp.plans (persist_causes_phase mmid resp.root_causes
      (persist_issues_phase mmid resp.issues db).2
      (persist_issues_phase mmid resp.issues db).1)
  obtain ⟨-, -, htip, http⟩ := tasks_fold_preserves mmid
    (persist_issues_phase mmid resp.issues db).2 (resp.tasks.take 5)
    (persist_plans_phase resp.plans
      (persist_issues_phase mmid resp.issues db).2
      (persist_causes_phase mmid resp.root_causes
        (persist_issues_phase mmid resp.issues db).2
        (persist_issues_phase mmid resp.issues db).1)) []
  have hfinal : (persist_analysis_and_tasks mmid resp db).2.2 =
      (persist_tasks_phase mmid resp.tasks
        (persist_issues_phase mmid resp.issues db).2
        (persist_plans_phase resp.plans
          (persist_issues_phase mmid resp.issues db).2
          (persist_causes_phase mmid resp.root_causes
            (persist_issues_phase mmid resp.issues db).2
            (persist_issues_phase mmid resp.issues db).1))).1 := rfl
  have hip' : (persist_analysis_and_tasks mmid resp db).2.2.issue_projects
      = [] := by
    rw [hfinal]
    unfold persist_tasks_phase
    rw [htip, hplans]
    show (persist_causes_phase mmid resp.root_causes
        (persist_issues_phase mmid resp.issues db).2
        (persist_issues_phase mmid resp.issues db).1).issue_projects = _
    rw [hcip, hphase]
    exact hip
  have htp' : (persist_analysis_and_tasks mmid resp db).2.2.task_projects
      = [] := by
    rw [hfinal]
    unfold persist_tasks_phase
    rw [http, hplans]
    show (persist_causes_phase mmid resp.root_causes
        (persist_issues_phase mmid resp.issues db).2
        (persist_issues_phase mmid resp.issues db).1).task_projects = _
    rw [hctp, hphase]
    exact htp
  refine ⟨hip', htp', ?_, ?_⟩
  · intro ir hir
    unfold format_issues_response at hir
    obtain ⟨issue, -, rfl⟩ := List.mem_map.mp hir
    simp [issue_related_projects, hip']
  · intro tr htr
    unfold format_tasks_response at htr
    obtain ⟨task, -, rfl⟩ := List.mem_map.mp htr
    simp [task_related_projects, htp']

/-- C10 witness: one issue and one task through the pipeline on an
empty database; the reply-path link lists are empty. -/
theorem persist_analysis_no_project_links_witness :
    (⟨1, [], [], [], [], [], [], [], [], [], [], [], []⟩ : Db
      ).issue_projects = [] ∧
    (⟨1, [], [], [], [], [], [], [], [], [], [], [], []⟩ : Db
      ).task_projects = [] ∧
    ((persist_analysis_and_tasks 1
        ⟨[⟨"focus_conflict".toList, "d".toList, none, none⟩], [],
          [⟨"focus_conflict".toList, none, none⟩],
          [⟨"t".toList, "k".toList, [], 1, none, none, none, none⟩]⟩
        ⟨1, [], [], [], [], [], [], [], [], [], [], [], []⟩
      ).2.2.issue_projects = [] ∧
      (persist_analysis_and_tasks 1
        ⟨[⟨"focus_conflict".toList, "d".toList, none, none⟩], [],
          [⟨"focus_conflict".toList, none, none⟩],
          [⟨"t".toList, "k".toList, [], 1, none, none, none, none⟩]⟩
        ⟨1, [], [], [], [], [], [], [], [], [], [], [], []⟩
      ).2.2.task_projects = [] ∧
      (∀ ir ∈ format_issues_response 1
          (persist_analysis_and_tasks 1
            ⟨[⟨"focus_conflict".toList, "d".toList, none, none⟩], [],
              [⟨"focus_conflict".toList, none, none⟩],
              [⟨"t".toList, "k".toList, [], 1, none, none, none, none⟩]⟩
            ⟨1, [], [], [], [], [], [], [], [], [], [], [], []⟩).2.2,
        ir.related_projects = []) ∧
      ∀ tr ∈ format_tasks_response 1
          (persist_analysis_and_tasks 1
            ⟨[⟨"focus_conflict".toList, "d".toList, none, none⟩], [],
              [⟨"focus_conflict".toList, none, none⟩],
              [⟨"t".toList, "k".toList, [], 1, none, none, none, none⟩]⟩
            ⟨1, [], [], [], [], [], [], [], [], [], [], [], []⟩).2.2,
        tr.related_projects = []) :=
  ⟨rfl, rfl,
    persist_analysis_no_project_links 1
      ⟨[⟨"focus_conflict".toList, "d".toList, none, none⟩], [],
        [⟨"focus_conflict".toList, none, none⟩],
        [⟨"t".toList, "k".toList, [], 1, none, none, none, none⟩]⟩
      ⟨1, [], [], [], [], [], [], [], [], [], [], [], []⟩ rfl rfl⟩

/-! ## C9 — snapshot candidates are not deduplicated by mind map -/

/-- C9 counterexample: with two snapshots of the same mind map among
the user's most recent, `retrieve_snapshot_candidates` returns both —
two distinct entries with the same `map_id`. -/
theorem retrieve_snapshot_candidates_dup_counterexample :
    ∃ c1 ∈ retrieve_snapshot_candidates 1 [] 3
        ⟨4, [⟨1, 1, "A".toList, "T".toList⟩], [], [], [], [], [], [],
          [], [], [],
          [⟨1, 1, some 1, 0, none, [], 1⟩, ⟨2, 1, some 1, 0, none, [], 2⟩],
          [⟨1, 1⟩]⟩,
      ∃ c2 ∈ retrieve_snapshot_candidates 1 [] 3
        ⟨4, [⟨1, 1, "A".toList, "T".toList⟩], [], [], [], [], [], [],
          [], [], [],
          [⟨1, 1, some 1, 0, none, [], 1⟩, ⟨2, 1, some 1, 0, none, [], 2⟩],
          [⟨1, 1⟩]⟩,
        c1 ≠ c2 ∧ c1.map_id = c2.map_id := by decide

/-- C9 amended: `retrieve_snapshot_candidates` returns the user's most
recent snapshots — at most `limit` entries, ordered most recent first —
one candidate per snapshot row, with no per-mind-map deduplication. -/
theorem retrieve_snapshot_candidates_recent_first (user_id : Nat)
    (kws : List PyStr) (limit : Nat) (db : Db) :
    (retrieve_snapshot_candidates user_id kws limit db).length ≤ limit ∧
      (retrieve_snapshot_candidates user_id kws limit db).Pairwise
        (fun a b => b.last_updated ≤ a.last_updated) := by
  constructor
  · simp only [retrieve_snapshot_candidates, find_similar_snapshots,
      List.length_map, List.length_take]
    omega
  · unfold retrieve_snapshot_candidates find_similar_snapshots
    rw [List.pairwise_map, List.pairwise_map]
    exact List.Pairwise.sublist (List.take_sublist _ _)
      (sort_desc_key_pairwise _ _)

end Clearity
